/-
Verification development for the `graph_theory` repository.

The repository implements a mutable directed graph (src/vertex.py, src/edge.py,
src/graph.py) together with DFS path search, DFS reachability, Tarjan SCCs, a
condensation graph and an edge-augmentation counter.  This file gives a shallow
embedding of that code and proves (or refutes) the frozen specification claims.

Modelling conventions:
* a Python `Vertex` is identified by its label (the graph keeps one `Vertex`
  object per label, and `Vertex.__eq__` is object identity, which under that
  uniqueness coincides with label equality);
* `Edge` objects are identified by their creation index into the graph's edge
  collection; a `Vertex` stores the indices of its incident edges in insertion
  order (a Python `set` of distinct objects, modelled as the list of those
  objects in creation order, one admissible iteration order);
* the `vertices` dict is an insertion-ordered association list;
* recursive Python functions become fuel-indexed Lean functions; the fuel is
  provably sufficient on well-formed graphs, so exhaustion never occurs.
-/
import Mathlib

set_option maxHeartbeats 1000000
set_option maxRecDepth 10000

namespace GraphTheory

/-- src/edge.py: `Edge.__init__` stores start vertex, end vertex and weight.
The vertices are referenced by their (unique) labels. -/
structure Edge where
  start_vertex : String
  end_vertex : String
  weight : Int
deriving DecidableEq

/-- src/vertex.py: `Vertex.__init__` stores the label and the two incident-edge
sets.  Incident edges are referenced by their creation index. -/
structure Vertex where
  label : String
  incoming_edges : List Nat
  outgoing_edges : List Nat
deriving DecidableEq

/-- src/graph.py: `DirectedGraph.__init__`: a dict from label to `Vertex`
(modelled as an insertion-ordered association list) and the collection of all
edges (in creation order; the edge with index `i` is `edges[i]`). -/
structure DirectedGraph where
  vertices : List (String × Vertex)
  edges : List Edge
deriving DecidableEq

def DirectedGraph.empty : DirectedGraph := ⟨[], []⟩

/-- Lookup in the `vertices` dict. -/
def dictLookup : List (String × Vertex) → String → Option Vertex
  | [], _ => none
  | p :: ps, l => if p.1 = l then some p.2 else dictLookup ps l

/-- The labels present in the graph (`self.vertices` keys, insertion order). -/
def keysOf (g : DirectedGraph) : List String := g.vertices.map Prod.fst

/-- src/graph.py `add_vertex`: add a fresh vertex if the label is absent. -/
def add_vertex (g : DirectedGraph) (label : String) : DirectedGraph :=
  if (dictLookup g.vertices label).isSome then g
  else { g with vertices := g.vertices ++ [(label, ⟨label, [], []⟩)] }

/-- src/graph.py `get_vertex`: create the vertex if needed, then return it
(together with the possibly-extended graph, i.e. the mutated `self`). -/
def get_vertex (g : DirectedGraph) (label : String) : DirectedGraph × Vertex :=
  let g' := add_vertex g label
  (g', (dictLookup g'.vertices label).getD ⟨label, [], []⟩)

/-- Replace the entry of `label` in the vertex dict by applying `f` to it. -/
def updateVertexEntry (g : DirectedGraph) (label : String) (f : Vertex → Vertex) :
    DirectedGraph :=
  { g with vertices := g.vertices.map (fun p => if p.1 = label then (p.1, f p.2) else p) }

/-- src/graph.py `add_edge`: ensure both endpoints exist (`get_vertex`), then
construct an `Edge`, whose `__init__` registers it in the start vertex's
outgoing set and the end vertex's incoming set; finally the graph adds it to
its edge collection.  The new edge's index is the current number of edges. -/
def add_edge (g : DirectedGraph) (start : String) (endl : String) : DirectedGraph :=
  let g1 := (get_vertex g start).1
  let g2 := (get_vertex g1 endl).1
  let i := g2.edges.length
  let g3 := updateVertexEntry g2 start (fun v => { v with outgoing_edges := v.outgoing_edges ++ [i] })
  let g4 := updateVertexEntry g3 endl (fun v => { v with incoming_edges := v.incoming_edges ++ [i] })
  { g4 with edges := g4.edges ++ [Edge.mk start endl 1] }

/-- Build a graph from a list of directed label pairs (as the external caller
src/main.py `create_airport_graph` does). -/
def buildGraph (pairs : List (String × String)) : DirectedGraph :=
  pairs.foldl (fun g p => add_edge g p.1 p.2) DirectedGraph.empty

/-- The public mutation operations of the graph container. -/
inductive Op where
  | addV (label : String)
  | getV (label : String)
  | addE (start endl : String)
deriving DecidableEq

def applyOp (g : DirectedGraph) : Op → DirectedGraph
  | .addV l => add_vertex g l
  | .getV l => (get_vertex g l).1
  | .addE s t => add_edge g s t

def applyOps (ops : List Op) : DirectedGraph :=
  ops.foldl applyOp DirectedGraph.empty

/-- The outgoing `Edge` objects stored on the vertex labelled `l`
(`vertex.outgoing_edges` in the source). -/
def outgoingEdges (g : DirectedGraph) (l : String) : List Edge :=
  match dictLookup g.vertices l with
  | none => []
  | some v => v.outgoing_edges.filterMap (fun i => g.edges.get? i)

/-- The incoming `Edge` objects stored on the vertex labelled `l`. -/
def incomingEdges (g : DirectedGraph) (l : String) : List Edge :=
  match dictLookup g.vertices l with
  | none => []
  | some v => v.incoming_edges.filterMap (fun i => g.edges.get? i)

/-- The successor labels of `l`: `edge.end_vertex` for each stored outgoing
edge — the iteration every algorithm in src/graph.py performs. -/
def succs (g : DirectedGraph) (l : String) : List String :=
  (outgoingEdges g l).map Edge.end_vertex

/-- One directed step along an existing edge of the graph. -/
def stepG (g : DirectedGraph) (u v : String) : Prop :=
  ∃ e ∈ g.edges, e.start_vertex = u ∧ e.end_vertex = v

/-- Reachability by following outgoing edges transitively. -/
def ReachG (g : DirectedGraph) : String → String → Prop :=
  Relation.ReflTransGen (stepG g)

/-- Does the edge with index `i` start at label `l`? -/
def startsAt (es : List Edge) (i : Nat) (l : String) : Bool :=
  (es.get? i).any (fun e => e.start_vertex == l)

/-- Does the edge with index `i` end at label `l`? -/
def endsAt (es : List Edge) (i : Nat) (l : String) : Bool :=
  (es.get? i).any (fun e => e.end_vertex == l)

/-- Well-formedness of a graph state: unique labels, correct vertex labels,
each vertex's incident-edge sets are exactly the indices of the edges with the
matching endpoint (in creation order), and all edge endpoints are present.
Every graph reachable through the public mutation operations satisfies it. -/
structure WF (g : DirectedGraph) : Prop where
  nodupKeys : (keysOf g).Nodup
  labelEq : ∀ p ∈ g.vertices, p.2.label = p.1
  outChar : ∀ p ∈ g.vertices, p.2.outgoing_edges
      = (List.range g.edges.length).filter (fun i => startsAt g.edges i p.1)
  inChar : ∀ p ∈ g.vertices, p.2.incoming_edges
      = (List.range g.edges.length).filter (fun i => endsAt g.edges i p.1)
  endpoints : ∀ e ∈ g.edges, e.start_vertex ∈ keysOf g ∧ e.end_vertex ∈ keysOf g

theorem dictLookup_mem {ps : List (String × Vertex)} {l : String} {v : Vertex}
    (h : dictLookup ps l = some v) : (l, v) ∈ ps := by
  induction ps with
  | nil => simp [dictLookup] at h
  | cons p ps ih =>
    by_cases hp : p.1 = l
    · simp only [dictLookup, if_pos hp] at h
      subst hp
      cases h
      cases p
      exact List.mem_cons_self _ _
    · simp only [dictLookup, if_neg hp] at h
      exact List.mem_cons_of_mem _ (ih h)

theorem mem_keys_iff_lookup {g : DirectedGraph} {l : String} :
    l ∈ keysOf g ↔ (dictLookup g.vertices l).isSome := by
  show l ∈ g.vertices.map Prod.fst ↔ _
  induction g.vertices with
  | nil => simp [dictLookup]
  | cons p ps ih =>
    by_cases hp : p.1 = l
    · simp [dictLookup, hp]
    · simpa [dictLookup, hp, Ne.symm hp] using ih

theorem filterMap_get_range_filter {α : Type} (q : α → Bool) (es : List α) :
    ((List.range es.length).filter (fun i => (es.get? i).any q)).filterMap
        (fun i => es.get? i)
      = es.filter q := by
  induction es using List.reverseRecOn with
  | nil => simp
  | append_singleton es a ih =>
    have hlen : (es ++ [a]).length = es.length + 1 := by simp
    rw [hlen, List.range_succ, List.filter_append, List.filterMap_append]
    have h1 : (List.range es.length).filter
        (fun i => ((es ++ [a]).get? i).any q)
        = (List.range es.length).filter (fun i => (es.get? i).any q) := by
      apply List.filter_congr
      intro i hi
      rw [List.get?_append (List.mem_range.mp hi)]
    have h2 : ((List.range es.length).filter (fun i => (es.get? i).any q)).filterMap
        (fun i => (es ++ [a]).get? i)
        = ((List.range es.length).filter (fun i => (es.get? i).any q)).filterMap
          (fun i => es.get? i) := by
      apply List.filterMap_congr
      intro i hi
      have hi' : i < es.length := List.mem_range.mp (List.mem_of_mem_filter hi)
      rw [List.get?_append hi']
    have h3 : ([es.length].filter (fun i => ((es ++ [a]).get? i).any q)).filterMap
        (fun i => (es ++ [a]).get? i) = [a].filter q := by
      by_cases hq : q a
      · simp [List.get?_concat_length, Option.any, hq]
      · simp [List.get?_concat_length, Option.any, hq]
    rw [h1, h2, ih, h3, List.filter_append]

theorem WF.outgoing_eq {g : DirectedGraph} (h : WF g) {l : String}
    (hl : l ∈ keysOf g) :
    outgoingEdges g l = g.edges.filter (fun e => e.start_vertex == l) := by
  obtain ⟨v, hv⟩ := Option.isSome_iff_exists.mp (mem_keys_iff_lookup.mp hl)
  have hmem : (l, v) ∈ g.vertices := dictLookup_mem hv
  have hchar := h.outChar _ hmem
  show (match dictLookup g.vertices l with
    | none => []
    | some v => v.outgoing_edges.filterMap (fun i => g.edges.get? i)) = _
  rw [hv]
  simp only
  rw [hchar]
  exact filterMap_get_range_filter _ g.edges

theorem WF.incoming_eq {g : DirectedGraph} (h : WF g) {l : String}
    (hl : l ∈ keysOf g) :
    incomingEdges g l = g.edges.filter (fun e => e.end_vertex == l) := by
  obtain ⟨v, hv⟩ := Option.isSome_iff_exists.mp (mem_keys_iff_lookup.mp hl)
  have hmem : (l, v) ∈ g.vertices := dictLookup_mem hv
  have hchar := h.inChar _ hmem
  show (match dictLookup g.vertices l with
    | none => []
    | some v => v.incoming_edges.filterMap (fun i => g.edges.get? i)) = _
  rw [hv]
  simp only
  rw [hchar]
  exact filterMap_get_range_filter _ g.edges

theorem outgoingEdges_absent {g : DirectedGraph} {l : String}
    (hl : l ∉ keysOf g) : outgoingEdges g l = [] := by
  have : dictLookup g.vertices l = none := by
    cases hd : dictLookup g.vertices l with
    | none => rfl
    | some v => exact absurd (mem_keys_iff_lookup.mpr (by simp [hd])) hl
  simp [outgoingEdges, this]

theorem wf_empty : WF DirectedGraph.empty := by
  constructor <;> simp [DirectedGraph.empty, keysOf]

theorem startsAt_false_of_absent {g : DirectedGraph} (h : WF g) {l : String}
    (hl : l ∉ keysOf g) (i : Nat) : startsAt g.edges i l = false := by
  unfold startsAt
  cases he : g.edges.get? i with
  | none => rfl
  | some e =>
    have hmem : e ∈ g.edges := List.get?_mem he
    have : e.start_vertex ≠ l := fun hc => hl (hc ▸ (h.endpoints e hmem).1)
    simp [Option.any, this]

theorem endsAt_false_of_absent {g : DirectedGraph} (h : WF g) {l : String}
    (hl : l ∉ keysOf g) (i : Nat) : endsAt g.edges i l = false := by
  unfold endsAt
  cases he : g.edges.get? i with
  | none => rfl
  | some e =>
    have hmem : e ∈ g.edges := List.get?_mem he
    have : e.end_vertex ≠ l := fun hc => hl (hc ▸ (h.endpoints e hmem).2)
    simp [Option.any, this]

theorem add_vertex_present {g : DirectedGraph} {l : String}
    (hl : l ∈ keysOf g) : add_vertex g l = g := by
  simp [add_vertex, mem_keys_iff_lookup.mp hl]

theorem add_vertex_absent {g : DirectedGraph} {l : String}
    (hl : l ∉ keysOf g) :
    add_vertex g l = { g with vertices := g.vertices ++ [(l, ⟨l, [], []⟩)] } := by
  have : (dictLookup g.vertices l).isSome = false := by
    rw [Bool.eq_false_iff]
    exact fun hc => hl (mem_keys_iff_lookup.mpr hc)
  simp [add_vertex, this]

theorem keysOf_add_vertex_absent {g : DirectedGraph} {l : String}
    (hl : l ∉ keysOf g) : keysOf (add_vertex g l) = keysOf g ++ [l] := by
  rw [add_vertex_absent hl]
  simp [keysOf]

theorem mem_keys_add_vertex_self (g : DirectedGraph) (l : String) :
    l ∈ keysOf (add_vertex g l) := by
  by_cases hl : l ∈ keysOf g
  · rw [add_vertex_present hl]; exact hl
  · rw [keysOf_add_vertex_absent hl]; simp

theorem keys_subset_add_vertex (g : DirectedGraph) (l : String) :
    keysOf g ⊆ keysOf (add_vertex g l) := by
  by_cases hl : l ∈ keysOf g
  · rw [add_vertex_present hl]
    exact fun x hx => hx
  · rw [keysOf_add_vertex_absent hl]; exact fun x hx => List.mem_append_left _ hx

theorem edges_add_vertex (g : DirectedGraph) (l : String) :
    (add_vertex g l).edges = g.edges := by
  by_cases hl : l ∈ keysOf g
  · rw [add_vertex_present hl]
  · rw [add_vertex_absent hl]

theorem wf_add_vertex {g : DirectedGraph} (h : WF g) (l : String) :
    WF (add_vertex g l) := by
  by_cases hl : l ∈ keysOf g
  · rw [add_vertex_present hl]; exact h
  · rw [add_vertex_absent hl]
    constructor
    · show (List.map Prod.fst (g.vertices ++ [(l, _)])).Nodup
      rw [List.map_append]
      rw [List.nodup_append]
      refine ⟨h.nodupKeys, by simp, ?_⟩
      intro x hx
      simp only [List.map_cons, List.map_nil, List.mem_singleton]
      intro hc
      exact hl (hc ▸ hx)
    · intro p hp
      rcases List.mem_append.mp hp with hp | hp
      · exact h.labelEq p hp
      · simp at hp; subst hp; rfl
    · intro p hp
      rcases List.mem_append.mp hp with hp | hp
      · exact h.outChar p hp
      · simp at hp
        subst hp
        show ([] : List Nat) = _
        rw [eq_comm, List.filter_eq_nil]
        intro i _
        simp [startsAt_false_of_absent h hl i]
    · intro p hp
      rcases List.mem_append.mp hp with hp | hp
      · exact h.inChar p hp
      · simp at hp
        subst hp
        show ([] : List Nat) = _
        rw [eq_comm, List.filter_eq_nil]
        intro i _
        simp [endsAt_false_of_absent h hl i]
    · intro e he
      have := h.endpoints e he
      constructor
      · show _ ∈ List.map Prod.fst (g.vertices ++ _)
        rw [List.map_append]
        exact List.mem_append_left _ this.1
      · show _ ∈ List.map Prod.fst (g.vertices ++ _)
        rw [List.map_append]
        exact List.mem_append_left _ this.2

/-- The combined per-entry update performed by `add_edge` on the vertex dict:
register edge index `n` in `s`'s outgoing set and `t`'s incoming set. -/
def edgeUpd (s t : String) (n : Nat) (p : String × Vertex) : String × Vertex :=
  (p.1,
   { label := p.2.label,
     incoming_edges := p.2.incoming_edges ++ (if p.1 = t then [n] else []),
     outgoing_edges := p.2.outgoing_edges ++ (if p.1 = s then [n] else []) })

theorem edgeUpd_fst (s t : String) (n : Nat) (p : String × Vertex) :
    (edgeUpd s t n p).1 = p.1 := rfl

theorem edgeUpd_label (s t : String) (n : Nat) (p : String × Vertex) :
    (edgeUpd s t n p).2.label = p.2.label := rfl

theorem edgeUpd_out (s t : String) (n : Nat) (p : String × Vertex) :
    (edgeUpd s t n p).2.outgoing_edges
      = p.2.outgoing_edges ++ (if p.1 = s then [n] else []) := rfl

theorem edgeUpd_in (s t : String) (n : Nat) (p : String × Vertex) :
    (edgeUpd s t n p).2.incoming_edges
      = p.2.incoming_edges ++ (if p.1 = t then [n] else []) := rfl

theorem add_edge_eq (g : DirectedGraph) (s t : String) :
    add_edge g s t =
      { vertices := (add_vertex (add_vertex g s) t).vertices.map
          (edgeUpd s t (add_vertex (add_vertex g s) t).edges.length),
        edges := (add_vertex (add_vertex g s) t).edges ++ [Edge.mk s t 1] } := by
  show DirectedGraph.mk _ _ = _
  simp only [add_edge, get_vertex, updateVertexEntry, add_vertex]
  simp only [List.map_map]
  congr 1
  apply List.map_congr_left
  intro p _
  obtain ⟨k, v⟩ := p
  unfold edgeUpd
  simp only [Function.comp]
  by_cases h1 : k = s
  · subst h1
    by_cases h2 : k = t
    · subst h2
      simp
    · simp [h2]
  · by_cases h2 : k = t
    · subst h2
      simp [h1]
    · simp [h1, h2]

theorem startsAt_append_lt {es : List Edge} {tl : List Edge} {i : Nat}
    (h : i < es.length) (k : String) : startsAt (es ++ tl) i k = startsAt es i k := by
  unfold startsAt
  rw [List.get?_append h]

theorem endsAt_append_lt {es : List Edge} {tl : List Edge} {i : Nat}
    (h : i < es.length) (k : String) : endsAt (es ++ tl) i k = endsAt es i k := by
  unfold endsAt
  rw [List.get?_append h]

theorem startsAt_append_self (es : List Edge) (e : Edge) (k : String) :
    startsAt (es ++ [e]) es.length k = (e.start_vertex == k) := by
  unfold startsAt
  rw [List.get?_concat_length]
  rfl

theorem endsAt_append_self (es : List Edge) (e : Edge) (k : String) :
    endsAt (es ++ [e]) es.length k = (e.end_vertex == k) := by
  unfold endsAt
  rw [List.get?_concat_length]
  rfl

theorem keysOf_add_edge (g : DirectedGraph) (s t : String) :
    keysOf (add_edge g s t) = keysOf (add_vertex (add_vertex g s) t) := by
  rw [add_edge_eq]
  show List.map _ (List.map _ _) = _
  rw [List.map_map]
  apply List.map_congr_left
  intro p _
  exact edgeUpd_fst s t _ p

theorem edges_add_edge (g : DirectedGraph) (s t : String) :
    (add_edge g s t).edges
      = (add_vertex (add_vertex g s) t).edges ++ [Edge.mk s t 1] := by
  rw [add_edge_eq]

theorem wf_add_edge {g : DirectedGraph} (h : WF g) (s t : String) :
    WF (add_edge g s t) := by
  set g2 := add_vertex (add_vertex g s) t with hg2
  have h2 : WF g2 := wf_add_vertex (wf_add_vertex h s) t
  have hs2 : s ∈ keysOf g2 :=
    keys_subset_add_vertex _ t (mem_keys_add_vertex_self g s)
  have ht2 : t ∈ keysOf g2 := mem_keys_add_vertex_self _ t
  set n := g2.edges.length with hn
  set e0 : Edge := Edge.mk s t 1 with he0
  have hkeys : keysOf (add_edge g s t) = keysOf g2 := keysOf_add_edge g s t
  rw [add_edge_eq g s t]
  rw [← hg2, ← hn, ← he0]
  constructor
  · show (List.map Prod.fst (g2.vertices.map (edgeUpd s t n))).Nodup
    rw [List.map_map]
    have : (Prod.fst ∘ edgeUpd s t n) = Prod.fst := by
      funext p
      exact edgeUpd_fst s t n p
    rw [this]
    exact h2.nodupKeys
  · intro p hp
    obtain ⟨q, hq, hpq⟩ := List.mem_map.mp hp
    subst hpq
    rw [edgeUpd_label, edgeUpd_fst]
    exact h2.labelEq q hq
  · intro p hp
    obtain ⟨q, hq, hpq⟩ := List.mem_map.mp hp
    subst hpq
    rw [edgeUpd_out, edgeUpd_fst]
    show _ = (List.range (g2.edges ++ [e0]).length).filter _
    have hlen : (g2.edges ++ [e0]).length = n + 1 := by simp [hn]
    rw [hlen, List.range_succ, List.filter_append]
    have hpart1 : (List.range n).filter (fun i => startsAt (g2.edges ++ [e0]) i q.1)
        = (List.range n).filter (fun i => startsAt g2.edges i q.1) := by
      apply List.filter_congr
      intro i hi
      exact startsAt_append_lt (List.mem_range.mp hi) q.1
    have hpart2 : [n].filter (fun i => startsAt (g2.edges ++ [e0]) i q.1)
        = (if q.1 = s then [n] else []) := by
      have hsa : startsAt (g2.edges ++ [e0]) n q.1 = (s == q.1) :=
        startsAt_append_self g2.edges e0 q.1
      by_cases hqs : q.1 = s
      · have htrue : startsAt (g2.edges ++ [e0]) n q.1 = true := by
          rw [hsa, hqs]
          simp
        rw [if_pos hqs]
        simp [List.filter_singleton, htrue]
      · have hfalse : startsAt (g2.edges ++ [e0]) n q.1 = false := by
          rw [hsa]
          simp [Ne.symm hqs]
        rw [if_neg hqs]
        simp [List.filter_singleton, hfalse]
    rw [hpart1, hpart2, ← h2.outChar q hq]
  · intro p hp
    obtain ⟨q, hq, hpq⟩ := List.mem_map.mp hp
    subst hpq
    rw [edgeUpd_in, edgeUpd_fst]
    show _ = (List.range (g2.edges ++ [e0]).length).filter _
    have hlen : (g2.edges ++ [e0]).length = n + 1 := by simp [hn]
    rw [hlen, List.range_succ, List.filter_append]
    have hpart1 : (List.range n).filter (fun i => endsAt (g2.edges ++ [e0]) i q.1)
        = (List.range n).filter (fun i => endsAt g2.edges i q.1) := by
      apply List.filter_congr
      intro i hi
      exact endsAt_append_lt (List.mem_range.mp hi) q.1
    have hpart2 : [n].filter (fun i => endsAt (g2.edges ++ [e0]) i q.1)
        = (if q.1 = t then [n] else []) := by
      have hsa : endsAt (g2.edges ++ [e0]) n q.1 = (t == q.1) :=
        endsAt_append_self g2.edges e0 q.1
      by_cases hqt : q.1 = t
      · have htrue : endsAt (g2.edges ++ [e0]) n q.1 = true := by
          rw [hsa, hqt]
          simp
        rw [if_pos hqt]
        simp [List.filter_singleton, htrue]
      · have hfalse : endsAt (g2.edges ++ [e0]) n q.1 = false := by
          rw [hsa]
          simp [Ne.symm hqt]
        rw [if_neg hqt]
        simp [List.filter_singleton, hfalse]
    rw [hpart1, hpart2, ← h2.inChar q hq]
  · intro e he
    have hk : keysOf (DirectedGraph.mk (g2.vertices.map (edgeUpd s t n)) (g2.edges ++ [e0]))
        = keysOf g2 := by
      show List.map _ (List.map _ _) = _
      rw [List.map_map]
      have : (Prod.fst ∘ edgeUpd s t n) = Prod.fst := by
        funext p
        exact edgeUpd_fst s t n p
      rw [this]
      rfl
    rw [hk]
    rcases List.mem_append.mp he with he | he
    · exact h2.endpoints e he
    · simp at he
      subst he
      exact ⟨hs2, ht2⟩

theorem wf_applyOp {g : DirectedGraph} (h : WF g) (op : Op) : WF (applyOp g op) := by
  cases op with
  | addV l => exact wf_add_vertex h l
  | getV l => exact wf_add_vertex h l
  | addE s t => exact wf_add_edge h s t

theorem wf_applyOps (ops : List Op) : WF (applyOps ops) := by
  suffices h : ∀ g, WF g → WF (ops.foldl applyOp g) by
    exact h _ wf_empty
  induction ops with
  | nil => exact fun g hg => hg
  | cons op ops ih => exact fun g hg => ih _ (wf_applyOp hg op)

theorem wf_buildGraph (pairs : List (String × String)) : WF (buildGraph pairs) := by
  suffices h : ∀ g, WF g → WF (pairs.foldl (fun g p => add_edge g p.1 p.2) g) by
    exact h _ wf_empty
  induction pairs with
  | nil => exact fun g hg => hg
  | cons p ps ih => exact fun g hg => ih _ (wf_add_edge hg p.1 p.2)

/-- The incidence invariant of the data model: an edge is in the graph's edge
collection exactly when it is registered in its start vertex's outgoing set
and in its end vertex's incoming set, and the incident sets reference only
edges of the collection (with the matching endpoint). -/
def incidence (g : DirectedGraph) : Prop :=
  (∀ i e, g.edges.get? i = some e →
     (∃ v, dictLookup g.vertices e.start_vertex = some v ∧ i ∈ v.outgoing_edges) ∧
     (∃ v, dictLookup g.vertices e.end_vertex = some v ∧ i ∈ v.incoming_edges)) ∧
  (∀ p ∈ g.vertices,
     (∀ i ∈ p.2.outgoing_edges, ∃ e, g.edges.get? i = some e ∧ e.start_vertex = p.1) ∧
     (∀ i ∈ p.2.incoming_edges, ∃ e, g.edges.get? i = some e ∧ e.end_vertex = p.1))

theorem dictLookup_eq_of_mem {ps : List (String × Vertex)}
    (hnd : (ps.map Prod.fst).Nodup) {p : String × Vertex} (hp : p ∈ ps) :
    dictLookup ps p.1 = some p.2 := by
  induction ps with
  | nil => cases hp
  | cons r rs ih =>
    rw [List.map_cons, List.nodup_cons] at hnd
    obtain ⟨hrn, hnd'⟩ := hnd
    rcases List.mem_cons.mp hp with h1 | h1
    · subst h1
      simp [dictLookup]
    · have hr : ¬ r.1 = p.1 := by
        intro hc
        exact hrn (hc ▸ List.mem_map.mpr ⟨p, h1, rfl⟩)
      simp only [dictLookup, if_neg hr]
      exact ih hnd' h1

theorem lookup_of_mem {g : DirectedGraph} (h : WF g) {p : String × Vertex}
    (hp : p ∈ g.vertices) : dictLookup g.vertices p.1 = some p.2 :=
  dictLookup_eq_of_mem h.nodupKeys hp

theorem wf_incidence {g : DirectedGraph} (h : WF g) : incidence g := by
  constructor
  · intro i e hie
    have hmem : e ∈ g.edges := List.get?_mem hie
    have hilt : i < g.edges.length := by
      rcases List.get?_eq_some.mp hie with ⟨hlt, _⟩
      exact hlt
    have hse := (h.endpoints e hmem).1
    have hee := (h.endpoints e hmem).2
    constructor
    · obtain ⟨v, hv⟩ := Option.isSome_iff_exists.mp (mem_keys_iff_lookup.mp hse)
      refine ⟨v, hv, ?_⟩
      have hpv : (e.start_vertex, v) ∈ g.vertices := dictLookup_mem hv
      rw [h.outChar _ hpv]
      rw [List.mem_filter]
      refine ⟨List.mem_range.mpr hilt, ?_⟩
      show startsAt g.edges i e.start_vertex = true
      unfold startsAt
      rw [hie]
      simp
    · obtain ⟨v, hv⟩ := Option.isSome_iff_exists.mp (mem_keys_iff_lookup.mp hee)
      refine ⟨v, hv, ?_⟩
      have hpv : (e.end_vertex, v) ∈ g.vertices := dictLookup_mem hv
      rw [h.inChar _ hpv]
      rw [List.mem_filter]
      refine ⟨List.mem_range.mpr hilt, ?_⟩
      show endsAt g.edges i e.end_vertex = true
      unfold endsAt
      rw [hie]
      simp
  · intro p hp
    constructor
    · intro i hi
      rw [h.outChar _ hp] at hi
      rcases List.mem_filter.mp hi with ⟨_, hpred⟩
      unfold startsAt at hpred
      cases hie : g.edges.get? i with
      | none => rw [hie] at hpred; cases hpred
      | some e =>
        rw [hie] at hpred
        refine ⟨e, rfl, ?_⟩
        simpa using hpred
    · intro i hi
      rw [h.inChar _ hp] at hi
      rcases List.mem_filter.mp hi with ⟨_, hpred⟩
      unfold endsAt at hpred
      cases hie : g.edges.get? i with
      | none => rw [hie] at hpred; cases hpred
      | some e =>
        rw [hie] at hpred
        refine ⟨e, rfl, ?_⟩
        simpa using hpred

/-- Claim C9: for every graph obtained from a fresh `DirectedGraph` by any
sequence of `add_vertex`, `get_vertex` and `add_edge` calls, the incidence
invariant holds: an edge belongs to the graph's edge collection iff it is
registered in its start vertex's outgoing set and its end vertex's incoming
set, and no vertex's incident sets reference an edge outside the collection
(or with a different endpoint). -/
theorem claim_C9_incidence_invariant (ops : List Op) : incidence (applyOps ops) :=
  wf_incidence (wf_applyOps ops)

theorem succs_absent {g : DirectedGraph} {u : String}
    (hu : u ∉ keysOf g) : succs g u = [] := by
  unfold succs
  rw [outgoingEdges_absent hu]
  rfl

theorem stepG_mem_keys {g : DirectedGraph} (h : WF g) {u v : String}
    (hs : stepG g u v) : u ∈ keysOf g ∧ v ∈ keysOf g := by
  obtain ⟨e, he, h1, h2⟩ := hs
  exact ⟨h1 ▸ (h.endpoints e he).1, h2 ▸ (h.endpoints e he).2⟩

theorem mem_succs_iff {g : DirectedGraph} (h : WF g) {u : String}
    (hu : u ∈ keysOf g) (v : String) : v ∈ succs g u ↔ stepG g u v := by
  unfold succs
  rw [h.outgoing_eq hu]
  constructor
  · intro hv
    obtain ⟨e, he, hev⟩ := List.mem_map.mp hv
    rcases List.mem_filter.mp he with ⟨hee, hstart⟩
    exact ⟨e, hee, by simpa using hstart, hev⟩
  · intro ⟨e, hee, hstart, hend⟩
    exact List.mem_map.mpr ⟨e, List.mem_filter.mpr ⟨hee, by simp [hstart]⟩, hend⟩

theorem step_of_mem_succs {g : DirectedGraph} (h : WF g) {u v : String}
    (hv : v ∈ succs g u) : stepG g u v := by
  by_cases hu : u ∈ keysOf g
  · exact (mem_succs_iff h hu v).mp hv
  · rw [succs_absent hu] at hv
    cases hv

theorem succs_mem_keys {g : DirectedGraph} (h : WF g) {u v : String}
    (hv : v ∈ succs g u) : v ∈ keysOf g :=
  (stepG_mem_keys h (step_of_mem_succs h hv)).2

theorem reachG_mem_keys {g : DirectedGraph} (h : WF g) {u v : String}
    (hr : ReachG g u v) (hu : u ∈ keysOf g) : v ∈ keysOf g := by
  induction hr with
  | refl => exact hu
  | tail _ hstep ih => exact (stepG_mem_keys h hstep).2

/-! ### `get_path` (src/graph.py lines 141-174)

The inner `dfs` iterates `for neighbor in current.outgoing_edges` and recurses
on `neighbor` directly, so the values reaching `current` are either `Vertex`
objects (the initial call) or `Edge` objects (every recursive call).  Python's
`==` on both classes is object identity; accessing `.outgoing_edges` on an
`Edge` raises `AttributeError`.  The runtime values are modelled by `PyObj`
and the raised exception by `Except.error`. -/

/-- A runtime value flowing through `dfs`'s `current` parameter: a `Vertex`
(identified by its unique label) or an `Edge` (identified by creation index). -/
inductive PyObj where
  | V (label : String)
  | E (id : Nat)
deriving DecidableEq

instance exceptDecEq {e a : Type} [DecidableEq e] [DecidableEq a] :
    DecidableEq (Except e a) := fun x y =>
  match x, y with
  | .error u, .error v =>
    if h : u = v then isTrue (by rw [h]) else isFalse (by intro hc; cases hc; exact h rfl)
  | .ok u, .ok v =>
    if h : u = v then isTrue (by rw [h]) else isFalse (by intro hc; cases hc; exact h rfl)
  | .error _, .ok _ => isFalse (by intro hc; cases hc)
  | .ok _, .error _ => isFalse (by intro hc; cases hc)

/-- The stored outgoing edge ids of the vertex labelled `l`
(the `Edge` objects in `current.outgoing_edges`). -/
def outEdgeIds (g : DirectedGraph) (l : String) : List Nat :=
  match dictLookup g.vertices l with
  | none => []
  | some v => v.outgoing_edges

/-- Python `current == end`: `end` is the `Vertex` object for `end_label`; an
`Edge` is never identical to a `Vertex`, and two `Vertex` objects of the same
graph are identical iff their labels are equal. -/
def pyEqEndVertex (current : PyObj) (endLabel : String) : Bool :=
  match current with
  | .V l => l == endLabel
  | .E _ => false

/-- The `for neighbor in current.outgoing_edges` loop of `dfs`: skip visited
neighbours, run the recursive call `rec` otherwise, propagate `True`
immediately; when the loop finishes, `path.pop()` and return `False`. -/
def pathDfsLoop
    (rec : PyObj → List PyObj → List PyObj →
      Except String (Bool × List PyObj × List PyObj)) :
    List PyObj → List PyObj → List PyObj →
      Except String (Bool × List PyObj × List PyObj)
  | [], visited, path => Except.ok (false, visited, path.dropLast)
  | n :: ns, visited, path =>
    if n ∈ visited then pathDfsLoop rec ns visited path
    else
      match rec n visited path with
      | Except.error msg => Except.error msg
      | Except.ok (true, vis', path') => Except.ok (true, vis', path')
      | Except.ok (false, vis', path') => pathDfsLoop rec ns vis' path'

/-- The inner `dfs(current, end, visited, path)` of `get_path`.  Returns the
boolean result together with the mutated `visited` and `path`; an uncaught
Python exception becomes `Except.error`.  The fuel only bounds the recursion
depth (Python's limit); it is larger than the number of runtime objects. -/
def pathDfs (g : DirectedGraph) :
    Nat → PyObj → String → List PyObj → List PyObj →
      Except String (Bool × List PyObj × List PyObj)
  | 0, _, _, _, _ => Except.error "RecursionError"
  | fuel+1, current, endLabel, visited, path =>
    if pyEqEndVertex current endLabel then Except.ok (true, visited, path)
    else
      let visited' := visited.insert current
      let path' := path ++ [current]
      match current with
      | .E _ => Except.error "AttributeError"
      | .V l =>
          pathDfsLoop (fun c vis p => pathDfs g fuel c endLabel vis p)
            ((outEdgeIds g l).map PyObj.E) visited' path'

/-- src/graph.py `get_path`: fail-soft `[]` when either label is absent, then
run the DFS and append the end vertex when the accumulated path is nonempty. -/
def get_path (g : DirectedGraph) (start_label end_label : String) :
    Except String (List PyObj) :=
  if start_label ∉ keysOf g ∨ end_label ∉ keysOf g then Except.ok []
  else
    match pathDfs g (g.vertices.length + g.edges.length + 1)
        (PyObj.V start_label) end_label [] [] with
    | Except.error msg => Except.error msg
    | Except.ok (_, _, path) =>
        Except.ok (if path.isEmpty then path else path ++ [PyObj.V end_label])

/-- The fixed route network built by the external caller
(src/main.py `create_airport_graph`). -/
def airportPairs : List (String × String) :=
  [("DSM", "ORD"), ("ORD", "BGI"), ("BGI", "LGA"),
   ("JFK", "LGA"), ("ICN", "JFK"), ("HND", "ICN"),
   ("HND", "JFK"), ("EWR", "HND"), ("SFO", "DSM"),
   ("SFO", "SAN"), ("SAN", "EYW"), ("EYW", "LHR"),
   ("LHR", "SFO"), ("TLV", "DEL"), ("DEL", "DOH"),
   ("DEL", "CDG"), ("CDG", "BUD"), ("CDG", "SIN"),
   ("SIN", "CDG")]

/-- Claim C1 (refuted by the code, a code bug): on the graph with the single
edge A→B a directed path from A to B exists, so the claim demands the vertex
sequence A, B; instead `get_path` raises `AttributeError`, because the DFS
iterates `current.outgoing_edges` and recurses on each `Edge` object itself
(instead of `edge.end_vertex`), then evaluates `current.outgoing_edges` with
`current` bound to an `Edge`. -/
theorem claim_C1_get_path_raises :
    get_path (buildGraph [("A", "B")]) "A" "B" = Except.error "AttributeError" := by
  decide

/-- Claim C2 (refuted by the code, a code bug): `get_path` is a query
operation that raises a fault on present labels.  On the airport graph of
src/main.py (where the spec's own scenario says `findPath("TLV","BUD")` is a
valid path), the call raises `AttributeError` instead of returning a value. -/
theorem claim_C2_query_raises :
    get_path (buildGraph airportPairs) "TLV" "BUD" = Except.error "AttributeError" := by
  decide

/-! ### DFS reachability (src/graph.py lines 176-201)

`get_all_reachable_vertices` runs a recursive DFS over the stored outgoing
edges.  The DFS is parameterized here by the adjacency function so that the
same code and lemmas also serve the transposed traversal used by the
spec-modelled Kosaraju variant.  `visited` and `reachable` always receive the
same vertices (a vertex and its label are added together), so a single list
represents both. -/

/-- The recursive `dfs(current, visited, reachable)`: mark `current`, then for
each outgoing neighbour not yet visited, recurse.  Fuel bounds the recursion
depth; `|K| + 1` is provably sufficient. -/
def dfsA (adj : String → List String) : Nat → String → List String → List String
  | 0, _, visited => visited
  | fuel+1, current, visited =>
    (adj current).foldl
      (fun vis nb => if nb ∈ vis then vis else dfsA adj fuel nb vis)
      (visited.insert current)

/-- One step along the adjacency function. -/
def stepA (adj : String → List String) (u v : String) : Prop := v ∈ adj u

/-- Reachability along the adjacency function. -/
def ReachA (adj : String → List String) : String → String → Prop :=
  Relation.ReflTransGen (stepA adj)

/-- Reachability along the adjacency function through vertices outside
`avoid` (the start vertex is not constrained). -/
def AvoidReach (adj : String → List String) (avoid : List String)
    : String → String → Prop :=
  Relation.ReflTransGen (fun a b => b ∈ adj a ∧ b ∉ avoid)

theorem foldl_preserve {α β : Type} {P : β → Prop} {f : β → α → β} :
    ∀ (l : List α) (init : β), (∀ acc x, x ∈ l → P acc → P (f acc x)) →
      P init → P (l.foldl f init) := by
  intro l
  induction l with
  | nil => exact fun init _ h => h
  | cons a as ih =>
    intro init hstep h
    exact ih _ (fun acc x hx => hstep acc x (List.mem_cons_of_mem a hx))
      (hstep init a (List.mem_cons_self a as) h)

theorem dfsA_subset (adj : String → List String) :
    ∀ (fuel : Nat) (current : String) (visited : List String),
      ∀ x ∈ visited, x ∈ dfsA adj fuel current visited := by
  intro fuel
  induction fuel with
  | zero => intro current visited x hx; exact hx
  | succ fuel ih =>
    intro current visited x hx
    show x ∈ (adj current).foldl _ _
    refine foldl_preserve (P := fun acc => x ∈ acc) _ _ ?_ ?_
    · intro acc nb _ hacc
      by_cases hmem : nb ∈ acc
      · simpa [hmem] using hacc
      · simpa [hmem] using ih nb acc x hacc
    · exact List.mem_insert_of_mem hx

theorem avoidReach_anti {adj : String → List String} {V V' : List String}
    (hVV : ∀ x ∈ V, x ∈ V') {u v : String} (h : AvoidReach adj V' u v) :
    AvoidReach adj V u v := by
  induction h with
  | refl => exact Relation.ReflTransGen.refl
  | tail _ hstep ih =>
    exact Relation.ReflTransGen.tail ih ⟨hstep.1, fun hc => hstep.2 (hVV _ hc)⟩

theorem dfsA_sound (adj : String → List String) :
    ∀ (fuel : Nat) (current : String) (visited : List String),
      ∀ x ∈ dfsA adj fuel current visited,
        x ∈ visited ∨ AvoidReach adj visited current x := by
  intro fuel
  induction fuel with
  | zero => intro current visited x hx; exact Or.inl hx
  | succ fuel ih =>
    intro current visited x hx
    have hmain : ∀ y ∈ (adj current).foldl
        (fun vis nb => if nb ∈ vis then vis else dfsA adj fuel nb vis)
        (visited.insert current),
        y ∈ visited ∨ AvoidReach adj visited current y := by
      refine foldl_preserve
        (P := fun acc => (∀ z ∈ visited, z ∈ acc) ∧
          ∀ y ∈ acc, y ∈ visited ∨ AvoidReach adj visited current y)
        _ _ ?_ ?_ |>.2
      · intro acc nb hnb hacc
        by_cases hmem : nb ∈ acc
        · simpa [hmem] using hacc
        · simp only [if_neg hmem]
          refine ⟨fun z hz => dfsA_subset adj fuel nb acc z (hacc.1 z hz), ?_⟩
          intro y hy
          rcases ih nb acc y hy with hyacc | hyreach
          · exact hacc.2 y hyacc
          · -- a path from nb avoiding acc also avoids visited, and the step
            -- current → nb avoids visited since nb ∉ acc ⊇ visited
            have hnbvis : nb ∉ visited := fun hc => hmem (hacc.1 nb hc)
            have : AvoidReach adj visited nb y := avoidReach_anti hacc.1 hyreach
            exact Or.inr (Relation.ReflTransGen.head ⟨hnb, hnbvis⟩ this)
      · constructor
        · exact fun z hz => List.mem_insert_of_mem hz
        · intro y hy
          rcases List.mem_insert_iff.mp hy with hy | hy
          · subst hy; exact Or.inr Relation.ReflTransGen.refl
          · exact Or.inl hy
    exact hmain x hx

/-- Number of `K`-labels not yet visited: the DFS fuel measure. -/
def missingCard (K vis : List String) : Nat := (K.toFinset \ vis.toFinset).card

theorem missingCard_mono {K vis vis' : List String}
    (h : ∀ x ∈ vis, x ∈ vis') : missingCard K vis' ≤ missingCard K vis := by
  apply Finset.card_le_card
  apply Finset.sdiff_subset_sdiff (le_refl _)
  intro x hx
  exact List.mem_toFinset.mpr (h x (List.mem_toFinset.mp hx))

theorem missingCard_insert_lt {K vis : List String} {x : String}
    (hx : x ∈ K) (hnx : x ∉ vis) :
    missingCard K (vis.insert x) < missingCard K vis := by
  apply Finset.card_lt_card
  rw [Finset.ssubset_iff_of_subset]
  · refine ⟨x, ?_, ?_⟩
    · exact Finset.mem_sdiff.mpr ⟨List.mem_toFinset.mpr hx,
        fun hc => hnx (List.mem_toFinset.mp hc)⟩
    · intro hc
      rcases Finset.mem_sdiff.mp hc with ⟨_, hc2⟩
      exact hc2 (List.mem_toFinset.mpr (List.mem_insert_self x vis))
  · apply Finset.sdiff_subset_sdiff (le_refl _)
    intro y hy
    exact List.mem_toFinset.mpr (List.mem_insert_of_mem (List.mem_toFinset.mp hy))


theorem dfsA_spec (adj : String → List String) (K : List String)
    (hK : ∀ u, u ∈ K → ∀ w ∈ adj u, w ∈ K) :
    ∀ (fuel : Nat) (current : String) (visited : List String),
      current ∈ K → (∀ x ∈ visited, x ∈ K) → current ∉ visited →
      missingCard K visited < fuel →
      current ∈ dfsA adj fuel current visited ∧
      (∀ x ∈ dfsA adj fuel current visited, x ∈ K) ∧
      (∀ x ∈ dfsA adj fuel current visited, x ∉ visited →
        ∀ w ∈ adj x, w ∈ dfsA adj fuel current visited) := by
  intro fuel
  induction fuel with
  | zero =>
    intro c vis _ _ _ hmu
    exact absurd hmu (Nat.not_lt_zero _)
  | succ fuel ih =>
    intro c vis hcK hvisK hcvis hmu
    have hmuinit : missingCard K (vis.insert c) < missingCard K vis :=
      missingCard_insert_lt hcK hcvis
    have hmuvis : missingCard K vis ≤ fuel := Nat.lt_succ_iff.mp hmu
    have key : ∀ (l : List String), (∀ nb ∈ l, nb ∈ adj c) →
        ∀ acc, (∀ z ∈ vis.insert c, z ∈ acc) → (∀ x ∈ acc, x ∈ K) →
        (∀ x ∈ acc, x ∉ vis → x ≠ c → ∀ w ∈ adj x, w ∈ acc) →
        (∀ z ∈ acc, z ∈ l.foldl
          (fun v2 nb => if nb ∈ v2 then v2 else dfsA adj fuel nb v2) acc) ∧
        (∀ x ∈ l.foldl
          (fun v2 nb => if nb ∈ v2 then v2 else dfsA adj fuel nb v2) acc, x ∈ K) ∧
        (∀ x ∈ l.foldl
          (fun v2 nb => if nb ∈ v2 then v2 else dfsA adj fuel nb v2) acc,
          x ∉ vis → x ≠ c → ∀ w ∈ adj x, w ∈ l.foldl
            (fun v2 nb => if nb ∈ v2 then v2 else dfsA adj fuel nb v2) acc) ∧
        (∀ nb ∈ l, nb ∈ l.foldl
          (fun v2 nb => if nb ∈ v2 then v2 else dfsA adj fuel nb v2) acc) := by
      intro l
      induction l with
      | nil =>
        intro _ acc hinit haccK hclosed
        exact ⟨fun z hz => hz, haccK, fun x hx h1 h2 => hclosed x hx h1 h2,
          fun nb hnb => absurd hnb (List.not_mem_nil nb)⟩
      | cons nb ns ihl =>
        intro hladj acc hinit haccK hclosed
        have hnbadj : nb ∈ adj c := hladj nb (List.mem_cons_self nb ns)
        have hnsadj : ∀ x ∈ ns, x ∈ adj c :=
          fun x hx => hladj x (List.mem_cons_of_mem nb hx)
        by_cases hmem : nb ∈ acc
        · rw [List.foldl_cons]
          rw [if_pos hmem]
          obtain ⟨hgrow, hKq, hcloq, hproc⟩ := ihl hnsadj acc hinit haccK hclosed
          refine ⟨hgrow, hKq, hcloq, ?_⟩
          intro x hx
          rcases List.mem_cons.mp hx with hx | hx
          · rw [hx]; exact hgrow nb hmem
          · exact hproc x hx
        · rw [List.foldl_cons]
          rw [if_neg hmem]
          have hnbK : nb ∈ K := hK c hcK nb hnbadj
          have hmuacc : missingCard K acc < fuel := by
            have h1 : missingCard K acc ≤ missingCard K (vis.insert c) :=
              missingCard_mono hinit
            exact lt_of_le_of_lt h1 (lt_of_lt_of_le hmuinit hmuvis)
          obtain ⟨hnbin, haccK2, hclo2⟩ := ih nb acc hnbK haccK hmem hmuacc
          have hsub : ∀ z ∈ acc, z ∈ dfsA adj fuel nb acc := dfsA_subset adj fuel nb acc
          have hinit2 : ∀ z ∈ vis.insert c, z ∈ dfsA adj fuel nb acc :=
            fun z hz => hsub z (hinit z hz)
          have hclosed2 : ∀ x ∈ dfsA adj fuel nb acc, x ∉ vis → x ≠ c →
              ∀ w ∈ adj x, w ∈ dfsA adj fuel nb acc := by
            intro x hx hxvis hxc w hw
            by_cases hxacc : x ∈ acc
            · exact hsub w (hclosed x hxacc hxvis hxc w hw)
            · exact hclo2 x hx hxacc w hw
          obtain ⟨hgrow, hKq, hcloq, hproc⟩ :=
            ihl hnsadj (dfsA adj fuel nb acc) hinit2 haccK2 hclosed2
          refine ⟨fun z hz => hgrow z (hsub z hz), hKq, hcloq, ?_⟩
          intro x hx
          rcases List.mem_cons.mp hx with hx | hx
          · rw [hx]; exact hgrow nb hnbin
          · exact hproc x hx
    have hinit0 : ∀ z ∈ vis.insert c, z ∈ vis.insert c := fun z hz => hz
    have hinitK : ∀ x ∈ vis.insert c, x ∈ K := by
      intro x hx
      rcases List.mem_insert_iff.mp hx with hx | hx
      · subst hx; exact hcK
      · exact hvisK x hx
    have hclosed0 : ∀ x ∈ vis.insert c, x ∉ vis → x ≠ c → ∀ w ∈ adj x, w ∈ vis.insert c := by
      intro x hx hxvis hxc
      rcases List.mem_insert_iff.mp hx with hx | hx
      · exact absurd hx hxc
      · exact absurd hx hxvis
    obtain ⟨hgrow, hKq, hcloq, hproc⟩ :=
      key (adj c) (fun nb hnb => hnb) (vis.insert c) hinit0 hinitK hclosed0
    refine ⟨?_, ?_, ?_⟩
    · exact hgrow c (List.mem_insert_self c vis)
    · exact hKq
    · intro x hx hxvis w hw
      by_cases hxc : x = c
      · subst hxc
        exact hproc w hw
      · exact hcloq x hx hxvis hxc w hw

theorem avoidReach_endpoint {adj : String → List String} {vis : List String}
    {c y : String} (h : AvoidReach adj vis c y) (hc : c ∉ vis) : y ∉ vis := by
  induction h with
  | refl => exact hc
  | tail _ hstep _ => exact hstep.2

theorem dfsA_mem_iff_avoid (adj : String → List String) (K : List String)
    (hK : ∀ u, u ∈ K → ∀ w ∈ adj u, w ∈ K) {fuel : Nat} {c : String}
    {vis : List String} (hc : c ∈ K) (hvisK : ∀ x ∈ vis, x ∈ K)
    (hcv : c ∉ vis) (hfuel : missingCard K vis < fuel) (x : String) :
    x ∈ dfsA adj fuel c vis ↔ x ∈ vis ∨ AvoidReach adj vis c x := by
  obtain ⟨hcin, hKall, hclosure⟩ := dfsA_spec adj K hK fuel c vis hc hvisK hcv hfuel
  constructor
  · exact dfsA_sound adj fuel c vis x
  · intro hx
    rcases hx with hx | hx
    · exact dfsA_subset adj fuel c vis x hx
    · induction hx with
      | refl => exact hcin
      | tail hyr hstep ihy =>
        have hy := ihy
        exact hclosure _ hy (avoidReach_endpoint hyr hcv) _ hstep.1

theorem avoidReach_nil_iff (adj : String → List String) (u v : String) :
    AvoidReach adj [] u v ↔ ReachA adj u v := by
  constructor
  · intro h
    exact Relation.ReflTransGen.mono (fun a b hab => hab.1) h
  · intro h
    exact Relation.ReflTransGen.mono
      (fun a b hab => ⟨hab, List.not_mem_nil b⟩) h

theorem dfsA_mem_iff (adj : String → List String) (K : List String)
    (hK : ∀ u, u ∈ K → ∀ w ∈ adj u, w ∈ K) {fuel : Nat} {c : String}
    (hc : c ∈ K) (hfuel : missingCard K [] < fuel) (x : String) :
    x ∈ dfsA adj fuel c [] ↔ ReachA adj c x := by
  rw [dfsA_mem_iff_avoid adj K hK hc (by intro x hx; cases hx)
    (List.not_mem_nil c) hfuel x]
  rw [avoidReach_nil_iff]
  simp

theorem missingCard_nil_lt (K : List String) :
    missingCard K [] < K.length + 1 := by
  unfold missingCard
  have h1 : (K.toFinset \ ([] : List String).toFinset).card ≤ K.toFinset.card :=
    Finset.card_le_card (Finset.sdiff_subset)
  have h2 : K.toFinset.card ≤ K.length := List.toFinset_card_le K
  exact Nat.lt_succ_of_le (le_trans h1 h2)

/-- src/graph.py `get_all_reachable_vertices`: empty set when the start label
is absent, otherwise the visited set of a DFS over outgoing edges. -/
def get_all_reachable_vertices (g : DirectedGraph) (start_label : String) :
    List String :=
  if start_label ∉ keysOf g then []
  else dfsA (succs g) ((keysOf g).length + 1) start_label []

theorem succs_closed {g : DirectedGraph} (h : WF g) :
    ∀ u, u ∈ keysOf g → ∀ w ∈ succs g u, w ∈ keysOf g :=
  fun _ _ w hw => succs_mem_keys h hw

theorem stepA_iff_stepG {g : DirectedGraph} (h : WF g) (u v : String) :
    stepA (succs g) u v ↔ stepG g u v := by
  constructor
  · exact fun hs => step_of_mem_succs h hs
  · intro hs
    exact (mem_succs_iff h (stepG_mem_keys h hs).1 v).mpr hs

theorem reachA_iff_reachG {g : DirectedGraph} (h : WF g) (u v : String) :
    ReachA (succs g) u v ↔ ReachG g u v := by
  constructor
  · exact Relation.ReflTransGen.mono (fun a b hab => (stepA_iff_stepG h a b).mp hab)
  · exact Relation.ReflTransGen.mono (fun a b hab => (stepA_iff_stepG h a b).mpr hab)

theorem reachable_set_spec (g : DirectedGraph) (h : WF g) (s : String) :
    (s ∉ keysOf g → get_all_reachable_vertices g s = []) ∧
    (s ∈ keysOf g → s ∈ get_all_reachable_vertices g s ∧
      ∀ x, x ∈ get_all_reachable_vertices g s ↔ ReachG g s x) := by
  constructor
  · intro hs
    simp [get_all_reachable_vertices, hs]
  · intro hs
    have hchar : ∀ x, x ∈ get_all_reachable_vertices g s ↔ ReachA (succs g) s x := by
      intro x
      unfold get_all_reachable_vertices
      rw [if_neg (by simpa using hs)]
      exact dfsA_mem_iff (succs g) (keysOf g) (succs_closed h) hs
        (missingCard_nil_lt (keysOf g)) x
    constructor
    · exact (hchar s).mpr Relation.ReflTransGen.refl
    · intro x
      rw [hchar x, reachA_iff_reachG h]

/-- Claim C8: for every well-formed graph and label `s`,
`get_all_reachable_vertices(s)` returns the empty set when `s` is absent;
otherwise it returns exactly the labels reachable from `s` by following
outgoing edges transitively, and in particular always contains `s`. -/
theorem claim_C8_reachable_set (g : DirectedGraph) (h : WF g) (s : String) :
    (s ∉ keysOf g → get_all_reachable_vertices g s = []) ∧
    (s ∈ keysOf g → s ∈ get_all_reachable_vertices g s ∧
      ∀ x, x ∈ get_all_reachable_vertices g s ↔ ReachG g s x) :=
  reachable_set_spec g h s

/-- Witness for C8 at a concrete input: on the graph with edges A→B, B→C the
reachable set of A contains A, and membership coincides with reachability. -/
theorem claim_C8_reachable_set_witness :
    "A" ∈ get_all_reachable_vertices (buildGraph [("A", "B"), ("B", "C")]) "A" := by
  have h := claim_C8_reachable_set (buildGraph [("A", "B"), ("B", "C")])
    (wf_buildGraph _) "A"
  exact (h.2 (by decide)).1


/-! ### Reachability augmentation (spec section 4.5, `computeMinAdditionalEdges`)

The external caller src/main.py line 40 invokes `graph.get_min_additional_edges`,
but no definition of it appears among the source files; only the spec
describes it.  It is therefore modelled from the spec below. -/

theorem edges_add_edge_eq (g : DirectedGraph) (s t : String) :
    (add_edge g s t).edges = g.edges ++ [Edge.mk s t 1] := by
  rw [edges_add_edge, edges_add_vertex, edges_add_vertex]

theorem keysOf_add_edge_present {g : DirectedGraph} {s t : String}
    (hs : s ∈ keysOf g) (ht : t ∈ keysOf g) :
    keysOf (add_edge g s t) = keysOf g := by
  rw [keysOf_add_edge, add_vertex_present hs, add_vertex_present ht]

theorem stepG_add_edge_iff (g : DirectedGraph) (s t u v : String) :
    stepG (add_edge g s t) u v ↔ stepG g u v ∨ (u = s ∧ v = t) := by
  unfold stepG
  rw [edges_add_edge_eq]
  constructor
  · intro ⟨e, he, h1, h2⟩
    rcases List.mem_append.mp he with he | he
    · exact Or.inl ⟨e, he, h1, h2⟩
    · simp at he
      subst he
      exact Or.inr ⟨h1.symm, h2.symm⟩
  · intro h
    rcases h with ⟨e, he, h1, h2⟩ | ⟨h1, h2⟩
    · exact ⟨e, List.mem_append_left _ he, h1, h2⟩
    · exact ⟨Edge.mk s t 1, List.mem_append_right _ (by simp), h1.symm, h2.symm⟩

theorem reachG_mono_add_edge {g : DirectedGraph} {u v : String} (s t : String)
    (h : ReachG g u v) : ReachG (add_edge g s t) u v :=
  Relation.ReflTransGen.mono
    (fun a b hab => (stepG_add_edge_iff g s t a b).mpr (Or.inl hab)) h

theorem stepG_new_edge (g : DirectedGraph) (s t : String) :
    stepG (add_edge g s t) s t :=
  (stepG_add_edge_iff g s t s t).mpr (Or.inr ⟨rfl, rfl⟩)

/-- Code-point lexicographic strict comparison of character lists (the order
Python's `min` uses on the label strings). -/
def strLtList : List Char → List Char → Bool
  | [], [] => false
  | [], _ :: _ => true
  | _ :: _, [] => false
  | a :: as, b :: bs =>
    if a.val < b.val then true
    else if b.val < a.val then false
    else strLtList as bs

/-- The lexicographically smallest label of a list (Python `min`), `none` on
the empty list (where Python `min` raises `ValueError`). -/
def minLabel? : List String → Option String
  | [] => none
  | x :: xs => some (xs.foldl (fun m y => if strLtList y.data m.data then y else m) x)

theorem minLabel?_mem : ∀ {l : List String} {m : String},
    minLabel? l = some m → m ∈ l := by
  intro l m h
  cases l with
  | nil => cases h
  | cons x xs =>
    have hm : xs.foldl (fun m y => if strLtList y.data m.data then y else m) x ∈ x :: xs := by
      refine foldl_preserve (P := fun acc => acc ∈ x :: xs) xs x ?_ ?_
      · intro acc y hy hacc
        by_cases hc : strLtList y.data acc.data
        · simpa [hc] using List.mem_cons_of_mem x hy
        · simpa [hc] using hacc
      · exact List.mem_cons_self x xs
    cases h
    exact hm

theorem minLabel?_of_ne_nil {l : List String} (h : l ≠ []) :
    ∃ m, minLabel? l = some m := by
  cases l with
  | nil => exact absurd rfl h
  | cons x xs => exact ⟨_, rfl⟩

/-- Modelled from the spec: the loop of `computeMinAdditionalEdges`
(spec section 4.5; the function is called from src/main.py as
`get_min_additional_edges` but is missing from the source files).  While the
unreachable set is nonempty, add an edge from the lexicographically smallest
reachable label to the lexicographically smallest unreachable label, append it
to the result list, and recompute reachability.  When the reachable set is
empty while unreachable vertices remain (absent start label), the
lexicographically smallest reachable label does not exist (Python `min` of an
empty set raises), modelled as `none`; `none` also models fuel exhaustion,
which is proved not to occur. -/
def cmaeLoop : Nat → DirectedGraph → String → List (String × String) →
    Option (DirectedGraph × List (String × String))
  | 0, _, _, _ => none
  | fuel+1, g, s, acc =>
    let reach := get_all_reachable_vertices g s
    let unreach := (keysOf g).filter (fun x => decide (x ∉ reach))
    if unreach.isEmpty then some (g, acc)
    else
      match minLabel? reach, minLabel? unreach with
      | some src, some tgt =>
          cmaeLoop fuel (add_edge g src tgt) s (acc ++ [(src, tgt)])
      | _, _ => none

/-- Modelled from the spec: `computeMinAdditionalEdges(startLabel)`, returning
the mutated graph together with the ordered list of added (from, to) pairs. -/
def get_min_additional_edges (g : DirectedGraph) (s : String) :
    Option (DirectedGraph × List (String × String)) :=
  cmaeLoop ((keysOf g).length + 1) g s []

theorem missingCard_strict {K vis vis' : List String} {t : String}
    (ht : t ∈ K) (htv : t ∉ vis) (htv' : t ∈ vis')
    (hsub : ∀ x ∈ vis, x ∈ vis') :
    missingCard K vis' < missingCard K vis := by
  apply Finset.card_lt_card
  rw [Finset.ssubset_iff_of_subset]
  · refine ⟨t, ?_, ?_⟩
    · exact Finset.mem_sdiff.mpr ⟨List.mem_toFinset.mpr ht,
        fun hc => htv (List.mem_toFinset.mp hc)⟩
    · intro hc
      exact (Finset.mem_sdiff.mp hc).2 (List.mem_toFinset.mpr htv')
  · apply Finset.sdiff_subset_sdiff (le_refl _)
    intro y hy
    exact List.mem_toFinset.mpr (hsub _ (List.mem_toFinset.mp hy))

theorem cmaeLoop_spec (s : String) :
    ∀ (fuel : Nat) (g : DirectedGraph) (acc : List (String × String)),
      WF g → (s ∈ keysOf g ∨ keysOf g = []) →
      missingCard (keysOf g) (get_all_reachable_vertices g s) < fuel →
      ∃ g2 added, cmaeLoop fuel g s acc = some (g2, acc ++ added) ∧
        g2 = added.foldl (fun h p => add_edge h p.1 p.2) g ∧
        keysOf g2 = keysOf g ∧
        WF g2 ∧
        (∀ v ∈ keysOf g2, ReachG g2 s v) ∧
        (added = [] ↔ ∀ v ∈ keysOf g, ReachG g s v) := by
  intro fuel
  induction fuel with
  | zero =>
    intro g acc _ _ hmu
    exact absurd hmu (Nat.not_lt_zero _)
  | succ fuel ih =>
    intro g acc hwf hs hmu
    show ∃ g2 added,
      (let reach := get_all_reachable_vertices g s
       let unreach := (keysOf g).filter (fun x => decide (x ∉ reach))
       if unreach.isEmpty then some (g, acc)
       else
         match minLabel? reach, minLabel? unreach with
         | some src, some tgt =>
             cmaeLoop fuel (add_edge g src tgt) s (acc ++ [(src, tgt)])
         | _, _ => none) = some (g2, acc ++ added) ∧ _
    set reach := get_all_reachable_vertices g s with hreach
    set unreach := (keysOf g).filter (fun x => decide (x ∉ reach)) with hunreach
    by_cases hemp : unreach.isEmpty
    · -- every vertex already reachable: return the accumulated list
      have hall : ∀ v ∈ keysOf g, ReachG g s v := by
        intro v hv
        have hvin : v ∈ reach := by
          by_contra hvr
          have : v ∈ unreach := by
            rw [hunreach]
            exact List.mem_filter.mpr ⟨hv, by simpa using hvr⟩
          rw [List.isEmpty_iff] at hemp
          rw [hemp] at this
          cases this
        rcases hs with hs | hs
        · exact ((reachable_set_spec g hwf s).2 hs).2 v |>.mp hvin
        · rw [hs] at hv
          cases hv
      refine ⟨g, [], ?_, by simp, rfl, hwf, hall, ⟨fun _ => hall, fun _ => rfl⟩⟩
      simp only [if_pos hemp]
      simp
    · -- some vertex is unreachable: s must be present, both minima exist
      have hune : unreach ≠ [] := fun hc => hemp (by rw [hc]; rfl)
      have hsome : s ∈ keysOf g := by
        rcases hs with hs | hs
        · exact hs
        · exfalso
          apply hune
          rw [hunreach, hs]
          rfl
      obtain ⟨tgt, htgt⟩ : ∃ tgt, minLabel? unreach = some tgt :=
        minLabel?_of_ne_nil hune
      have hsreach : s ∈ reach := ((reachable_set_spec g hwf s).2 hsome).1
      have hrne : reach ≠ [] := fun hc => by
        rw [hc] at hsreach
        cases hsreach
      obtain ⟨src, hsrc⟩ : ∃ src, minLabel? reach = some src :=
        minLabel?_of_ne_nil hrne
      have hsrcre : src ∈ reach := minLabel?_mem hsrc
      have htgtun : tgt ∈ unreach := minLabel?_mem htgt
      have hsrcReach : ReachG g s src :=
        (((reachable_set_spec g hwf s).2 hsome).2 src).mp hsrcre
      have hsrcK : src ∈ keysOf g := reachG_mem_keys hwf hsrcReach hsome
      have htgtK : tgt ∈ keysOf g := (List.mem_filter.mp htgtun).1
      have htgtnr : tgt ∉ reach := by
        have := (List.mem_filter.mp htgtun).2
        simpa using this
      -- the mutated graph
      set g2 := add_edge g src tgt with hg2
      have hwf2 : WF g2 := wf_add_edge hwf src tgt
      have hkeys2 : keysOf g2 = keysOf g := keysOf_add_edge_present hsrcK htgtK
      have hs2 : s ∈ keysOf g2 := by rw [hkeys2]; exact hsome
      have hmono : ∀ x ∈ reach, x ∈ get_all_reachable_vertices g2 s := by
        intro x hx
        have hr : ReachG g s x := (((reachable_set_spec g hwf s).2 hsome).2 x).mp hx
        exact (((reachable_set_spec g2 hwf2 s).2 hs2).2 x).mpr
          (reachG_mono_add_edge src tgt hr)
      have htgt2 : tgt ∈ get_all_reachable_vertices g2 s := by
        have h1 : ReachG g2 s src := reachG_mono_add_edge src tgt hsrcReach
        have h2 : ReachG g2 s tgt :=
          Relation.ReflTransGen.tail h1 (stepG_new_edge g src tgt)
        exact (((reachable_set_spec g2 hwf2 s).2 hs2).2 tgt).mpr h2
      have hmu2 : missingCard (keysOf g2) (get_all_reachable_vertices g2 s) < fuel := by
        have hlt : missingCard (keysOf g) (get_all_reachable_vertices g2 s)
            < missingCard (keysOf g) reach :=
          missingCard_strict htgtK htgtnr htgt2 hmono
        rw [hkeys2]
        exact lt_of_lt_of_le hlt (Nat.lt_succ_iff.mp hmu)
      obtain ⟨g3, added, heq, hfold, hkeys3, hwf3, hreach3, hiff⟩ :=
        ih g2 (acc ++ [(src, tgt)]) hwf2 (Or.inl hs2) hmu2
      refine ⟨g3, (src, tgt) :: added, ?_, ?_, ?_, hwf3, ?_, ?_⟩
      · simp only [if_neg hemp]
        rw [hsrc, htgt]
        show cmaeLoop fuel (add_edge g src tgt) s (acc ++ [(src, tgt)]) = _
        rw [← hg2, heq]
        simp
      · rw [hfold]
        rfl
      · rw [hkeys3, hkeys2]
      · intro v hv
        exact hreach3 v hv
      · constructor
        · intro hc
          cases hc
        · intro hall
          exfalso
          exact htgtnr ((((reachable_set_spec g hwf s).2 hsome).2 tgt).mpr
            (hall tgt htgtK))

/-- Claim C4 as frozen is false on the spec-modelled procedure: with a start
label absent from a nonempty graph, the reachable set is empty while the
unreachable set is not, so the procedure cannot pick an edge source
(Python `min` of an empty sequence raises) and never returns the claimed
edge list. -/
theorem claim_C4_counterexample :
    get_min_additional_edges (buildGraph [("A", "B")]) "X" = none := by
  decide

/-- Claim C4, amended: for every well-formed graph whose start label is
present (or with no vertices at all), `get_min_additional_edges(s)`
terminates, returns the ordered list of (from, to) edges it added (the final
graph is exactly the fold of `add_edge` over that list), leaves every vertex
reachable from `s`, and returns `[]` iff the graph was already fully
reachable from `s`. -/
theorem claim_C4_augmentation (g : DirectedGraph) (h : WF g) (s : String)
    (hs : s ∈ keysOf g ∨ keysOf g = []) :
    ∃ g2 added, get_min_additional_edges g s = some (g2, added) ∧
      g2 = added.foldl (fun h p => add_edge h p.1 p.2) g ∧
      keysOf g2 = keysOf g ∧
      (∀ v ∈ keysOf g2, ReachG g2 s v) ∧
      (added = [] ↔ ∀ v ∈ keysOf g, ReachG g s v) := by
  have hmu : missingCard (keysOf g) (get_all_reachable_vertices g s)
      < (keysOf g).length + 1 := by
    have h1 : missingCard (keysOf g) (get_all_reachable_vertices g s)
        ≤ missingCard (keysOf g) [] := missingCard_mono (by intro x hx; cases hx)
    exact lt_of_le_of_lt h1 (missingCard_nil_lt (keysOf g))
  obtain ⟨g2, added, heq, hfold, hkeys, _, hreach, hiff⟩ :=
    cmaeLoop_spec s ((keysOf g).length + 1) g [] h hs hmu
  refine ⟨g2, added, ?_, hfold, hkeys, hreach, hiff⟩
  rw [show get_min_additional_edges g s = cmaeLoop ((keysOf g).length + 1) g s [] from rfl]
  rw [heq]
  simp

/-- Witness for the amended C4 at a concrete input: on the graph with edges
A→B and C→D, starting from A, the procedure returns a result satisfying all
the stated properties. -/
theorem claim_C4_augmentation_witness :
    ∃ g2 added,
      get_min_additional_edges (buildGraph [("A", "B"), ("C", "D")]) "A"
        = some (g2, added) ∧
      g2 = added.foldl (fun h p => add_edge h p.1 p.2)
        (buildGraph [("A", "B"), ("C", "D")]) ∧
      keysOf g2 = keysOf (buildGraph [("A", "B"), ("C", "D")]) ∧
      (∀ v ∈ keysOf g2, ReachG g2 "A" v) ∧
      (added = [] ↔ ∀ v ∈ keysOf (buildGraph [("A", "B"), ("C", "D")]),
        ReachG (buildGraph [("A", "B"), ("C", "D")]) "A" v) :=
  claim_C4_augmentation (buildGraph [("A", "B"), ("C", "D")])
    (wf_buildGraph _) "A" (Or.inl (by decide))


/-! ### Tarjan strongly connected components (src/graph.py lines 240-284)

`get_strongly_connected_components` runs Tarjan's single-pass algorithm: a
recursive `strongconnect` maintaining a discovery counter, an active stack,
per-vertex `indices` and `lowlinks` dicts, an `on_stack` membership set and
the output component list.  The dicts are modelled as functions to
`Option Nat` (they are only assigned and looked up), the stack as a list with
its head as top. -/

structure TarjanState where
  index : Nat
  stack : List String
  indices : String → Option Nat
  lowlinks : String → Option Nat
  on_stack : List String
  components : List (List String)

/-- Python dict assignment `d[k] = n`. -/
def setMap (f : String → Option Nat) (k : String) (n : Nat) : String → Option Nat :=
  fun x => if x = k then some n else f x

/-- `indices[x]` (total accessor; every lookup in the source happens after the
assignment, which the invariants below make precise). -/
def idxN (st : TarjanState) (x : String) : Nat := (st.indices x).getD 0

/-- `lowlinks[x]`. -/
def lowN (st : TarjanState) (x : String) : Nat := (st.lowlinks x).getD 0

/-- The `while True` pop loop: pop stack entries down to and including `v`;
returns the popped component and the remaining stack. -/
def popUntil (v : String) : List String → List String × List String
  | [] => ([], [])
  | w :: rest =>
    if w = v then ([w], rest)
    else
      let p := popUntil v rest
      (w :: p.1, p.2)

/-- Emit a component rooted at `v`: pop it off the stack, remove its members
from `on_stack`, append it to the component list. -/
def emitComponent (v : String) (st : TarjanState) : TarjanState :=
  let p := popUntil v st.stack
  { st with
      stack := p.2,
      on_stack := p.1.foldl (fun os w => os.erase w) st.on_stack,
      components := st.components ++ [p.1] }

/-- The `for edge in vertex.outgoing_edges` loop of `strongconnect`:
`neighbor = edge.end_vertex`; recurse on unvisited neighbours and fold their
lowlinks into `v`'s, take `indices` of on-stack visited neighbours. -/
def scLoop (v : String) (rec : String → TarjanState → TarjanState) :
    List String → TarjanState → TarjanState
  | [], st => st
  | w :: ws, st =>
    let st' :=
      if (st.indices w).isNone then
        let stc := rec w st
        { stc with lowlinks := setMap stc.lowlinks v (min (lowN stc v) (lowN stc w)) }
      else if w ∈ st.on_stack then
        { st with lowlinks := setMap st.lowlinks v (min (lowN st v) (idxN st w)) }
      else st
    scLoop v rec ws st'

/-- The entry block of `strongconnect(v)`: assign `indices[v] = lowlinks[v] =
index`, increment `index`, push `v` on the stack and into `on_stack`. -/
def pushV (v : String) (st : TarjanState) : TarjanState :=
  { index := st.index + 1,
    stack := v :: st.stack,
    indices := setMap st.indices v st.index,
    lowlinks := setMap st.lowlinks v st.index,
    on_stack := v :: st.on_stack,
    components := st.components }

/-- `strongconnect(vertex)`: assign index and lowlink, push, visit the
outgoing neighbours, and emit a component when `lowlink == index`.  Fuel
bounds the recursion depth; `|K| + 1` is provably sufficient. -/
def strongconnect (g : DirectedGraph) : Nat → String → TarjanState → TarjanState
  | 0, _, st => st
  | fuel+1, v, st =>
    let st2 := scLoop v (strongconnect g fuel) (succs g v) (pushV v st)
    if lowN st2 v = idxN st2 v then emitComponent v st2 else st2

def tarjanInit : TarjanState := ⟨0, [], fun _ => none, fun _ => none, [], []⟩

/-- src/graph.py `get_strongly_connected_components`: Tarjan over every
not-yet-visited vertex, in dict insertion order. -/
def get_strongly_connected_components (g : DirectedGraph) : List (List String) :=
  ((keysOf g).foldl
    (fun st v =>
      if (st.indices v).isNone then strongconnect g ((keysOf g).length + 1) v st
      else st)
    tarjanInit).components

theorem setMap_eval_self (f : String → Option Nat) (k : String) (n : Nat) :
    setMap f k n k = some n := by
  simp [setMap]

theorem setMap_eval_ne (f : String → Option Nat) {k x : String} (n : Nat)
    (h : x ≠ k) : setMap f k n x = f x := by
  simp [setMap, h]

theorem popUntil_eq {v : String} :
    ∀ {S rest : List String}, v ∉ S →
      popUntil v (S ++ v :: rest) = (S ++ [v], rest) := by
  intro S
  induction S with
  | nil =>
    intro rest _
    simp [popUntil]
  | cons a S ih =>
    intro rest hv
    have ha : a ≠ v := fun hc => hv (hc ▸ List.mem_cons_self a S)
    have hv' : v ∉ S := fun hc => hv (List.mem_cons_of_mem a hc)
    show popUntil v (a :: (S ++ v :: rest)) = _
    simp only [popUntil, if_neg ha, ih hv']
    simp

theorem erase_foldl_mem {C : List String} :
    ∀ {os : List String}, os.Nodup →
      ∀ x, (x ∈ C.foldl (fun os w => os.erase w) os ↔ x ∈ os ∧ x ∉ C) := by
  induction C with
  | nil =>
    intro os _ x
    simp
  | cons c C ih =>
    intro os hnd x
    show x ∈ C.foldl (fun os w => os.erase w) (os.erase c) ↔ _
    rw [ih (hnd.erase c) x]
    rw [hnd.mem_erase_iff]
    constructor
    · intro ⟨⟨h1, h2⟩, h3⟩
      exact ⟨h2, by simp [h1, h3]⟩
    · intro ⟨h1, h2⟩
      simp at h2
      exact ⟨⟨h2.1, h1⟩, h2.2⟩


/-- Membership in some emitted component. -/
def inComp (st : TarjanState) (x : String) : Prop := ∃ c ∈ st.components, x ∈ c

/-- Mutual reachability: the SCC equivalence. -/
def MutReach (g : DirectedGraph) (u v : String) : Prop :=
  ReachG g u v ∧ ReachG g v u

/-- The Tarjan state invariant, holding between any two calls at the same
recursion level. -/
structure TInv (g : DirectedGraph) (st : TarjanState) : Prop where
  dom_keys : ∀ x, (st.indices x).isSome → x ∈ keysOf g
  low_dom : ∀ x, (st.lowlinks x).isSome ↔ (st.indices x).isSome
  idx_lt : ∀ x, (st.indices x).isSome → idxN st x < st.index
  idx_inj : ∀ x y, (st.indices x).isSome → (st.indices y).isSome →
      idxN st x = idxN st y → x = y
  stack_nodup : st.stack.Nodup
  onstack_nodup : st.on_stack.Nodup
  stack_dom : ∀ x ∈ st.stack, (st.indices x).isSome
  onstack_iff : ∀ x, x ∈ st.on_stack ↔ x ∈ st.stack
  stack_sorted : st.stack.Pairwise (fun a b => idxN st b < idxN st a)
  comp_dom : ∀ x, inComp st x → (st.indices x).isSome
  stack_comp : ∀ x, (st.indices x).isSome → (x ∈ st.stack ↔ ¬ inComp st x)
  comp_closed : ∀ x, inComp st x → ∀ w, stepG g x w → inComp st w
  comp_mutual : ∀ c ∈ st.components, ∀ u ∈ c, ∀ v ∈ c, ReachG g u v
  comp_maximal : ∀ c ∈ st.components, ∀ u ∈ c, ∀ v, ReachG g u v → ReachG g v u → v ∈ c
  comp_nodup : ∀ c ∈ st.components, c.Nodup
  comp_disj : st.components.Pairwise (fun c d => ∀ x, x ∈ c → x ∉ d)
  low_le : ∀ x ∈ st.stack, lowN st x ≤ idxN st x
  low_wit : ∀ x ∈ st.stack, ∃ u ∈ st.stack, idxN st u = lowN st x ∧ ReachG g x u
  stack_reach : st.stack.Pairwise (fun a b => ReachG g b a)
  comp_nonempty : ∀ c ∈ st.components, c ≠ []

/-- A fully processed stack vertex: its lowlink is strictly below its index
and every outgoing edge leads into an emitted component or to a stack vertex
of index at least its lowlink. -/
def SettledV (g : DirectedGraph) (st : TarjanState) (x : String) : Prop :=
  lowN st x < idxN st x ∧
  ∀ w, stepG g x w → inComp st w ∨ (w ∈ st.stack ∧ lowN st x ≤ idxN st w)

/-- A processed neighbour `w` of the active vertex `v`: already in a
component, or on the stack with index at least `v`'s current lowlink. -/
def GoodV (st : TarjanState) (v w : String) : Prop :=
  inComp st w ∨ (w ∈ st.stack ∧ lowN st v ≤ idxN st w)

/-- How the state evolves across the remainder of `v`'s neighbour loop:
indices of visited vertices are frozen, lowlinks of visited vertices other
than `v` are frozen, `v`'s lowlink only decreases, components only grow, and
stack vertices either stay or move into a component. -/
structure Evol (v : String) (st st' : TarjanState) : Prop where
  idx_keep : ∀ x, (st.indices x).isSome → st'.indices x = st.indices x
  low_keep : ∀ x, x ≠ v → (st.indices x).isSome → st'.lowlinks x = st.lowlinks x
  v_low_le : lowN st' v ≤ lowN st v
  comp_keep : ∀ x, inComp st x → inComp st' x
  stack_keep : ∀ x ∈ st.stack, x ∈ st'.stack ∨ inComp st' x

theorem evol_refl (v : String) (st : TarjanState) : Evol v st st :=
  ⟨fun _ _ => rfl, fun _ _ _ => rfl, le_refl _, fun _ h => h, fun x hx => Or.inl hx⟩

theorem evol_trans {v : String} {st1 st2 st3 : TarjanState}
    (h12 : Evol v st1 st2) (h23 : Evol v st2 st3) : Evol v st1 st3 := by
  refine ⟨?_, ?_, ?_, ?_, ?_⟩
  · intro x hx
    have h2 := h12.idx_keep x hx
    have hx2 : (st2.indices x).isSome := by rw [h2]; exact hx
    rw [h23.idx_keep x hx2, h2]
  · intro x hxv hx
    have h2 := h12.idx_keep x hx
    have hx2 : (st2.indices x).isSome := by rw [h2]; exact hx
    rw [h23.low_keep x hxv hx2, h12.low_keep x hxv hx]
  · exact le_trans h23.v_low_le h12.v_low_le
  · exact fun x hx => h23.comp_keep x (h12.comp_keep x hx)
  · intro x hx
    rcases h12.stack_keep x hx with h | h
    · exact h23.stack_keep x h
    · exact Or.inr (h23.comp_keep x h)

theorem idxN_keep {v : String} {st st' : TarjanState} (hE : Evol v st st')
    {x : String} (hx : (st.indices x).isSome) : idxN st' x = idxN st x := by
  unfold idxN
  rw [hE.idx_keep x hx]

theorem lowN_keep {v : String} {st st' : TarjanState} (hE : Evol v st st')
    {x : String} (hxv : x ≠ v) (hx : (st.indices x).isSome) :
    lowN st' x = lowN st x := by
  unfold lowN
  rw [hE.low_keep x hxv hx]

theorem settled_evol {g : DirectedGraph} {v : String} {st st' : TarjanState}
    (hT : TInv g st) (hE : Evol v st st') {x : String}
    (hx : SettledV g st x) (hxv : x ≠ v) (hxd : (st.indices x).isSome) :
    SettledV g st' x := by
  have hidx : idxN st' x = idxN st x := idxN_keep hE hxd
  have hlow : lowN st' x = lowN st x := lowN_keep hE hxv hxd
  constructor
  · rw [hidx, hlow]; exact hx.1
  · intro w hw
    rcases hx.2 w hw with hc | ⟨hws, hle⟩
    · exact Or.inl (hE.comp_keep w hc)
    · have hwd : (st.indices w).isSome := hT.stack_dom w hws
      rcases hE.stack_keep w hws with hws' | hc
      · exact Or.inr ⟨hws', by rw [hlow, idxN_keep hE hwd]; exact hle⟩
      · exact Or.inl hc

theorem good_evol {v : String} {st st' : TarjanState} {g : DirectedGraph}
    (hT : TInv g st) (hE : Evol v st st') {w : String} (hw : GoodV st v w) :
    GoodV st' v w := by
  rcases hw with hc | ⟨hws, hle⟩
  · exact Or.inl (hE.comp_keep w hc)
  · have hwd : (st.indices w).isSome := hT.stack_dom w hws
    rcases hE.stack_keep w hws with hws' | hc
    · exact Or.inr ⟨hws', by
        rw [idxN_keep hE hwd]
        exact le_trans hE.v_low_le hle⟩
    · exact Or.inl hc


/-- Invariant relating the state `st` in the middle of `v`'s neighbour loop to
the state `st0` at the start of `strongconnect(v)` (before the push), without
the lowlink-minimality bound. -/
structure MidInvW (g : DirectedGraph) (st0 : TarjanState) (v : String)
    (st : TarjanState) : Prop where
  inv : TInv g st
  base_frozen : ∀ x, (st0.indices x).isSome →
      st.indices x = st0.indices x ∧ st.lowlinks x = st0.lowlinks x
  v_dom : (st.indices v).isSome
  v_idx : idxN st v = st0.index
  v_low : lowN st v ≤ idxN st v
  index_gt : st0.index < st.index
  new_ge : ∀ x, ¬ (st0.indices x).isSome → (st.indices x).isSome →
      st0.index ≤ idxN st x
  stack_shape : ∃ S, st.stack = S ++ v :: st0.stack ∧
      ∀ x ∈ S, ¬ (st0.indices x).isSome ∧ SettledV g st x
  comps_ext : ∃ CS, st.components = st0.components ++ CS ∧
      ∀ c ∈ CS, ∀ x ∈ c, ¬ (st0.indices x).isSome
  closure_except : ∀ x, ¬ (st0.indices x).isSome → (st.indices x).isSome →
      x ≠ v → ∀ w, stepG g x w → (st.indices w).isSome

/-- The full mid-loop invariant: additionally `v`'s lowlink is a lower bound
on the lowlinks of all vertices pushed during `v`'s call. -/
structure MidInv (g : DirectedGraph) (st0 : TarjanState) (v : String)
    (st : TarjanState) extends MidInvW g st0 v st : Prop where
  low_min : ∀ x ∈ st.stack, x ∉ st0.stack → x ≠ v → lowN st v ≤ lowN st x

/-- Postcondition of `strongconnect g fuel v st` (also its fuel-induction
hypothesis). -/
structure SCPost (g : DirectedGraph) (st : TarjanState) (v : String)
    (st' : TarjanState) : Prop where
  inv : TInv g st'
  frozen : ∀ x, (st.indices x).isSome →
      st'.indices x = st.indices x ∧ st'.lowlinks x = st.lowlinks x
  v_dom : (st'.indices v).isSome
  v_idx : idxN st' v = st.index
  index_gt : st.index < st'.index
  new_ge : ∀ x, ¬ (st.indices x).isSome → (st'.indices x).isSome →
      st.index ≤ idxN st' x
  stack_ext : ∃ NS, st'.stack = NS ++ st.stack ∧ ∀ x ∈ NS, ¬ (st.indices x).isSome
  comps_ext : ∃ CS, st'.components = st.components ++ CS ∧
      ∀ c ∈ CS, ∀ x ∈ c, ¬ (st.indices x).isSome
  settled : ∀ x ∈ st'.stack, x ∉ st.stack → SettledV g st' x
  v_fate : (inComp st' v ∧ st'.stack = st.stack ∧ lowN st' v = idxN st' v) ∨
      (v ∈ st'.stack ∧ ∀ x ∈ st'.stack, x ∉ st.stack → lowN st' v ≤ lowN st' x)
  closure : ∀ x, ¬ (st.indices x).isSome → (st'.indices x).isSome →
      ∀ w, stepG g x w → (st'.indices w).isSome

/-- Every settled vertex sitting above `v` on the stack reaches `v`: its
lowlink witness chain descends in index until it hits `v` or the base stack,
whose members all reach `v`. -/
theorem survivors_reach {g : DirectedGraph} {st : TarjanState} {v : String}
    {S base : List String} (hT : TInv g st)
    (hshape : st.stack = S ++ v :: base)
    (hS : ∀ x ∈ S, SettledV g st x)
    (hbase : ∀ a ∈ base, ReachG g a v) :
    ∀ x ∈ S, ReachG g x v := by
  have main : ∀ n, ∀ x ∈ S, idxN st x ≤ n → ReachG g x v := by
    intro n
    induction n with
    | zero =>
      intro x hxS hxn
      have hlow := (hS x hxS).1
      omega
    | succ n ihn =>
      intro x hxS hxn
      have hlow := (hS x hxS).1
      have hxstack : x ∈ st.stack := by
        rw [hshape]
        exact List.mem_append_left _ hxS
      obtain ⟨u, hu_st, hu_idx, hreach⟩ := hT.low_wit x hxstack
      rw [hshape] at hu_st
      rcases List.mem_append.mp hu_st with huS | huvb
      · have hun : idxN st u ≤ n := by omega
        exact Relation.ReflTransGen.trans hreach (ihn u huS hun)
      · rcases List.mem_cons.mp huvb with h | h
        · rw [h] at hreach
          exact hreach
        · exact Relation.ReflTransGen.trans hreach (hbase u h)
  exact fun x hxS => main (idxN st x) x hxS (le_refl _)

theorem reach_closed {g : DirectedGraph} {A : String → Prop}
    (hclosed : ∀ z w, A z → stepG g z w → A w) {u y : String}
    (hu : A u) (hr : ReachG g u y) : A y := by
  induction hr with
  | refl => exact hu
  | tail _ hstep ih => exact hclosed _ _ ih hstep


theorem idxN_pushV_self (v : String) (st : TarjanState) :
    idxN (pushV v st) v = st.index := by
  simp [idxN, pushV, setMap]

theorem idxN_pushV_ne (v : String) (st : TarjanState) {x : String} (h : x ≠ v) :
    idxN (pushV v st) x = idxN st x := by
  simp [idxN, pushV, setMap, h]

theorem lowN_pushV_self (v : String) (st : TarjanState) :
    lowN (pushV v st) v = st.index := by
  simp [lowN, pushV, setMap]

theorem lowN_pushV_ne (v : String) (st : TarjanState) {x : String} (h : x ≠ v) :
    lowN (pushV v st) x = lowN st x := by
  simp [lowN, pushV, setMap, h]

theorem pushV_indices_isSome (v : String) (st : TarjanState) (x : String) :
    ((pushV v st).indices x).isSome ↔ (x = v ∨ (st.indices x).isSome) := by
  by_cases h : x = v
  · simp [pushV, setMap, h]
  · simp [pushV, setMap, h]

theorem inComp_pushV (v : String) (st : TarjanState) (x : String) :
    inComp (pushV v st) x ↔ inComp st x := by
  rfl

theorem push_midinv {g : DirectedGraph} {st0 : TarjanState} {v : String}
    (hT : TInv g st0) (hv : v ∈ keysOf g)
    (hvnew : ¬ (st0.indices v).isSome)
    (hpre : ∀ a ∈ st0.stack, ReachG g a v) :
    MidInv g st0 v (pushV v st0) := by
  have hvstack : v ∉ st0.stack := fun hc => hvnew (hT.stack_dom v hc)
  have hvonstack : v ∉ st0.on_stack := fun hc => hvstack ((hT.onstack_iff v).mp hc)
  have hvcomp : ¬ inComp st0 v := fun hc => hvnew (hT.comp_dom v hc)
  have hstackne : ∀ a ∈ st0.stack, a ≠ v := fun a ha hc => hvstack (hc ▸ ha)
  have hidx_pres : ∀ x, (st0.indices x).isSome → idxN (pushV v st0) x = idxN st0 x := by
    intro x hx
    exact idxN_pushV_ne v st0 (fun hc => hvnew (hc ▸ hx))
  have hlow_pres : ∀ x, (st0.indices x).isSome → lowN (pushV v st0) x = lowN st0 x := by
    intro x hx
    exact lowN_pushV_ne v st0 (fun hc => hvnew (hc ▸ hx))
  have hTinv : TInv g (pushV v st0) := by
    constructor
    · intro x hx
      rcases (pushV_indices_isSome v st0 x).mp hx with h | h
      · exact h ▸ hv
      · exact hT.dom_keys x h
    · intro x
      by_cases h : x = v
      · simp [pushV, setMap, h]
      · simp only [pushV, setMap]
        simp [h, hT.low_dom x]
    · intro x hx
      show idxN _ x < st0.index + 1
      rcases (pushV_indices_isSome v st0 x).mp hx with h | h
      · rw [h, idxN_pushV_self]
        omega
      · rw [hidx_pres x h]
        have := hT.idx_lt x h
        omega
    · intro x y hx hy hxy
      rcases (pushV_indices_isSome v st0 x).mp hx with h1 | h1 <;>
        rcases (pushV_indices_isSome v st0 y).mp hy with h2 | h2
      · rw [h1, h2]
      · rw [h1, idxN_pushV_self, hidx_pres y h2] at hxy
        have := hT.idx_lt y h2
        omega
      · rw [h2, idxN_pushV_self, hidx_pres x h1] at hxy
        have := hT.idx_lt x h1
        omega
      · rw [hidx_pres x h1, hidx_pres y h2] at hxy
        exact hT.idx_inj x y h1 h2 hxy
    · exact List.nodup_cons.mpr ⟨hvstack, hT.stack_nodup⟩
    · exact List.nodup_cons.mpr ⟨hvonstack, hT.onstack_nodup⟩
    · intro x hx
      rcases List.mem_cons.mp hx with h | h
      · rw [h]
        rw [pushV_indices_isSome]
        exact Or.inl rfl
      · rw [pushV_indices_isSome]
        exact Or.inr (hT.stack_dom x h)
    · intro x
      show x ∈ v :: st0.on_stack ↔ x ∈ v :: st0.stack
      simp [hT.onstack_iff x]
    · show (v :: st0.stack).Pairwise _
      rw [List.pairwise_cons]
      constructor
      · intro b hb
        rw [idxN_pushV_self, hidx_pres b (hT.stack_dom b hb)]
        exact hT.idx_lt b (hT.stack_dom b hb)
      · refine List.Pairwise.imp_of_mem ?_ hT.stack_sorted
        intro a b ha hb hab
        rw [hidx_pres a (hT.stack_dom a ha), hidx_pres b (hT.stack_dom b hb)]
        exact hab
    · intro x hx
      rw [inComp_pushV] at hx
      rw [pushV_indices_isSome]
      exact Or.inr (hT.comp_dom x hx)
    · intro x hx
      rw [inComp_pushV]
      rcases (pushV_indices_isSome v st0 x).mp hx with h | h
      · subst h
        show x ∈ x :: st0.stack ↔ ¬ inComp st0 x
        simp [hvcomp]
      · show x ∈ v :: st0.stack ↔ ¬ inComp st0 x
        rw [List.mem_cons]
        rw [← hT.stack_comp x h]
        constructor
        · intro hc
          rcases hc with hc | hc
          · exact absurd (hc ▸ h) hvnew
          · exact hc
        · exact fun hc => Or.inr hc
    · intro x hx w hw
      rw [inComp_pushV] at hx ⊢
      exact hT.comp_closed x hx w hw
    · exact hT.comp_mutual
    · exact hT.comp_maximal
    · exact hT.comp_nodup
    · exact hT.comp_disj
    · intro x hx
      rcases List.mem_cons.mp hx with h | h
      · rw [h, idxN_pushV_self, lowN_pushV_self]
      · rw [hidx_pres x (hT.stack_dom x h), hlow_pres x (hT.stack_dom x h)]
        exact hT.low_le x h
    · intro x hx
      rcases List.mem_cons.mp hx with h | h
      · refine ⟨v, List.mem_cons_self v _, ?_, ?_⟩
        · rw [idxN_pushV_self, h, lowN_pushV_self]
        · rw [h]
          exact Relation.ReflTransGen.refl
      · obtain ⟨u, hu, hui, hur⟩ := hT.low_wit x h
        refine ⟨u, List.mem_cons_of_mem v hu, ?_, hur⟩
        rw [hidx_pres u (hT.stack_dom u hu), hlow_pres x (hT.stack_dom x h)]
        exact hui
    · show (v :: st0.stack).Pairwise _
      rw [List.pairwise_cons]
      exact ⟨fun b hb => hpre b hb, hT.stack_reach⟩
    · exact hT.comp_nonempty
  refine ⟨⟨hTinv, ?_, ?_, ?_, ?_, ?_, ?_, ?_, ?_, ?_⟩, ?_⟩
  · intro x hx
    have hne : x ≠ v := fun hc => hvnew (hc ▸ hx)
    constructor
    · show setMap st0.indices v st0.index x = st0.indices x
      exact setMap_eval_ne _ _ hne
    · show setMap st0.lowlinks v st0.index x = st0.lowlinks x
      exact setMap_eval_ne _ _ hne
  · rw [pushV_indices_isSome]
    exact Or.inl rfl
  · exact idxN_pushV_self v st0
  · rw [idxN_pushV_self, lowN_pushV_self]
  · show st0.index < st0.index + 1
    omega
  · intro x hx0 hx1
    rcases (pushV_indices_isSome v st0 x).mp hx1 with h | h
    · rw [h, idxN_pushV_self]
    · exact absurd h hx0
  · exact ⟨[], rfl, by intro x hx; cases hx⟩
  · exact ⟨[], by simp [pushV], by intro c hc; cases hc⟩
  · intro x hx0 hx1 hxv w _
    rcases (pushV_indices_isSome v st0 x).mp hx1 with h | h
    · exact absurd h hxv
    · exact absurd h hx0
  · intro x hx hx0 hxv
    rcases List.mem_cons.mp hx with h | h
    · exact absurd h hxv
    · exact absurd h hx0


/-- Number of graph vertices not yet discovered: the fuel measure. -/
def tmiss (g : DirectedGraph) (st : TarjanState) : Nat :=
  ((keysOf g).toFinset.filter (fun x => st.indices x = none)).card

theorem tmiss_lt {g : DirectedGraph} {st st' : TarjanState} {v : String}
    (hdom : ∀ x, (st.indices x).isSome → (st'.indices x).isSome)
    (hv : v ∈ keysOf g) (hvn : ¬ (st.indices v).isSome)
    (hvs : (st'.indices v).isSome) : tmiss g st' < tmiss g st := by
  apply Finset.card_lt_card
  rw [Finset.ssubset_iff_of_subset]
  · refine ⟨v, ?_, ?_⟩
    · rw [Finset.mem_filter]
      refine ⟨List.mem_toFinset.mpr hv, ?_⟩
      cases h : st.indices v with
      | none => rfl
      | some n => rw [h] at hvn; exact absurd rfl hvn
    · rw [Finset.mem_filter]
      intro ⟨_, hc⟩
      rw [hc] at hvs
      cases hvs
  · intro x hx
    rw [Finset.mem_filter] at hx ⊢
    refine ⟨hx.1, ?_⟩
    by_contra hc
    have h1 : (st.indices x).isSome := by
      cases h2 : st.indices x with
      | none => exact absurd h2 hc
      | some m => rfl
    have h2 := hdom x h1
    rw [hx.2] at h2
    cases h2

theorem shape_facts {st : TarjanState} {S base : List String} {v : String}
    (hnd : st.stack.Nodup) (hshape : st.stack = S ++ v :: base) :
    v ∉ S ∧ (∀ x ∈ S, x ∉ base ∧ x ≠ v) ∧ v ∉ base := by
  rw [hshape] at hnd
  rw [List.nodup_append] at hnd
  obtain ⟨hS, hvb, hdisj⟩ := hnd
  refine ⟨?_, ?_, ?_⟩
  · intro hc
    exact hdisj hc (List.mem_cons_self v base)
  · intro x hx
    constructor
    · intro hc
      exact hdisj hx (List.mem_cons_of_mem v hc)
    · intro hc
      exact hdisj hx (hc ▸ List.mem_cons_self v base)
  · rw [List.nodup_cons] at hvb
    exact hvb.1

theorem midinv_setlow {g : DirectedGraph} {st0 : TarjanState} {v : String}
    {st : TarjanState} (hMW : MidInvW g st0 v st)
    (hvnew : ¬ (st0.indices v).isSome) (m : Nat)
    (hm_low : m ≤ lowN st v)
    (hwit : ∃ u ∈ st.stack, idxN st u = m ∧ ReachG g v u)
    (hbound : ∀ x ∈ st.stack, x ∉ st0.stack → x ≠ v → m ≤ lowN st x) :
    MidInv g st0 v { st with lowlinks := setMap st.lowlinks v m } ∧
      Evol v st { st with lowlinks := setMap st.lowlinks v m } := by
  set st' := { st with lowlinks := setMap st.lowlinks v m } with hst'
  have hT := hMW.inv
  have hm_idx : m ≤ idxN st v := le_trans hm_low hMW.v_low
  have hlowv : lowN st' v = m := by
    show (setMap st.lowlinks v m v).getD 0 = m
    rw [setMap_eval_self]
    rfl
  have hlowne : ∀ x, x ≠ v → lowN st' x = lowN st x := by
    intro x hx
    show (setMap st.lowlinks v m x).getD 0 = _
    rw [setMap_eval_ne _ _ hx]
    rfl
  have hEvol : Evol v st st' := by
    refine ⟨fun x _ => rfl, ?_, ?_, fun x h => h, fun x hx => Or.inl hx⟩
    · intro x hxv _
      show setMap st.lowlinks v m x = _
      exact setMap_eval_ne _ _ hxv
    · rw [hlowv]
      exact hm_low
  obtain ⟨S, hshape, hSmem⟩ := hMW.stack_shape
  obtain ⟨hvS, hSsep, hvbase⟩ := shape_facts hT.stack_nodup hshape
  have hTinv : TInv g st' := by
    constructor
    · exact hT.dom_keys
    · intro x
      by_cases hx : x = v
      · subst hx
        show (setMap st.lowlinks x m x).isSome ↔ _
        rw [setMap_eval_self]
        simp [hMW.v_dom]
      · show (setMap st.lowlinks v m x).isSome ↔ _
        rw [setMap_eval_ne _ _ hx]
        exact hT.low_dom x
    · exact hT.idx_lt
    · exact hT.idx_inj
    · exact hT.stack_nodup
    · exact hT.onstack_nodup
    · exact hT.stack_dom
    · exact hT.onstack_iff
    · exact hT.stack_sorted
    · exact hT.comp_dom
    · exact hT.stack_comp
    · exact hT.comp_closed
    · exact hT.comp_mutual
    · exact hT.comp_maximal
    · exact hT.comp_nodup
    · exact hT.comp_disj
    · intro x hx
      by_cases hxv : x = v
      · subst hxv
        rw [hlowv]
        exact hm_idx
      · rw [hlowne x hxv]
        exact hT.low_le x hx
    · intro x hx
      by_cases hxv : x = v
      · subst hxv
        rw [hlowv]
        exact hwit
      · rw [hlowne x hxv]
        exact hT.low_wit x hx
    · exact hT.stack_reach
    · exact hT.comp_nonempty
  refine ⟨⟨⟨hTinv, ?_, ?_, ?_, ?_, ?_, ?_, ?_, ?_, ?_⟩, ?_⟩, hEvol⟩
  · intro x hx
    have hxv : x ≠ v := fun hc => hvnew (hc ▸ hx)
    refine ⟨(hMW.base_frozen x hx).1, ?_⟩
    show setMap st.lowlinks v m x = _
    rw [setMap_eval_ne _ _ hxv]
    exact (hMW.base_frozen x hx).2
  · exact hMW.v_dom
  · exact hMW.v_idx
  · rw [hlowv]
    exact hm_idx
  · exact hMW.index_gt
  · exact hMW.new_ge
  · refine ⟨S, hshape, ?_⟩
    intro x hx
    refine ⟨(hSmem x hx).1, ?_⟩
    exact settled_evol hT hEvol (hSmem x hx).2 (hSsep x hx).2
      (hT.stack_dom x (by rw [hshape]; exact List.mem_append_left _ hx))
  · exact hMW.comps_ext
  · exact hMW.closure_except
  · intro x hx hx0 hxv
    rw [hlowv, hlowne x hxv]
    exact hbound x hx hx0 hxv


theorem v_mem_stack {g : DirectedGraph} {st0 : TarjanState} {v : String}
    {st : TarjanState} (hMW : MidInvW g st0 v st) : v ∈ st.stack := by
  obtain ⟨S, hshape, _⟩ := hMW.stack_shape
  rw [hshape]
  exact List.mem_append_right _ (List.mem_cons_self v _)

/-- Neighbour step, case `elif w in on_stack`: fold `indices[w]` into
`lowlinks[v]`. -/
theorem scstep_onstack {g : DirectedGraph} {st0 : TarjanState} {v : String}
    {st : TarjanState} {w : String} (hM : MidInv g st0 v st)
    (hvnew : ¬ (st0.indices v).isSome)
    (hws : w ∈ st.on_stack) (hvw : stepG g v w) :
    MidInv g st0 v
      { st with lowlinks := setMap st.lowlinks v (min (lowN st v) (idxN st w)) } ∧
    Evol v st
      { st with lowlinks := setMap st.lowlinks v (min (lowN st v) (idxN st w)) } ∧
    GoodV { st with lowlinks := setMap st.lowlinks v (min (lowN st v) (idxN st w)) } v w := by
  have hwstack : w ∈ st.stack := (hM.inv.onstack_iff w).mp hws
  have hwit : ∃ u ∈ st.stack, idxN st u = min (lowN st v) (idxN st w) ∧ ReachG g v u := by
    rcases le_total (lowN st v) (idxN st w) with hle | hle
    · obtain ⟨u, hu, hui, hur⟩ := hM.inv.low_wit v (v_mem_stack hM.toMidInvW)
      refine ⟨u, hu, ?_, hur⟩
      rw [min_eq_left hle]
      exact hui
    · refine ⟨w, hwstack, ?_, Relation.ReflTransGen.single hvw⟩
      rw [min_eq_right hle]
  have hbound : ∀ x ∈ st.stack, x ∉ st0.stack → x ≠ v →
      min (lowN st v) (idxN st w) ≤ lowN st x := by
    intro x hx hx0 hxv
    exact le_trans (min_le_left _ _) (hM.low_min x hx hx0 hxv)
  obtain ⟨hMid, hEvol⟩ := midinv_setlow hM.toMidInvW hvnew _
    (min_le_left _ _) hwit hbound
  refine ⟨hMid, hEvol, Or.inr ⟨hwstack, ?_⟩⟩
  show (setMap st.lowlinks v _ v).getD 0 ≤ _
  rw [setMap_eval_self]
  exact min_le_right _ _

/-- Neighbour step, case `if neighbor not in indices`: recurse, then fold the
child lowlink into `lowlinks[v]`. -/
theorem scstep_fresh {g : DirectedGraph} {st0 : TarjanState} {v : String}
    {st stc : TarjanState} {w : String} (hM : MidInv g st0 v st)
    (hvnew : ¬ (st0.indices v).isSome)
    (hwnew : ¬ (st.indices w).isSome)
    (hP : SCPost g st w stc)
    (hvw : stepG g v w) :
    MidInv g st0 v
      { stc with lowlinks := setMap stc.lowlinks v (min (lowN stc v) (lowN stc w)) } ∧
    Evol v st
      { stc with lowlinks := setMap stc.lowlinks v (min (lowN stc v) (lowN stc w)) } ∧
    GoodV { stc with lowlinks := setMap stc.lowlinks v (min (lowN stc v) (lowN stc w)) } v w := by
  obtain ⟨S0, hshape0, hS0mem⟩ := hM.stack_shape
  obtain ⟨NS, hshapeC, hNSmem⟩ := hP.stack_ext
  have hdomST : ∀ x, (st.indices x).isSome → (stc.indices x).isSome := by
    intro x hx
    rw [(hP.frozen x hx).1]
    exact hx
  have hdom0 : ∀ x, (st0.indices x).isSome → (st.indices x).isSome := by
    intro x hx
    rw [(hM.base_frozen x hx).1]
    exact hx
  have hvstc_low : lowN stc v = lowN st v := by
    unfold lowN
    rw [(hP.frozen v hM.v_dom).2]
  have hvstc_idx : idxN stc v = idxN st v := by
    unfold idxN
    rw [(hP.frozen v hM.v_dom).1]
  have hEc : Evol v st stc := by
    refine ⟨fun x hx => (hP.frozen x hx).1, fun x _ hx => (hP.frozen x hx).2,
      le_of_eq hvstc_low, ?_, ?_⟩
    · intro x hx
      obtain ⟨CS, hcs, _⟩ := hP.comps_ext
      obtain ⟨c, hc, hxc⟩ := hx
      exact ⟨c, by rw [hcs]; exact List.mem_append_left _ hc, hxc⟩
    · intro x hx
      rw [hshapeC]
      exact Or.inl (List.mem_append_right _ hx)
  have hNS_new0 : ∀ x ∈ NS, ¬ (st0.indices x).isSome := by
    intro x hx hc
    exact hNSmem x hx (hdom0 x hc)
  have hNS_notst : ∀ x ∈ NS, x ∉ st.stack := by
    intro x hx hc
    exact hNSmem x hx (hM.inv.stack_dom x hc)
  have hvne_stack : ∀ x ∈ st.stack, (st.indices x).isSome :=
    hM.inv.stack_dom
  have hMWc : MidInvW g st0 v stc := by
    refine ⟨hP.inv, ?_, ?_, ?_, ?_, ?_, ?_, ?_, ?_, ?_⟩
    · intro x hx
      have hx1 := hdom0 x hx
      refine ⟨?_, ?_⟩
      · rw [(hP.frozen x hx1).1, (hM.base_frozen x hx).1]
      · rw [(hP.frozen x hx1).2, (hM.base_frozen x hx).2]
    · exact hdomST v hM.v_dom
    · rw [hvstc_idx]
      exact hM.v_idx
    · rw [hvstc_low, hvstc_idx]
      exact hM.v_low
    · exact lt_trans hM.index_gt hP.index_gt
    · intro x hx0 hxc
      by_cases hxst : (st.indices x).isSome
      · have := hM.new_ge x hx0 hxst
        unfold idxN
        rw [(hP.frozen x hxst).1]
        exact this
      · have h1 := hP.new_ge x hxst hxc
        have h2 := hM.index_gt
        omega
    · refine ⟨NS ++ S0, ?_, ?_⟩
      · rw [hshapeC, hshape0, List.append_assoc]
      · intro x hx
        rcases List.mem_append.mp hx with hx | hx
        · refine ⟨hNS_new0 x hx, ?_⟩
          exact hP.settled x (by rw [hshapeC]; exact List.mem_append_left _ hx)
            (hNS_notst x hx)
        · have hxst : x ∈ st.stack := by
            rw [hshape0]
            exact List.mem_append_left _ hx
          obtain ⟨hxv0, hxset⟩ := hS0mem x hx
          have hxv : x ≠ v := ((shape_facts hM.inv.stack_nodup hshape0).2.1 x hx).2
          exact ⟨hxv0, settled_evol hM.inv hEc hxset hxv (hvne_stack x hxst)⟩
    · obtain ⟨CS0, hcs0, hcs0m⟩ := hM.comps_ext
      obtain ⟨CS1, hcs1, hcs1m⟩ := hP.comps_ext
      refine ⟨CS0 ++ CS1, ?_, ?_⟩
      · rw [hcs1, hcs0, List.append_assoc]
      · intro c hc x hxc
        rcases List.mem_append.mp hc with hc | hc
        · exact hcs0m c hc x hxc
        · intro hx0
          exact hcs1m c hc x hxc (hdom0 x hx0)
    · intro x hx0 hxc hxv w2 hw2
      by_cases hxst : (st.indices x).isSome
      · exact hdomST w2 (hM.closure_except x hx0 hxst hxv w2 hw2)
      · exact hP.closure x hxst hxc w2 hw2
  have hvstack_c : v ∈ stc.stack := by
    rw [hshapeC]
    exact List.mem_append_right _ (v_mem_stack hM.toMidInvW)
  have hwit : ∃ u ∈ stc.stack, idxN stc u = min (lowN stc v) (lowN stc w) ∧
      ReachG g v u := by
    rcases le_total (lowN stc v) (lowN stc w) with hle | hle
    · obtain ⟨u, hu, hui, hur⟩ := hP.inv.low_wit v hvstack_c
      refine ⟨u, hu, ?_, hur⟩
      rw [min_eq_left hle]
      exact hui
    · rcases hP.v_fate with ⟨hwc, hstckeq, hwlow⟩ | ⟨hwstk, _⟩
      · exfalso
        have h1 : lowN stc w = st.index := by
          rw [hwlow, hP.v_idx]
        have h2 : lowN stc v ≤ st0.index := by
          rw [hvstc_low]
          calc lowN st v ≤ idxN st v := hM.v_low
          _ = st0.index := hM.v_idx
        have h3 := hM.index_gt
        omega
      · obtain ⟨u, hu, hui, hur⟩ := hP.inv.low_wit w hwstk
        refine ⟨u, hu, ?_, Relation.ReflTransGen.trans
          (Relation.ReflTransGen.single hvw) hur⟩
        rw [min_eq_right hle]
        exact hui
  have hbound : ∀ x ∈ stc.stack, x ∉ st0.stack → x ≠ v →
      min (lowN stc v) (lowN stc w) ≤ lowN stc x := by
    intro x hx hx0 hxv
    rw [hshapeC] at hx
    rcases List.mem_append.mp hx with hx | hx
    · -- x was pushed during the child call
      rcases hP.v_fate with ⟨_, hstckeq, _⟩ | ⟨_, hmin⟩
      · exfalso
        have : NS ++ st.stack = st.stack := by rw [← hshapeC, hstckeq]
        have hlen := congrArg List.length this
        rw [List.length_append] at hlen
        have : NS = [] := List.eq_nil_of_length_eq_zero (by omega)
        rw [this] at hx
        cases hx
      · have := hmin x (by rw [hshapeC]; exact List.mem_append_left _ hx)
          (hNS_notst x hx)
        exact le_trans (min_le_right _ _) this
    · -- x was already on the stack before the child call
      have hxdom := hvne_stack x hx
      have hlow_eq : lowN stc x = lowN st x := by
        unfold lowN
        rw [(hP.frozen x hxdom).2]
      rw [hlow_eq]
      calc min (lowN stc v) (lowN stc w) ≤ lowN stc v := min_le_left _ _
      _ = lowN st v := hvstc_low
      _ ≤ lowN st x := hM.low_min x hx hx0 hxv
  obtain ⟨hMid, hEv2⟩ := midinv_setlow hMWc hvnew _ (min_le_left _ _) hwit hbound
  refine ⟨hMid, evol_trans hEc hEv2, ?_⟩
  rcases hP.v_fate with ⟨hwc, _, _⟩ | ⟨hwstk, _⟩
  · exact Or.inl hwc
  · refine Or.inr ⟨hwstk, ?_⟩
    have hsettled := hP.settled w hwstk (fun hc => hwnew (hvne_stack w hc))
    have : lowN stc w ≤ idxN stc w := le_of_lt hsettled.1
    show (setMap stc.lowlinks v _ v).getD 0 ≤ idxN _ w
    rw [setMap_eval_self]
    show min (lowN stc v) (lowN stc w) ≤ idxN stc w
    exact le_trans (min_le_right _ _) this

/-- Neighbour step, final case: `w` already discovered and not on the stack
(hence in an emitted component); the state is unchanged. -/
theorem scstep_skip {g : DirectedGraph} {st0 : TarjanState} {v : String}
    {st : TarjanState} {w : String} (hM : MidInv g st0 v st)
    (hwdom : (st.indices w).isSome) (hws : w ∉ st.on_stack) :
    GoodV st v w := by
  have hwstack : w ∉ st.stack := fun hc => hws ((hM.inv.onstack_iff w).mpr hc)
  have := (hM.inv.stack_comp w hwdom).not
  exact Or.inl (by
    by_contra hc
    exact hwstack ((hM.inv.stack_comp w hwdom).mpr hc))


theorem stack_reaches_v {g : DirectedGraph} {st0 : TarjanState} {v : String}
    {st : TarjanState} (hM : MidInv g st0 v st)
    (hbase_reach : ∀ a ∈ st0.stack, ReachG g a v) :
    ∀ a ∈ st.stack, ReachG g a v := by
  obtain ⟨S, hshape, hSmem⟩ := hM.stack_shape
  intro a ha
  rw [hshape] at ha
  rcases List.mem_append.mp ha with ha | ha
  · exact survivors_reach hM.inv hshape (fun x hx => (hSmem x hx).2) hbase_reach a ha
  · rcases List.mem_cons.mp ha with ha | ha
    · rw [ha]
      exact Relation.ReflTransGen.refl
    · exact hbase_reach a ha

theorem scLoop_spec {g : DirectedGraph} (hWF : WF g) {st0 : TarjanState}
    {v : String} (fuel : Nat)
    (hrec : ∀ w st, TInv g st → w ∈ keysOf g → ¬ (st.indices w).isSome →
      (∀ a ∈ st.stack, ReachG g a w) → tmiss g st < fuel →
      SCPost g st w (strongconnect g fuel w st))
    (hv : v ∈ keysOf g)
    (hvnew0 : ¬ (st0.indices v).isSome)
    (hbase_reach : ∀ a ∈ st0.stack, ReachG g a v)
    (htm : tmiss g st0 ≤ fuel) :
    ∀ (ws : List String) (st : TarjanState), (∀ w ∈ ws, stepG g v w) →
      MidInv g st0 v st →
      MidInv g st0 v (scLoop v (strongconnect g fuel) ws st) ∧
      Evol v st (scLoop v (strongconnect g fuel) ws st) ∧
      (∀ w ∈ ws, GoodV (scLoop v (strongconnect g fuel) ws st) v w) := by
  intro ws
  induction ws with
  | nil =>
    intro st _ hM
    exact ⟨hM, evol_refl v st, by intro w hw; cases hw⟩
  | cons w ws ih =>
    intro st hsteps hM
    have hvw : stepG g v w := hsteps w (List.mem_cons_self w ws)
    have hsteps' : ∀ x ∈ ws, stepG g v x :=
      fun x hx => hsteps x (List.mem_cons_of_mem w hx)
    by_cases hwn : (st.indices w).isNone
    · -- fresh neighbour: recursive call
      have hwnone : ¬ (st.indices w).isSome := by
        rw [Option.isNone_iff_eq_none] at hwn
        rw [hwn]
        simp
      have hwK : w ∈ keysOf g := (stepG_mem_keys hWF hvw).2
      have hPre : ∀ a ∈ st.stack, ReachG g a w := by
        intro a ha
        exact Relation.ReflTransGen.tail (stack_reaches_v hM hbase_reach a ha) hvw
      have hdom0 : ∀ x, (st0.indices x).isSome → (st.indices x).isSome := by
        intro x hx
        rw [(hM.base_frozen x hx).1]
        exact hx
      have htm' : tmiss g st < fuel :=
        lt_of_lt_of_le (tmiss_lt hdom0 hv hvnew0 hM.v_dom) htm
      have hP := hrec w st hM.inv hwK hwnone hPre htm'
      obtain ⟨hMid, hEvol, hGood⟩ := scstep_fresh hM hvnew0 hwnone hP hvw
      have hstep_eq : scLoop v (strongconnect g fuel) (w :: ws) st
          = scLoop v (strongconnect g fuel) ws
            { strongconnect g fuel w st with
              lowlinks := setMap (strongconnect g fuel w st).lowlinks v
                (min (lowN (strongconnect g fuel w st) v)
                  (lowN (strongconnect g fuel w st) w)) } := by
        simp only [scLoop]
        rw [if_pos hwn]
      rw [hstep_eq]
      obtain ⟨hMid2, hEvol2, hGoods⟩ := ih _ hsteps' hMid
      refine ⟨hMid2, evol_trans hEvol hEvol2, ?_⟩
      intro x hx
      rcases List.mem_cons.mp hx with hx | hx
      · rw [hx]
        exact good_evol hMid.inv hEvol2 hGood
      · exact hGoods x hx
    · have hwdom : (st.indices w).isSome := by
        cases h : st.indices w with
        | none => rw [Option.isNone_iff_eq_none] at hwn; exact absurd h hwn
        | some n => rfl
      by_cases hws : w ∈ st.on_stack
      · -- visited and on the stack
        obtain ⟨hMid, hEvol, hGood⟩ := scstep_onstack hM hvnew0 hws hvw
        have hstep_eq : scLoop v (strongconnect g fuel) (w :: ws) st
            = scLoop v (strongconnect g fuel) ws
              { st with lowlinks := setMap st.lowlinks v (min (lowN st v) (idxN st w)) } := by
          simp only [scLoop]
          rw [if_neg hwn, if_pos hws]
        rw [hstep_eq]
        obtain ⟨hMid2, hEvol2, hGoods⟩ := ih _ hsteps' hMid
        refine ⟨hMid2, evol_trans hEvol hEvol2, ?_⟩
        intro x hx
        rcases List.mem_cons.mp hx with hx | hx
        · rw [hx]
          exact good_evol hMid.inv hEvol2 hGood
        · exact hGoods x hx
      · -- visited, already assigned to a component
        have hGood : GoodV st v w := scstep_skip hM hwdom hws
        have hstep_eq : scLoop v (strongconnect g fuel) (w :: ws) st
            = scLoop v (strongconnect g fuel) ws st := by
          simp only [scLoop]
          rw [if_neg hwn, if_neg hws]
        rw [hstep_eq]
        obtain ⟨hMid2, hEvol2, hGoods⟩ := ih _ hsteps' hM
        refine ⟨hMid2, hEvol2, ?_⟩
        intro x hx
        rcases List.mem_cons.mp hx with hx | hx
        · rw [hx]
          exact good_evol hM.inv hEvol2 hGood
        · exact hGoods x hx


theorem emitComponent_eq {v : String} {st2 : TarjanState} {S base : List String}
    (hshape : st2.stack = S ++ v :: base) (hvS : v ∉ S) :
    emitComponent v st2 =
      { st2 with
          stack := base,
          on_stack := (S ++ [v]).foldl (fun os w => os.erase w) st2.on_stack,
          components := st2.components ++ [S ++ [v]] } := by
  unfold emitComponent
  rw [hshape, popUntil_eq hvS]

/-- Finish of `strongconnect(v)` when `lowlink != index`: the state after the
neighbour loop already satisfies the postcondition. -/
theorem sc_finish_nopop {g : DirectedGraph} {st : TarjanState} {v : String}
    {st2 : TarjanState}
    (hvnew : ¬ (st.indices v).isSome)
    (hM2 : MidInv g st v st2)
    (hGoodAll : ∀ w, stepG g v w → GoodV st2 v w)
    (hne : lowN st2 v ≠ idxN st2 v) :
    SCPost g st v st2 := by
  obtain ⟨S, hshape, hSmem⟩ := hM2.stack_shape
  refine ⟨hM2.inv, hM2.base_frozen, hM2.v_dom, hM2.v_idx, hM2.index_gt,
    hM2.new_ge, ?_, hM2.comps_ext, ?_, ?_, ?_⟩
  · refine ⟨S ++ [v], ?_, ?_⟩
    · rw [hshape, List.append_cons]
    · intro x hx
      rcases List.mem_append.mp hx with hx | hx
      · exact (hSmem x hx).1
      · rw [List.mem_singleton.mp hx]
        exact hvnew
  · intro x hx hxst
    rw [hshape] at hx
    rcases List.mem_append.mp hx with hx | hx
    · exact (hSmem x hx).2
    · rcases List.mem_cons.mp hx with hx | hx
      · rw [hx]
        exact ⟨lt_of_le_of_ne hM2.v_low hne, fun w hw => hGoodAll w hw⟩
      · exact absurd hx hxst
  · refine Or.inr ⟨v_mem_stack hM2.toMidInvW, ?_⟩
    intro x hx hxst
    by_cases hxv : x = v
    · rw [hxv]
    · exact hM2.low_min x hx hxst hxv
  · intro x hx0 hx2 w hw
    by_cases hxv : x = v
    · subst hxv
      rcases hGoodAll w hw with hc | ⟨hws, _⟩
      · exact hM2.inv.comp_dom w hc
      · exact hM2.inv.stack_dom w hws
    · exact hM2.closure_except x hx0 hx2 hxv w hw

/-- Finish of `strongconnect(v)` when `lowlink == index`: pop the component
`C = S ++ [v]`; it is exactly the SCC of `v`. -/
theorem sc_finish_pop {g : DirectedGraph} {st : TarjanState} {v : String}
    {st2 : TarjanState}
    (hvnew : ¬ (st.indices v).isSome)
    (hpre : ∀ a ∈ st.stack, ReachG g a v)
    (hM2 : MidInv g st v st2)
    (hGoodAll : ∀ w, stepG g v w → GoodV st2 v w)
    (heq : lowN st2 v = idxN st2 v) :
    SCPost g st v (emitComponent v st2) := by
  obtain ⟨S, hshape, hSmem⟩ := hM2.stack_shape
  obtain ⟨hvS, hSsep, hvbase⟩ := shape_facts hM2.inv.stack_nodup hshape
  have hemit := emitComponent_eq hshape hvS
  set C := S ++ [v] with hC
  -- membership facts for C
  have hCmem : ∀ x, x ∈ C ↔ (x ∈ S ∨ x = v) := by
    intro x
    rw [hC, List.mem_append, List.mem_singleton]
  have hCstack : ∀ x ∈ C, x ∈ st2.stack := by
    intro x hx
    rw [hshape]
    rcases (hCmem x).mp hx with hx | hx
    · exact List.mem_append_left _ hx
    · exact List.mem_append_right _ (hx ▸ List.mem_cons_self v _)
  have hCdom : ∀ x ∈ C, (st2.indices x).isSome :=
    fun x hx => hM2.inv.stack_dom x (hCstack x hx)
  -- index comparisons from the sorted stack
  have hsorted := hM2.inv.stack_sorted
  rw [hshape, List.pairwise_append] at hsorted
  obtain ⟨hpS, hpvb, hcross⟩ := hsorted
  have hS_gt : ∀ a ∈ S, idxN st2 v < idxN st2 a :=
    fun a ha => hcross a ha v (List.mem_cons_self v _)
  have hbase_lt : ∀ b ∈ st.stack, idxN st2 b < idxN st2 v :=
    (List.pairwise_cons.mp hpvb).1
  have hC_ge : ∀ x ∈ C, idxN st2 v ≤ idxN st2 x := by
    intro x hx
    rcases (hCmem x).mp hx with hx | hx
    · exact le_of_lt (hS_gt x hx)
    · rw [hx]
  have hCnotbase : ∀ x ∈ C, x ∉ st.stack := by
    intro x hx
    rcases (hCmem x).mp hx with hx | hx
    · exact (hSsep x hx).1
    · rw [hx]; exact hvbase
  have hlowC_ge : ∀ x ∈ C, idxN st2 v ≤ lowN st2 x := by
    intro x hx
    rcases (hCmem x).mp hx with hxS | hxv
    · rw [← heq]
      exact hM2.low_min x (hCstack x hx) ((hSsep x hxS).1) ((hSsep x hxS).2)
    · rw [hxv, ← heq]
  -- reachability between C members and v
  have hCreach_v : ∀ x ∈ C, ReachG g x v := by
    intro x hx
    rcases (hCmem x).mp hx with hx | hx
    · exact survivors_reach hM2.inv hshape (fun y hy => (hSmem y hy).2) hpre x hx
    · rw [hx]
      exact Relation.ReflTransGen.refl
  have hv_reach_C : ∀ x ∈ C, ReachG g v x := by
    have hsr := hM2.inv.stack_reach
    rw [hshape, List.pairwise_append] at hsr
    obtain ⟨_, _, hcrossr⟩ := hsr
    intro x hx
    rcases (hCmem x).mp hx with hx | hx
    · exact hcrossr x hx v (List.mem_cons_self v _)
    · rw [hx]
      exact Relation.ReflTransGen.refl
  -- edges out of C land in old components or back in C
  have hCclosed : ∀ z ∈ C, ∀ w, stepG g z w → inComp st2 w ∨ w ∈ C := by
    intro z hz w hw
    have hdisj : inComp st2 w ∨ (w ∈ st2.stack ∧ lowN st2 z ≤ idxN st2 w) := by
      rcases (hCmem z).mp hz with hzS | hzv
      · exact (hSmem z hzS).2.2 w hw
      · rw [hzv] at hw ⊢
        exact hGoodAll w hw
    rcases hdisj with hc | ⟨hws, hle⟩
    · exact Or.inl hc
    · right
      have hwge : idxN st2 v ≤ idxN st2 w := le_trans (hlowC_ge z hz) hle
      rw [hshape] at hws
      rcases List.mem_append.mp hws with hws | hws
      · exact (hCmem w).mpr (Or.inl hws)
      · rcases List.mem_cons.mp hws with hws | hws
        · exact (hCmem w).mpr (Or.inr hws)
        · exact absurd hwge (not_le.mpr (hbase_lt w hws))
  have hCnotcomp : ∀ x ∈ C, ¬ inComp st2 x := by
    intro x hx
    exact (hM2.inv.stack_comp x (hCdom x hx)).mp (hCstack x hx)
  -- nodup of C and disjointness with the remaining stack, from the stack
  have hnd2 := hM2.inv.stack_nodup
  rw [hshape] at hnd2
  rw [List.nodup_append] at hnd2
  obtain ⟨hndS, hndvb, hdisjSvb⟩ := hnd2
  have hCnodup : C.Nodup := by
    rw [hC, List.nodup_append]
    refine ⟨hndS, by simp, ?_⟩
    intro x hx
    simp only [List.mem_singleton]
    exact fun hc => hvS (hc ▸ hx)
  -- the emitted state
  rw [hemit]
  set st3 : TarjanState :=
    { st2 with
        stack := st.stack,
        on_stack := C.foldl (fun os w => os.erase w) st2.on_stack,
        components := st2.components ++ [C] } with hst3
  have hinc : ∀ x, inComp st3 x ↔ (inComp st2 x ∨ x ∈ C) := by
    intro x
    constructor
    · intro ⟨c, hc, hxc⟩
      rcases List.mem_append.mp hc with hc | hc
      · exact Or.inl ⟨c, hc, hxc⟩
      · rw [List.mem_singleton.mp hc] at hxc
        exact Or.inr hxc
    · intro hx
      rcases hx with ⟨c, hc, hxc⟩ | hx
      · exact ⟨c, List.mem_append_left _ hc, hxc⟩
      · exact ⟨C, List.mem_append_right _ (List.mem_singleton_self C), hx⟩
  have honstack3 : ∀ x, x ∈ st3.on_stack ↔ (x ∈ st2.on_stack ∧ x ∉ C) := by
    intro x
    exact erase_foldl_mem hM2.inv.onstack_nodup x
  have hbase_sub : ∀ x ∈ st.stack, x ∈ st2.stack := by
    intro x hx
    rw [hshape]
    exact List.mem_append_right _ (List.mem_cons_of_mem v hx)
  have hTinv3 : TInv g st3 := by
    constructor
    · exact hM2.inv.dom_keys
    · exact hM2.inv.low_dom
    · exact hM2.inv.idx_lt
    · exact hM2.inv.idx_inj
    · exact (List.nodup_cons.mp hndvb).2
    · -- erase-fold of a nodup list stays nodup
      show (C.foldl (fun os w => os.erase w) st2.on_stack).Nodup
      have : ∀ (cs os : List String), os.Nodup →
          (cs.foldl (fun os w => os.erase w) os).Nodup := by
        intro cs
        induction cs with
        | nil => exact fun os h => h
        | cons c cs ih => exact fun os h => ih _ (h.erase c)
      exact this C st2.on_stack hM2.inv.onstack_nodup
    · exact fun x hx => hM2.inv.stack_dom x (hbase_sub x hx)
    · intro x
      rw [honstack3]
      show _ ↔ x ∈ st.stack
      rw [hM2.inv.onstack_iff x, hshape]
      constructor
      · intro ⟨hx1, hx2⟩
        rcases List.mem_append.mp hx1 with hx | hx
        · exact absurd ((hCmem x).mpr (Or.inl hx)) hx2
        · rcases List.mem_cons.mp hx with hx | hx
          · exact absurd ((hCmem x).mpr (Or.inr hx)) hx2
          · exact hx
      · intro hx
        refine ⟨List.mem_append_right _ (List.mem_cons_of_mem v hx), ?_⟩
        exact fun hc => hCnotbase x hc hx
    · exact (List.pairwise_cons.mp hpvb).2
    · intro x hx
      rcases (hinc x).mp hx with hx | hx
      · exact hM2.inv.comp_dom x hx
      · exact hCdom x hx
    · intro x hxd
      show x ∈ st.stack ↔ ¬ inComp st3 x
      rw [hinc]
      constructor
      · intro hx hcontra
        rcases hcontra with hc | hc
        · exact (hM2.inv.stack_comp x hxd).mp (hbase_sub x hx) hc
        · exact hCnotbase x hc hx
      · intro hx
        push_neg at hx
        have hx2 : x ∈ st2.stack := (hM2.inv.stack_comp x hxd).mpr hx.1
        rw [hshape] at hx2
        rcases List.mem_append.mp hx2 with h | h
        · exact absurd ((hCmem x).mpr (Or.inl h)) hx.2
        · rcases List.mem_cons.mp h with h | h
          · exact absurd ((hCmem x).mpr (Or.inr h)) hx.2
          · exact h
    · intro x hx w hw
      rw [hinc] at hx
      rw [hinc]
      rcases hx with hx | hx
      · exact Or.inl (hM2.inv.comp_closed x hx w hw)
      · rcases hCclosed x hx w hw with h | h
        · exact Or.inl h
        · exact Or.inr h
    · intro c hc u hu w hw
      rcases List.mem_append.mp hc with hc | hc
      · exact hM2.inv.comp_mutual c hc u hu w hw
      · rw [List.mem_singleton.mp hc] at hu hw
        exact Relation.ReflTransGen.trans (hCreach_v u hu) (hv_reach_C w hw)
    · intro c hc u hu y h1 h2
      rcases List.mem_append.mp hc with hc | hc
      · exact hM2.inv.comp_maximal c hc u hu y h1 h2
      · rw [List.mem_singleton.mp hc] at hu ⊢
        -- follow the path from u: it stays in C or old components
        have hA : ∀ z w, (z ∈ C ∨ inComp st2 z) → stepG g z w →
            (w ∈ C ∨ inComp st2 w) := by
          intro z w hz hzw
          rcases hz with hz | hz
          · rcases hCclosed z hz w hzw with h | h
            · exact Or.inr h
            · exact Or.inl h
          · exact Or.inr (hM2.inv.comp_closed z hz w hzw)
        have hy := reach_closed hA (Or.inl hu) h1
        rcases hy with hy | hy
        · exact hy
        · exfalso
          have hB : ∀ z w, inComp st2 z → stepG g z w → inComp st2 w :=
            fun z w hz hzw => hM2.inv.comp_closed z hz w hzw
          have hu2 := reach_closed hB hy h2
          exact hCnotcomp u hu hu2
    · intro c hc
      rcases List.mem_append.mp hc with hc | hc
      · exact hM2.inv.comp_nodup c hc
      · rw [List.mem_singleton.mp hc]
        exact hCnodup
    · rw [List.pairwise_append]
      refine ⟨hM2.inv.comp_disj, by simp, ?_⟩
      intro c hc d hd x hxc
      rw [List.mem_singleton.mp hd]
      intro hxC
      exact hCnotcomp x hxC ⟨c, hc, hxc⟩
    · intro x hx
      exact hM2.inv.low_le x (hbase_sub x hx)
    · intro y hy
      obtain ⟨u, hu, hui, hur⟩ := hM2.inv.low_wit y (hbase_sub y hy)
      refine ⟨u, ?_, hui, hur⟩
      have huvlt : idxN st2 u < idxN st2 v := by
        have h1 : lowN st2 y ≤ idxN st2 y := hM2.inv.low_le y (hbase_sub y hy)
        have h2 : idxN st2 y < idxN st2 v := hbase_lt y hy
        omega
      rw [hshape] at hu
      rcases List.mem_append.mp hu with hu | hu
      · exact absurd huvlt (not_lt.mpr (le_of_lt (hS_gt u hu)))
      · rcases List.mem_cons.mp hu with hu | hu
        · rw [hu] at huvlt
          omega
        · exact hu
    · have hsr := hM2.inv.stack_reach
      rw [hshape, List.pairwise_append] at hsr
      exact (List.pairwise_cons.mp hsr.2.1).2
    · intro c hc
      rcases List.mem_append.mp hc with hc | hc
      · exact hM2.inv.comp_nonempty c hc
      · rw [List.mem_singleton.mp hc, hC]
        intro hcon
        have := congrArg List.length hcon
        rw [List.length_append] at this
        simp at this
  refine ⟨hTinv3, hM2.base_frozen, hM2.v_dom, hM2.v_idx, hM2.index_gt,
    hM2.new_ge, ?_, ?_, ?_, ?_, ?_⟩
  · exact ⟨[], rfl, by intro x hx; cases hx⟩
  · obtain ⟨CS, hcs, hcsm⟩ := hM2.comps_ext
    refine ⟨CS ++ [C], by
      show st2.components ++ [C] = _
      rw [hcs, List.append_assoc], ?_⟩
    intro c hc x hxc
    rcases List.mem_append.mp hc with hc | hc
    · exact hcsm c hc x hxc
    · rw [List.mem_singleton.mp hc] at hxc
      rcases (hCmem x).mp hxc with hx | hx
      · exact (hSmem x hx).1
      · rw [hx]
        exact hvnew
  · intro x hx hxst
    exact absurd hx hxst
  · refine Or.inl ⟨(hinc v).mpr (Or.inr ((hCmem v).mpr (Or.inr rfl))), rfl, heq⟩
  · intro x hx0 hx2 w hw
    by_cases hxv : x = v
    · subst hxv
      rcases hGoodAll w hw with hc | ⟨hws, _⟩
      · exact hM2.inv.comp_dom w hc
      · exact hM2.inv.stack_dom w hws
    · exact hM2.closure_except x hx0 hx2 hxv w hw


theorem strongconnect_spec {g : DirectedGraph} (hWF : WF g) :
    ∀ (fuel : Nat) (v : String) (st : TarjanState),
      TInv g st → v ∈ keysOf g → ¬ (st.indices v).isSome →
      (∀ a ∈ st.stack, ReachG g a v) → tmiss g st < fuel →
      SCPost g st v (strongconnect g fuel v st) := by
  intro fuel
  induction fuel with
  | zero =>
    intro v st _ _ _ _ htm
    exact absurd htm (Nat.not_lt_zero _)
  | succ fuel ih =>
    intro v st hT hv hvnew hpre htm
    have hM1 : MidInv g st v (pushV v st) := push_midinv hT hv hvnew hpre
    have hsteps : ∀ w ∈ succs g v, stepG g v w :=
      fun w hw => (mem_succs_iff hWF hv w).mp hw
    have htm' : tmiss g st ≤ fuel := Nat.lt_succ_iff.mp htm
    obtain ⟨hM2, _, hGoods⟩ :=
      scLoop_spec hWF fuel ih hv hvnew hpre htm' (succs g v) (pushV v st) hsteps hM1
    have hGoodAll : ∀ w, stepG g v w →
        GoodV (scLoop v (strongconnect g fuel) (succs g v) (pushV v st)) v w :=
      fun w hw => hGoods w ((mem_succs_iff hWF hv w).mpr hw)
    by_cases hcase : lowN (scLoop v (strongconnect g fuel) (succs g v) (pushV v st)) v
        = idxN (scLoop v (strongconnect g fuel) (succs g v) (pushV v st)) v
    · have hunfold : strongconnect g (fuel+1) v st
          = emitComponent v (scLoop v (strongconnect g fuel) (succs g v) (pushV v st)) := by
        simp only [strongconnect]
        rw [if_pos hcase]
      rw [hunfold]
      exact sc_finish_pop hvnew hpre hM2 hGoodAll hcase
    · have hunfold : strongconnect g (fuel+1) v st
          = scLoop v (strongconnect g fuel) (succs g v) (pushV v st) := by
        simp only [strongconnect]
        rw [if_neg hcase]
      rw [hunfold]
      exact sc_finish_nopop hvnew hM2 hGoodAll hcase

theorem tinv_init (g : DirectedGraph) : TInv g tarjanInit := by
  constructor <;> simp [tarjanInit, inComp]

theorem tmiss_le (g : DirectedGraph) (st : TarjanState) :
    tmiss g st ≤ (keysOf g).length := by
  unfold tmiss
  calc ((keysOf g).toFinset.filter _).card ≤ (keysOf g).toFinset.card :=
    Finset.card_filter_le _ _
  _ ≤ (keysOf g).length := List.toFinset_card_le _

/-- The full run of Tarjan over all vertices: final state invariant, empty
stack, and every listed vertex discovered. -/
theorem tarjan_fold_spec {g : DirectedGraph} (hWF : WF g) :
    ∀ (l : List String) (st : TarjanState), (∀ x ∈ l, x ∈ keysOf g) →
      TInv g st → st.stack = [] →
      TInv g (l.foldl
        (fun st v => if (st.indices v).isNone
          then strongconnect g ((keysOf g).length + 1) v st else st) st) ∧
      (l.foldl
        (fun st v => if (st.indices v).isNone
          then strongconnect g ((keysOf g).length + 1) v st else st) st).stack = [] ∧
      (∀ x ∈ l, ((l.foldl
        (fun st v => if (st.indices v).isNone
          then strongconnect g ((keysOf g).length + 1) v st else st) st).indices x).isSome) ∧
      (∀ x, (st.indices x).isSome → ((l.foldl
        (fun st v => if (st.indices v).isNone
          then strongconnect g ((keysOf g).length + 1) v st else st) st).indices x).isSome) := by
  intro l
  induction l with
  | nil =>
    intro st _ hT hstk
    refine ⟨hT, hstk, ?_, ?_⟩
    · intro x hx
      cases hx
    · intro x hx
      exact hx
  | cons v l ihl =>
    intro st hmem hT hstk
    have hvK : v ∈ keysOf g := hmem v (List.mem_cons_self v l)
    have hmem' : ∀ x ∈ l, x ∈ keysOf g :=
      fun x hx => hmem x (List.mem_cons_of_mem v hx)
    by_cases hvn : (st.indices v).isNone
    · have hvnew : ¬ (st.indices v).isSome := by
        rw [Option.isNone_iff_eq_none] at hvn
        rw [hvn]
        simp
      have hpre : ∀ a ∈ st.stack, ReachG g a v := by
        rw [hstk]
        intro a ha
        cases ha
      have htm : tmiss g st < (keysOf g).length + 1 :=
        Nat.lt_succ_of_le (tmiss_le g st)
      have hP := strongconnect_spec hWF ((keysOf g).length + 1) v st hT hvK hvnew hpre htm
      set st1 := strongconnect g ((keysOf g).length + 1) v st with hst1
      have hstk1 : st1.stack = [] := by
        rcases hP.v_fate with ⟨_, heq, _⟩ | ⟨hvs, _⟩
        · rw [heq, hstk]
        · exfalso
          have hvnotst : v ∉ st.stack := by
            rw [hstk]
            exact List.not_mem_nil v
          have hsettled := hP.settled v hvs hvnotst
          obtain ⟨u, hu, hui, _⟩ := hP.inv.low_wit v hvs
          obtain ⟨NS, hsh, hNS⟩ := hP.stack_ext
          rw [hstk, List.append_nil] at hsh
          have hu_new : ¬ (st.indices u).isSome := by
            rw [hsh] at hu
            exact hNS u hu
          have h1 := hP.new_ge u hu_new (hP.inv.stack_dom u hu)
          have h2 : lowN st1 v < idxN st1 v := hsettled.1
          have h3 : idxN st1 v = st.index := hP.v_idx
          omega
      have hstep_eq : (v :: l).foldl
          (fun st v => if (st.indices v).isNone
            then strongconnect g ((keysOf g).length + 1) v st else st) st
          = l.foldl
          (fun st v => if (st.indices v).isNone
            then strongconnect g ((keysOf g).length + 1) v st else st) st1 := by
        rw [List.foldl_cons, if_pos hvn]
      rw [hstep_eq]
      obtain ⟨hT2, hstk2, hall2, hmono2⟩ := ihl st1 hmem' hP.inv hstk1
      refine ⟨hT2, hstk2, ?_, ?_⟩
      · intro x hx
        rcases List.mem_cons.mp hx with hx | hx
        · rw [hx]
          exact hmono2 v hP.v_dom
        · exact hall2 x hx
      · intro x hx
        apply hmono2
        rw [(hP.frozen x hx).1]
        exact hx
    · have hvdom : (st.indices v).isSome := by
        cases h : st.indices v with
        | none => rw [Option.isNone_iff_eq_none] at hvn; exact absurd h hvn
        | some n => rfl
      have hstep_eq : (v :: l).foldl
          (fun st v => if (st.indices v).isNone
            then strongconnect g ((keysOf g).length + 1) v st else st) st
          = l.foldl
          (fun st v => if (st.indices v).isNone
            then strongconnect g ((keysOf g).length + 1) v st else st) st := by
        rw [List.foldl_cons, if_neg hvn]
      rw [hstep_eq]
      obtain ⟨hT2, hstk2, hall2, hmono2⟩ := ihl st hmem' hT hstk
      refine ⟨hT2, hstk2, ?_, hmono2⟩
      intro x hx
      rcases List.mem_cons.mp hx with hx | hx
      · rw [hx]
        exact hmono2 v hvdom
      · exact hall2 x hx

/-- Correctness of `get_strongly_connected_components`: its output is the
partition of the vertex set into maximal mutually-reachable classes. -/
theorem tarjan_scc (g : DirectedGraph) (hWF : WF g) :
    (∀ x, x ∈ keysOf g ↔ ∃ c ∈ get_strongly_connected_components g, x ∈ c) ∧
    (∀ c ∈ get_strongly_connected_components g, c.Nodup) ∧
    (get_strongly_connected_components g).Pairwise (fun c d => ∀ x, x ∈ c → x ∉ d) ∧
    (∀ c ∈ get_strongly_connected_components g, ∀ u ∈ c, ∀ v ∈ c, ReachG g u v) ∧
    (∀ c ∈ get_strongly_connected_components g, ∀ u ∈ c, ∀ v,
      ReachG g u v → ReachG g v u → v ∈ c) ∧
    (∀ c ∈ get_strongly_connected_components g, c ≠ []) := by
  obtain ⟨hT, hstk, hall, _⟩ :=
    tarjan_fold_spec hWF (keysOf g) tarjanInit (fun x hx => hx) (tinv_init g) rfl
  set stF := (keysOf g).foldl
    (fun st v => if (st.indices v).isNone
      then strongconnect g ((keysOf g).length + 1) v st else st) tarjanInit with hstF
  have hcomps : get_strongly_connected_components g = stF.components := rfl
  rw [hcomps]
  refine ⟨?_, hT.comp_nodup, hT.comp_disj, hT.comp_mutual, hT.comp_maximal,
    hT.comp_nonempty⟩
  intro x
  constructor
  · intro hx
    have hxd := hall x hx
    have := (hT.stack_comp x hxd).not
    by_contra hc
    have hnc : ¬ inComp stF x := fun ⟨c, hcm, hxc⟩ => hc ⟨c, hcm, hxc⟩
    have := (hT.stack_comp x hxd).mpr hnc
    rw [hstk] at this
    cases this
  · intro ⟨c, hc, hxc⟩
    exact hT.dom_keys x (hT.comp_dom x ⟨c, hc, hxc⟩)

/-- Claim C5: for every well-formed graph, get_strongly_connected_components
returns a partition of the full vertex set into strongly connected components:
every vertex label occurs in some returned component (coverage), each component
lists its labels without duplicates and distinct components are disjoint (so
each label occurs exactly once overall), every two vertices of a component
reach each other via directed edges, and each component is maximal for mutual
reachability. -/
theorem claim_C5_scc_partition (g : DirectedGraph) (hWF : WF g) :
    (∀ x, x ∈ keysOf g ↔ ∃ c ∈ get_strongly_connected_components g, x ∈ c) ∧
    (∀ c ∈ get_strongly_connected_components g, c.Nodup) ∧
    (get_strongly_connected_components g).Pairwise (fun c d => ∀ x, x ∈ c → x ∉ d) ∧
    (∀ c ∈ get_strongly_connected_components g, ∀ u ∈ c, ∀ v ∈ c, ReachG g u v) ∧
    (∀ c ∈ get_strongly_connected_components g, ∀ u ∈ c, ∀ v,
      ReachG g u v → ReachG g v u → v ∈ c) := by
  obtain ⟨h1, h2, h3, h4, h5, _⟩ := tarjan_scc g hWF
  exact ⟨h1, h2, h3, h4, h5⟩

/-- Concrete instance of claim C5 on the graph with edges A→B, B→A, B→C. -/
theorem claim_C5_scc_partition_witness :
    (∀ x, x ∈ keysOf (buildGraph [("A", "B"), ("B", "A"), ("B", "C")]) ↔
      ∃ c ∈ get_strongly_connected_components
        (buildGraph [("A", "B"), ("B", "A"), ("B", "C")]), x ∈ c) ∧
    (∀ c ∈ get_strongly_connected_components
        (buildGraph [("A", "B"), ("B", "A"), ("B", "C")]), c.Nodup) ∧
    (get_strongly_connected_components
        (buildGraph [("A", "B"), ("B", "A"), ("B", "C")])).Pairwise
      (fun c d => ∀ x, x ∈ c → x ∉ d) ∧
    (∀ c ∈ get_strongly_connected_components
        (buildGraph [("A", "B"), ("B", "A"), ("B", "C")]), ∀ u ∈ c, ∀ v ∈ c,
      ReachG (buildGraph [("A", "B"), ("B", "A"), ("B", "C")]) u v) ∧
    (∀ c ∈ get_strongly_connected_components
        (buildGraph [("A", "B"), ("B", "A"), ("B", "C")]), ∀ u ∈ c, ∀ v,
      ReachG (buildGraph [("A", "B"), ("B", "A"), ("B", "C")]) u v →
      ReachG (buildGraph [("A", "B"), ("B", "A"), ("B", "C")]) v u → v ∈ c) :=
  claim_C5_scc_partition (buildGraph [("A", "B"), ("B", "A"), ("B", "C")])
    (wf_buildGraph _)

/-! ### Condensation (src/graph.py lines 286-309) and
`count_min_additional_edges` (lines 203-238)

`build_condensed_graph` numbers the given SCCs by position, maps each label to
its component id via the `component_map` dict (written in ascending `i`, so on
overlapping inputs the last index wins), and records an id edge for every graph
edge whose endpoints land in distinct components.  The dict
`{i: set() for i in range(len(sccs))}` is modelled as a list of length
`sccs.length` indexed by component id; each Python `set` of ids is a
duplicate-free list.  A label absent from every SCC raises `KeyError` at the
dict lookup; that is modelled as `none`. -/

/-- `component_map[l]` after the write loop: the largest index of a component
containing `l`, `none` if there is none (a later lookup then raises KeyError). -/
def componentMap : List (List String) → String → Option Nat
  | [], _ => none
  | c :: cs, l =>
    match componentMap cs l with
    | some j => some (j + 1)
    | none => if l ∈ c then some 0 else none

/-- Python `set.add` on a set modelled as a duplicate-free list. -/
def natInsert (n : Nat) (l : List Nat) : List Nat :=
  if n ∈ l then l else l ++ [n]

/-- `condensed_graph[i]`, the successor-id set of component `i`. -/
def cgEntry (cg : List (List Nat)) (i : Nat) : List Nat :=
  (cg.get? i).getD []

/-- Processing one edge of the graph (the body of the edge loop):
look up both endpoint components (KeyError → `none`) and record the id edge
when they differ. -/
def cgStep (sccs : List (List String)) (cg : List (List Nat)) (e : Edge) :
    Option (List (List Nat)) :=
  match componentMap sccs e.start_vertex, componentMap sccs e.end_vertex with
  | some sc, some ec =>
      some (if sc = ec then cg else cg.set sc (natInsert ec (cgEntry cg sc)))
  | _, _ => none

/-- The edge loop of `build_condensed_graph`. -/
def cgFold (sccs : List (List String)) : List Edge → List (List Nat) →
    Option (List (List Nat))
  | [], cg => some cg
  | e :: es, cg =>
    match cgStep sccs cg e with
    | some cg2 => cgFold sccs es cg2
    | none => none

/-- `build_condensed_graph(sccs)`: successor-id sets indexed by component id. -/
def build_condensed_graph (g : DirectedGraph) (sccs : List (List String)) :
    Option (List (List Nat)) :=
  cgFold sccs g.edges (List.replicate sccs.length [])

/-- The `start_component` search loop of `count_min_additional_edges`:
first index of a component containing the label (the loop breaks on the first
hit), `none` if there is none (the Python variable then stays `-1`). -/
def firstComponent : List (List String) → String → Option Nat
  | [], _ => none
  | c :: cs, l => if l ∈ c then some 0 else (firstComponent cs l).map (· + 1)

/-- In-degree of component `i` in the condensed graph: the increment loop adds
one per occurrence of `i` across all successor sets. -/
def in_degree (cg : List (List Nat)) (i : Nat) : Nat :=
  (cg.map (fun ns => ns.count i)).sum

/-- `count_min_additional_edges(start_label)` (src/graph.py lines 203-238):
condense the Tarjan SCCs, locate the start component (`-1` when absent), and
count the ids of in-degree-zero components other than the start component. -/
def count_min_additional_edges (g : DirectedGraph) (start_label : String) :
    Option Nat :=
  let sccs := get_strongly_connected_components g
  match build_condensed_graph g sccs with
  | none => none
  | some condensed =>
    let start_component : Int :=
      match firstComponent sccs start_label with
      | some i => (i : Int)
      | none => -1
    some (((List.range sccs.length).filter (fun i =>
      decide (in_degree condensed i = 0) &&
      decide ((i : Int) ≠ start_component))).length)

theorem componentMap_lt {sccs : List (List String)} {l : String} {i : Nat}
    (h : componentMap sccs l = some i) : i < sccs.length := by
  induction sccs generalizing i with
  | nil => cases h
  | cons c cs ih =>
    simp only [componentMap] at h
    cases hcs : componentMap cs l with
    | some j =>
      rw [hcs] at h
      cases h
      exact Nat.succ_lt_succ (ih hcs)
    | none =>
      rw [hcs] at h
      by_cases hc : l ∈ c
      · rw [if_pos hc] at h
        cases h
        exact Nat.succ_pos _
      · rw [if_neg hc] at h
        cases h

theorem componentMap_mem {sccs : List (List String)} {l : String} {i : Nat}
    (h : componentMap sccs l = some i) :
    ∃ c, sccs.get? i = some c ∧ l ∈ c := by
  induction sccs generalizing i with
  | nil => cases h
  | cons c cs ih =>
    simp only [componentMap] at h
    cases hcs : componentMap cs l with
    | some j =>
      rw [hcs] at h
      cases h
      obtain ⟨d, hd, hld⟩ := ih hcs
      exact ⟨d, by simpa using hd, hld⟩
    | none =>
      rw [hcs] at h
      by_cases hc : l ∈ c
      · rw [if_pos hc] at h
        cases h
        exact ⟨c, rfl, hc⟩
      · rw [if_neg hc] at h
        cases h

theorem componentMap_isSome {sccs : List (List String)} {l : String}
    {c : List String} (hc : c ∈ sccs) (hl : l ∈ c) :
    (componentMap sccs l).isSome := by
  induction sccs with
  | nil => cases hc
  | cons d ds ih =>
    simp only [componentMap]
    cases hds : componentMap ds l with
    | some j => rfl
    | none =>
      rcases List.mem_cons.mp hc with hc | hc
      · subst hc
        rw [if_pos hl]
        rfl
      · have := ih hc
        rw [hds] at this
        cases this

theorem firstComponent_mem {sccs : List (List String)} {l : String} {i : Nat}
    (h : firstComponent sccs l = some i) :
    ∃ c, sccs.get? i = some c ∧ l ∈ c := by
  induction sccs generalizing i with
  | nil => cases h
  | cons c cs ih =>
    simp only [firstComponent] at h
    by_cases hc : l ∈ c
    · rw [if_pos hc] at h
      cases h
      exact ⟨c, rfl, hc⟩
    · rw [if_neg hc] at h
      cases hcs : firstComponent cs l with
      | some j =>
        rw [hcs] at h
        cases h
        obtain ⟨d, hd, hld⟩ := ih hcs
        exact ⟨d, by simpa using hd, hld⟩
      | none =>
        rw [hcs] at h
        cases h

theorem firstComponent_isSome {sccs : List (List String)} {l : String}
    {c : List String} (hc : c ∈ sccs) (hl : l ∈ c) :
    (firstComponent sccs l).isSome := by
  induction sccs with
  | nil => cases hc
  | cons d ds ih =>
    simp only [firstComponent]
    by_cases hd : l ∈ d
    · rw [if_pos hd]
      rfl
    · rw [if_neg hd]
      rcases List.mem_cons.mp hc with hc | hc
      · exact absurd (hc ▸ hl) hd
      · cases hds : firstComponent ds l with
        | some j => rfl
        | none =>
          have := ih hc
          rw [hds] at this
          cases this

/-- On a pairwise-disjoint component list, a label pins down its index. -/
theorem disjoint_index_unique {sccs : List (List String)}
    (hdisj : sccs.Pairwise (fun c d => ∀ x, x ∈ c → x ∉ d))
    {i j : Nat} {c d : List String} (hi : sccs.get? i = some c)
    (hj : sccs.get? j = some d) {l : String} (hlc : l ∈ c) (hld : l ∈ d) :
    i = j := by
  induction sccs generalizing i j with
  | nil => cases hi
  | cons a rest ih =>
    have hha : ∀ b ∈ rest, ∀ x, x ∈ a → x ∉ b := (List.pairwise_cons.mp hdisj).1
    have hrest := (List.pairwise_cons.mp hdisj).2
    match i, j with
    | 0, 0 => rfl
    | 0, j + 1 =>
      cases hi
      have hd : d ∈ rest := List.get?_mem (by simpa using hj)
      exact absurd hld (hha d hd l hlc)
    | i + 1, 0 =>
      cases hj
      have hc : c ∈ rest := List.get?_mem (by simpa using hi)
      exact absurd hlc (hha c hc l hld)
    | i + 1, j + 1 =>
      have := ih hrest (by simpa using hi) (by simpa using hj)
      omega

theorem cgEntry_set_self {cg : List (List Nat)} {k : Nat} (x : List Nat)
    (hk : k < cg.length) : cgEntry (cg.set k x) k = x := by
  unfold cgEntry
  rw [List.get?_set_eq_of_lt x hk]
  rfl

theorem cgEntry_set_ne {cg : List (List Nat)} {k j : Nat} (x : List Nat)
    (hkj : k ≠ j) : cgEntry (cg.set k x) j = cgEntry cg j := by
  unfold cgEntry
  rw [List.get?_set_ne x cg hkj]

theorem cgEntry_replicate (n k : Nat) :
    cgEntry (List.replicate n []) k = [] := by
  unfold cgEntry
  rw [List.get?_eq_getElem?, List.getElem?_replicate]
  by_cases h : k < n
  · rw [if_pos h]
    rfl
  · rw [if_neg h]
    rfl

theorem mem_natInsert {n m : Nat} {l : List Nat} :
    m ∈ natInsert n l ↔ m ∈ l ∨ m = n := by
  unfold natInsert
  by_cases h : n ∈ l
  · rw [if_pos h]
    constructor
    · exact Or.inl
    · rintro (hm | rfl)
      · exact hm
      · exact h
  · rw [if_neg h]
    simp [or_comm]

/-- Characterization of the edge loop: entry lengths are preserved and an id
edge is recorded iff it was already present or some processed edge induces it. -/
theorem cgFold_spec (sccs : List (List String)) (es : List Edge)
    (cg cg2 : List (List Nat)) (hlen : cg.length = sccs.length)
    (h : cgFold sccs es cg = some cg2) :
    cg2.length = sccs.length ∧
    ∀ j i, i ∈ cgEntry cg2 j ↔ (i ∈ cgEntry cg j ∨
      ∃ e ∈ es, componentMap sccs e.start_vertex = some j ∧
        componentMap sccs e.end_vertex = some i ∧ j ≠ i) := by
  induction es generalizing cg with
  | nil =>
    cases h
    exact ⟨hlen, fun j i => by simp⟩
  | cons e es ih =>
    cases hstep : cgStep sccs cg e with
    | none =>
      simp only [cgFold, hstep] at h
      cases h
    | some cgm =>
      simp only [cgFold, hstep] at h
      cases hcs : componentMap sccs e.start_vertex with
      | none =>
        have h2 : cgStep sccs cg e = none := by
          unfold cgStep
          rw [hcs]
        rw [hstep] at h2
        cases h2
      | some sc =>
        cases hce : componentMap sccs e.end_vertex with
        | none =>
          have h2 : cgStep sccs cg e = none := by
            unfold cgStep
            rw [hcs, hce]
          rw [hstep] at h2
          cases h2
        | some ec =>
          have h2 : cgStep sccs cg e
              = some (if sc = ec then cg
                  else cg.set sc (natInsert ec (cgEntry cg sc))) := by
            unfold cgStep
            rw [hcs, hce]
          rw [hstep] at h2
          have hcgm : cgm = if sc = ec then cg
              else cg.set sc (natInsert ec (cgEntry cg sc)) :=
            Option.some.inj h2
          have hsc : sc < sccs.length := componentMap_lt hcs
          by_cases hee : sc = ec
          · rw [if_pos hee] at hcgm
            rw [hcgm] at h
            obtain ⟨h1, h2⟩ := ih cg hlen h
            refine ⟨h1, fun j i => (h2 j i).trans ?_⟩
            constructor
            · rintro (hm | hm)
              · exact Or.inl hm
              · exact Or.inr (by
                  obtain ⟨f, hf, hj⟩ := hm
                  exact ⟨f, List.mem_cons_of_mem _ hf, hj⟩)
            · rintro (hm | ⟨f, hf, hfs, hfe, hne⟩)
              · exact Or.inl hm
              · rcases List.mem_cons.mp hf with rfl | hf
                · rw [hcs] at hfs
                  rw [hce] at hfe
                  cases hfs
                  cases hfe
                  exact absurd hee hne
                · exact Or.inr ⟨f, hf, hfs, hfe, hne⟩
          · rw [if_neg hee] at hcgm
            rw [hcgm] at h
            have hlen2 : (cg.set sc (natInsert ec (cgEntry cg sc))).length
                = sccs.length := by
              rw [List.length_set]; exact hlen
            obtain ⟨h1, h2⟩ := ih _ hlen2 h
            refine ⟨h1, fun j i => (h2 j i).trans ?_⟩
            by_cases hjsc : j = sc
            · subst hjsc
              rw [cgEntry_set_self _ (hlen ▸ hsc), mem_natInsert]
              constructor
              · rintro ((hm | rfl) | hm)
                · exact Or.inl hm
                · exact Or.inr ⟨e, List.mem_cons_self _ _, hcs, hce, hee⟩
                · exact Or.inr (by
                    obtain ⟨f, hf, hj⟩ := hm
                    exact ⟨f, List.mem_cons_of_mem _ hf, hj⟩)
              · rintro (hm | ⟨f, hf, hfs, hfe, hne⟩)
                · exact Or.inl (Or.inl hm)
                · rcases List.mem_cons.mp hf with rfl | hf
                  · rw [hcs] at hfs
                    rw [hce] at hfe
                    cases hfs
                    cases hfe
                    exact Or.inl (Or.inr rfl)
                  · exact Or.inr ⟨f, hf, hfs, hfe, hne⟩
            · rw [cgEntry_set_ne _ (fun hh => hjsc hh.symm)]
              constructor
              · rintro (hm | hm)
                · exact Or.inl hm
                · exact Or.inr (by
                    obtain ⟨f, hf, hj⟩ := hm
                    exact ⟨f, List.mem_cons_of_mem _ hf, hj⟩)
              · rintro (hm | ⟨f, hf, hfs, hfe, hne⟩)
                · exact Or.inl hm
                · rcases List.mem_cons.mp hf with rfl | hf
                  · rw [hcs] at hfs
                    cases hfs
                    exact absurd rfl hjsc
                  · exact Or.inr ⟨f, hf, hfs, hfe, hne⟩

theorem cgFold_isSome (sccs : List (List String)) (es : List Edge)
    (cg : List (List Nat))
    (hcov : ∀ e ∈ es, (componentMap sccs e.start_vertex).isSome ∧
      (componentMap sccs e.end_vertex).isSome) :
    ∃ cg2, cgFold sccs es cg = some cg2 := by
  induction es generalizing cg with
  | nil => exact ⟨cg, rfl⟩
  | cons e es ih =>
    obtain ⟨hs, he⟩ := hcov e (List.mem_cons_self _ _)
    cases hcs : componentMap sccs e.start_vertex with
    | none => rw [hcs] at hs; cases hs
    | some sc =>
      cases hce : componentMap sccs e.end_vertex with
      | none => rw [hce] at he; cases he
      | some ec =>
        have hstep : cgStep sccs cg e
            = some (if sc = ec then cg
                else cg.set sc (natInsert ec (cgEntry cg sc))) := by
          unfold cgStep
          rw [hcs, hce]
        simp only [cgFold, hstep]
        exact ih _ (fun f hf => hcov f (List.mem_cons_of_mem _ hf))

/-- On the Tarjan SCC output of a well-formed graph no `component_map` lookup
raises KeyError: `build_condensed_graph` returns a value. -/
theorem build_condensed_isSome (g : DirectedGraph) (hWF : WF g) :
    ∃ cg, build_condensed_graph g (get_strongly_connected_components g)
      = some cg := by
  obtain ⟨h1, _⟩ := tarjan_scc g hWF
  apply cgFold_isSome
  intro e he
  obtain ⟨cs, hcs, hscs⟩ := (h1 _).mp (hWF.endpoints e he).1
  obtain ⟨ce, hce, hece⟩ := (h1 _).mp (hWF.endpoints e he).2
  exact ⟨componentMap_isSome hcs hscs, componentMap_isSome hce hece⟩

/-- Id edges of the condensed graph are exactly the cross-component graph
edges. -/
theorem build_condensed_spec (g : DirectedGraph) (sccs : List (List String))
    {cg : List (List Nat)} (h : build_condensed_graph g sccs = some cg) :
    cg.length = sccs.length ∧
    ∀ j i, i ∈ cgEntry cg j ↔
      ∃ e ∈ g.edges, componentMap sccs e.start_vertex = some j ∧
        componentMap sccs e.end_vertex = some i ∧ j ≠ i := by
  obtain ⟨h1, h2⟩ := cgFold_spec sccs g.edges _ cg (by simp) h
  refine ⟨h1, fun j i => (h2 j i).trans ?_⟩
  rw [cgEntry_replicate]
  simp

/-- A walk in the condensed graph lifts to graph reachability between any
members of the endpoint components. -/
theorem cond_to_reach (g : DirectedGraph) (hWF : WF g) {cg : List (List Nat)}
    (hcg : build_condensed_graph g (get_strongly_connected_components g)
      = some cg)
    {j i : Nat} (hrt : Relation.ReflTransGen (fun u v => v ∈ cgEntry cg u) j i)
    {cj : List String}
    (hj : (get_strongly_connected_components g).get? j = some cj)
    {a : String} (ha : a ∈ cj) :
    ∀ ci, (get_strongly_connected_components g).get? i = some ci →
      ∀ b ∈ ci, ReachG g a b := by
  obtain ⟨_, _, _, hmut, _⟩ := tarjan_scc g hWF
  induction hrt with
  | refl =>
    intro ci hi b hb
    rw [hj] at hi
    cases hi
    exact hmut cj (List.get?_mem hj) a ha b hb
  | tail hjk hstep ih =>
    intro ci hi b hb
    obtain ⟨_, hchar⟩ := build_condensed_spec g _ hcg
    obtain ⟨e, he, hes, hee, hne⟩ := (hchar _ _).mp hstep
    obtain ⟨ck, hck, hsck⟩ := componentMap_mem hes
    obtain ⟨ci2, hci2, heci⟩ := componentMap_mem hee
    rw [hi] at hci2
    cases hci2
    have h1 : ReachG g a e.start_vertex := ih ck hck e.start_vertex hsck
    have h2 : stepG g e.start_vertex e.end_vertex := ⟨e, he, rfl, rfl⟩
    have h3 : ReachG g e.end_vertex b :=
      hmut ci (List.get?_mem hi) e.end_vertex heci b hb
    exact (h1.tail h2).trans h3

/-- Graph reachability projects to a walk in the condensed graph. -/
theorem reach_to_cond (g : DirectedGraph) (hWF : WF g) {cg : List (List Nat)}
    (hcg : build_condensed_graph g (get_strongly_connected_components g)
      = some cg)
    {a b : String} (hr : ReachG g a b) {p : Nat}
    (hp : componentMap (get_strongly_connected_components g) a = some p) :
    ∀ q, componentMap (get_strongly_connected_components g) b = some q →
      Relation.ReflTransGen (fun u v => v ∈ cgEntry cg u) p q := by
  obtain ⟨h1, _⟩ := tarjan_scc g hWF
  induction hr with
  | refl =>
    intro q hq
    rw [hp] at hq
    cases hq
    exact Relation.ReflTransGen.refl
  | tail hay hstep ih =>
    intro q hq
    obtain ⟨e, he, hes, hee⟩ := hstep
    have hyk : e.start_vertex ∈ keysOf g := (hWF.endpoints e he).1
    obtain ⟨cy, hcy, hycy⟩ := (h1 _).mp hyk
    have hysome := componentMap_isSome hcy hycy
    cases hcmy : componentMap (get_strongly_connected_components g)
        e.start_vertex with
    | none => rw [hcmy] at hysome; cases hysome
    | some r =>
      have hpr : Relation.ReflTransGen (fun u v => v ∈ cgEntry cg u) p r := by
        have := ih r
        rw [hes] at hcmy
        exact this hcmy
      by_cases hrq : r = q
      · exact hrq ▸ hpr
      · refine hpr.tail ?_
        obtain ⟨_, hchar⟩ := build_condensed_spec g _ hcg
        refine (hchar r q).mpr ⟨e, he, hcmy, ?_, hrq⟩
        rw [hee]
        exact hq

/-- The condensation of the Tarjan SCC output has no directed cycle. -/
theorem condensed_acyclic (g : DirectedGraph) (hWF : WF g)
    {cg : List (List Nat)}
    (hcg : build_condensed_graph g (get_strongly_connected_components g)
      = some cg) (i : Nat) :
    ¬ Relation.TransGen (fun u v => v ∈ cgEntry cg u) i i := by
  intro htg
  obtain ⟨_, _, hdisj, _, hmax, _⟩ := tarjan_scc g hWF
  obtain ⟨m, hstep, hrt⟩ := Relation.TransGen.head'_iff.mp htg
  obtain ⟨_, hchar⟩ := build_condensed_spec g _ hcg
  obtain ⟨e, he, hes, hee, hne⟩ := (hchar _ _).mp hstep
  obtain ⟨ci, hci, hsci⟩ := componentMap_mem hes
  obtain ⟨cm, hcm, hecm⟩ := componentMap_mem hee
  have hxy : ReachG g e.start_vertex e.end_vertex :=
    Relation.ReflTransGen.single ⟨e, he, rfl, rfl⟩
  have hyx : ReachG g e.end_vertex e.start_vertex :=
    cond_to_reach g hWF hcg hrt hcm hecm ci hci e.start_vertex hsci
  have hyci : e.end_vertex ∈ ci :=
    hmax ci (List.get?_mem hci) e.start_vertex hsci e.end_vertex hxy hyx
  exact hne (disjoint_index_unique hdisj hci hcm hyci hecm)

/-- Claim C7: for every well-formed graph, `build_condensed_graph` applied to
the computed SCC partition returns a mapping (no KeyError), and that mapping is
acyclic: no non-empty chain of recorded successor steps returns to its starting
component id. -/
theorem claim_C7_condensation_acyclic (g : DirectedGraph) (hWF : WF g) :
    ∃ cg, build_condensed_graph g (get_strongly_connected_components g)
        = some cg ∧
      ∀ i, ¬ Relation.TransGen (fun u v => v ∈ cgEntry cg u) i i := by
  obtain ⟨cg, hcg⟩ := build_condensed_isSome g hWF
  exact ⟨cg, hcg, fun i => condensed_acyclic g hWF hcg i⟩

/-- Concrete instance of claim C7 on the graph with edges A→B, B→A, B→C. -/
theorem claim_C7_condensation_acyclic_witness :
    ∃ cg, build_condensed_graph (buildGraph [("A", "B"), ("B", "A"), ("B", "C")])
        (get_strongly_connected_components
          (buildGraph [("A", "B"), ("B", "A"), ("B", "C")])) = some cg ∧
      ∀ i, ¬ Relation.TransGen (fun u v => v ∈ cgEntry cg u) i i :=
  claim_C7_condensation_acyclic
    (buildGraph [("A", "B"), ("B", "A"), ("B", "C")]) (wf_buildGraph _)

theorem in_degree_eq_zero {cg : List (List Nat)} {i : Nat} :
    in_degree cg i = 0 ↔ ∀ j, i ∉ cgEntry cg j := by
  unfold in_degree
  rw [List.sum_eq_zero_iff]
  constructor
  · intro h j hmem
    unfold cgEntry at hmem
    cases hj : cg.get? j with
    | none =>
      rw [hj] at hmem
      cases hmem
    | some l =>
      rw [hj] at hmem
      have hl : l ∈ cg := List.get?_mem hj
      have hc : l.count i = 0 := h _ (List.mem_map.mpr ⟨l, hl, rfl⟩)
      rw [List.count_eq_zero] at hc
      exact hc hmem
  · intro h x hx
    obtain ⟨l, hl, rfl⟩ := List.mem_map.mp hx
    obtain ⟨j, hj⟩ := List.mem_iff_get?.mp hl
    rw [List.count_eq_zero]
    intro hmem
    refine h j ?_
    unfold cgEntry
    rw [hj]
    exact hmem

/-- In an acyclic condensed graph, every non-empty predecessor-closed finite
set of ids contains an id with no predecessor at all. -/
theorem exists_no_pred (cg : List (List Nat))
    (hacy : ∀ i, ¬ Relation.TransGen (fun u v => v ∈ cgEntry cg u) i i) :
    ∀ n (B : Finset Nat), B.card ≤ n → B.Nonempty →
      (∀ i ∈ B, ∀ j, i ∈ cgEntry cg j → j ∈ B) →
      ∃ i ∈ B, ∀ j, i ∉ cgEntry cg j := by
  intro n
  induction n with
  | zero =>
    intro B hcard hne _
    have := Finset.card_pos.mpr hne
    omega
  | succ n ih =>
    intro B hcard hne hclosed
    classical
    obtain ⟨i0, hi0⟩ := hne
    by_cases hp : ∃ j, i0 ∈ cgEntry cg j
    · obtain ⟨j0, hj0⟩ := hp
      have hj0B : j0 ∈ B := hclosed i0 hi0 j0 hj0
      have hj0f : j0 ∈ B.filter
          (fun k => Relation.TransGen (fun u v => v ∈ cgEntry cg u) k i0) :=
        Finset.mem_filter.mpr ⟨hj0B, Relation.TransGen.single hj0⟩
      have hi0f : i0 ∉ B.filter
          (fun k => Relation.TransGen (fun u v => v ∈ cgEntry cg u) k i0) :=
        fun hm => hacy i0 (Finset.mem_filter.mp hm).2
      have hss : B.filter
          (fun k => Relation.TransGen (fun u v => v ∈ cgEntry cg u) k i0) ⊂ B :=
        ⟨Finset.filter_subset _ _, fun hsub => hi0f (hsub hi0)⟩
      have hcard2 : (B.filter
          (fun k => Relation.TransGen (fun u v => v ∈ cgEntry cg u) k i0)).card
          ≤ n := by
        have := Finset.card_lt_card hss
        omega
      have hclosed2 : ∀ i ∈ B.filter
          (fun k => Relation.TransGen (fun u v => v ∈ cgEntry cg u) k i0),
          ∀ j, i ∈ cgEntry cg j → j ∈ B.filter
            (fun k => Relation.TransGen (fun u v => v ∈ cgEntry cg u) k i0) := by
        intro i hi j hj
        obtain ⟨hiB, hti⟩ := Finset.mem_filter.mp hi
        exact Finset.mem_filter.mpr
          ⟨hclosed i hiB j hj, Relation.TransGen.head hj hti⟩
      obtain ⟨m, hm, hnp⟩ := ih _ hcard2 ⟨j0, hj0f⟩ hclosed2
      exact ⟨m, (Finset.mem_filter.mp hm).1, hnp⟩
    · push_neg at hp
      exact ⟨i0, hi0, hp⟩

theorem firstComponent_none_of_absent (g : DirectedGraph) (hWF : WF g)
    {s : String} (hs : s ∉ keysOf g) :
    firstComponent (get_strongly_connected_components g) s = none := by
  obtain ⟨h1, _⟩ := tarjan_scc g hWF
  cases hf : firstComponent (get_strongly_connected_components g) s with
  | none => rfl
  | some k =>
    obtain ⟨c, hck, hsc⟩ := firstComponent_mem hf
    exact absurd ((h1 s).mpr ⟨c, List.get?_mem hck, hsc⟩) hs

/-- The counting loop of `count_min_additional_edges` counts exactly the
in-degree-zero components not containing the start label. -/
theorem count_eq_spec (g : DirectedGraph) (hWF : WF g) (s : String)
    {cg : List (List Nat)}
    (hcg : build_condensed_graph g (get_strongly_connected_components g)
      = some cg) :
    count_min_additional_edges g s =
      some (List.length ((List.range
          (get_strongly_connected_components g).length).filter
        (fun i => decide (in_degree cg i = 0) &&
          decide (s ∉ ((get_strongly_connected_components g).get? i).getD []))))
      := by
  obtain ⟨_, _, hdisj, _, _⟩ := tarjan_scc g hWF
  simp only [count_min_additional_edges, hcg]
  congr 1
  refine congrArg List.length (List.filter_congr' ?_)
  intro i _
  refine congrArg (fun b => decide (in_degree cg i = 0) && b) ?_
  rw [decide_eq_decide]
  cases hfc : firstComponent (get_strongly_connected_components g) s with
  | none =>
    constructor
    · intro _ hmem
      cases hgi : (get_strongly_connected_components g).get? i with
      | none =>
        rw [hgi] at hmem
        cases hmem
      | some ci =>
        rw [hgi] at hmem
        have := firstComponent_isSome (List.get?_mem hgi) hmem
        rw [hfc] at this
        cases this
    · intro _
      show (i : Int) ≠ -1
      omega
  | some k =>
    obtain ⟨ck, hck, hsck⟩ := firstComponent_mem hfc
    constructor
    · intro hne hmem
      cases hgi : (get_strongly_connected_components g).get? i with
      | none =>
        rw [hgi] at hmem
        cases hmem
      | some ci =>
        rw [hgi] at hmem
        exact hne (by
          rw [disjoint_index_unique hdisj hgi hck hmem hsck])
    · intro hmem hik
      have hik' : (i : Int) = (k : Int) := hik
      have hik2 : i = k := by omega
      subst hik2
      rw [hck] at hmem
      exact hmem hsck

/-- The count is zero exactly when every vertex is already reachable from the
start label. -/
theorem count_zero_iff (g : DirectedGraph) (hWF : WF g) (s : String) :
    count_min_additional_edges g s = some 0 ↔
      ∀ v ∈ keysOf g, ReachG g s v := by
  classical
  obtain ⟨cg, hcg⟩ := build_condensed_isSome g hWF
  obtain ⟨h1, _, hdisj, _, _, h6⟩ := tarjan_scc g hWF
  obtain ⟨hlen, hchar⟩ := build_condensed_spec g _ hcg
  have hacy := condensed_acyclic g hWF hcg
  rw [count_eq_spec g hWF s hcg, Option.some.injEq, List.length_eq_zero,
    List.filter_eq_nil]
  simp only [List.mem_range, Bool.and_eq_true, decide_eq_true_eq]
  set sccs := get_strongly_connected_components g with hsccs
  constructor
  · intro hZ v hv
    by_cases hsk : s ∈ keysOf g
    · obtain ⟨cs0, hcs0, hscs0⟩ := (h1 s).mp hsk
      have hfsome := firstComponent_isSome hcs0 hscs0
      cases hfc : firstComponent sccs s with
      | none =>
        rw [hfc] at hfsome
        cases hfsome
      | some k =>
        obtain ⟨ck, hck, hsck⟩ := firstComponent_mem hfc
        obtain ⟨cv, hcv, hvcv⟩ := (h1 v).mp hv
        have hvsome := componentMap_isSome hcv hvcv
        cases hcmv : componentMap sccs v with
        | none =>
          rw [hcmv] at hvsome
          cases hvsome
        | some q =>
          obtain ⟨cq, hcq, hvq⟩ := componentMap_mem hcmv
          by_cases hreach :
              Relation.ReflTransGen (fun u v => v ∈ cgEntry cg u) k q
          · exact cond_to_reach g hWF hcg hreach hck hsck cq hcq v hvq
          · exfalso
            have hqB : q ∈ (Finset.range sccs.length).filter
                (fun i => ¬ Relation.ReflTransGen
                  (fun u v => v ∈ cgEntry cg u) k i) :=
              Finset.mem_filter.mpr
                ⟨Finset.mem_range.mpr (componentMap_lt hcmv), hreach⟩
            have hclosed : ∀ i ∈ (Finset.range sccs.length).filter
                (fun i => ¬ Relation.ReflTransGen
                  (fun u v => v ∈ cgEntry cg u) k i),
                ∀ j, i ∈ cgEntry cg j →
                  j ∈ (Finset.range sccs.length).filter
                    (fun i => ¬ Relation.ReflTransGen
                      (fun u v => v ∈ cgEntry cg u) k i) := by
              intro i hi j hj
              obtain ⟨hiR, hiN⟩ := Finset.mem_filter.mp hi
              refine Finset.mem_filter.mpr ⟨?_, ?_⟩
              · obtain ⟨e, he, hes, hee, hne⟩ := (hchar j i).mp hj
                exact Finset.mem_range.mpr (componentMap_lt hes)
              · intro hRT
                exact hiN (hRT.tail hj)
            obtain ⟨m, hmB, hmnp⟩ := exists_no_pred cg hacy _ _ le_rfl
              ⟨q, hqB⟩ hclosed
            obtain ⟨hmR, hmN⟩ := Finset.mem_filter.mp hmB
            have hind : in_degree cg m = 0 := in_degree_eq_zero.mpr hmnp
            have hZm := hZ m (Finset.mem_range.mp hmR)
            have hsm : s ∈ ((sccs.get? m).getD []) := by
              by_contra hns
              exact hZm ⟨hind, hns⟩
            cases hgm : sccs.get? m with
            | none =>
              rw [hgm] at hsm
              cases hsm
            | some cm2 =>
              rw [hgm] at hsm
              have hmk : m = k := disjoint_index_unique hdisj hgm hck hsm hsck
              subst hmk
              exact hmN Relation.ReflTransGen.refl
    · exfalso
      have hfc := firstComponent_none_of_absent g hWF hsk
      obtain ⟨cv, hcv, hvcv⟩ := (h1 v).mp hv
      have hnn : 0 < sccs.length := by
        cases hscc : sccs with
        | nil =>
          rw [hscc] at hcv
          cases hcv
        | cons a l => simp [hscc]
      have hclosed : ∀ i ∈ Finset.range sccs.length, ∀ j, i ∈ cgEntry cg j →
          j ∈ Finset.range sccs.length := by
        intro i _ j hj
        obtain ⟨e, he, hes, hee, hne⟩ := (hchar j i).mp hj
        exact Finset.mem_range.mpr (componentMap_lt hes)
      obtain ⟨m, hmB, hmnp⟩ := exists_no_pred cg hacy _ (Finset.range
        sccs.length) le_rfl ⟨0, Finset.mem_range.mpr hnn⟩ hclosed
      have hind : in_degree cg m = 0 := in_degree_eq_zero.mpr hmnp
      have hsm : s ∈ ((sccs.get? m).getD []) := by
        by_contra hns
        exact hZ m (Finset.mem_range.mp hmB) ⟨hind, hns⟩
      cases hgm : sccs.get? m with
      | none =>
        rw [hgm] at hsm
        cases hsm
      | some cm2 =>
        rw [hgm] at hsm
        exact hsk ((h1 s).mpr ⟨cm2, List.get?_mem hgm, hsm⟩)
  · intro hall i hi hand
    obtain ⟨hind, hns⟩ := hand
    cases hgi : sccs.get? i with
    | none =>
      have := List.get?_eq_none.mp hgi
      omega
    | some ci =>
      have hci : ci ∈ sccs := List.get?_mem hgi
      obtain ⟨x, hx⟩ := List.exists_mem_of_ne_nil ci (h6 ci hci)
      have hxk : x ∈ keysOf g := (h1 x).mpr ⟨ci, hci, hx⟩
      have hrx : ReachG g s x := hall x hxk
      have hsk : s ∈ keysOf g := by
        rcases Relation.ReflTransGen.cases_head hrx with heq | ⟨y, hstep, hy⟩
        · exact heq ▸ hxk
        · exact (stepG_mem_keys hWF hstep).1
      obtain ⟨cs0, hcs0, hscs0⟩ := (h1 s).mp hsk
      have hfsome := firstComponent_isSome hcs0 hscs0
      cases hfc : firstComponent sccs s with
      | none =>
        rw [hfc] at hfsome
        cases hfsome
      | some k =>
        obtain ⟨ck, hck, hsck⟩ := firstComponent_mem hfc
        have hssome := componentMap_isSome hcs0 hscs0
        cases hcms : componentMap sccs s with
        | none =>
          rw [hcms] at hssome
          cases hssome
        | some p =>
          obtain ⟨cp, hcp, hscp⟩ := componentMap_mem hcms
          have hpk : p = k := disjoint_index_unique hdisj hcp hck hscp hsck
          subst hpk
          have hxsome := componentMap_isSome hci hx
          cases hcmx : componentMap sccs x with
          | none =>
            rw [hcmx] at hxsome
            cases hxsome
          | some q =>
            obtain ⟨cq, hcq, hxq⟩ := componentMap_mem hcmx
            have hqi : q = i := disjoint_index_unique hdisj hcq hgi hxq hx
            subst hqi
            have hrt := reach_to_cond g hWF hcg hrx hcms _ hcmx
            rcases (Relation.ReflTransGen.cases_tail hrt) with heq |
              ⟨j, hrtj, hstepj⟩
            · rw [heq, hck] at hns
              exact hns hsck
            · exact (in_degree_eq_zero.mp hind j) hstepj

/-- Claim C6: for every well-formed graph and label `s`,
`count_min_additional_edges(s)` returns the number of condensation components
with in-degree zero, excluding the component containing `s`; and that count is
`0` iff every vertex of the graph is reachable from `s`. -/
theorem claim_C6_count_min (g : DirectedGraph) (hWF : WF g) (s : String) :
    (∃ cg, build_condensed_graph g (get_strongly_connected_components g)
        = some cg ∧
      count_min_additional_edges g s =
        some (List.length ((List.range
            (get_strongly_connected_components g).length).filter
          (fun i => decide (in_degree cg i = 0) &&
            decide (s ∉ ((get_strongly_connected_components g).get? i).getD
              []))))) ∧
    (count_min_additional_edges g s = some 0 ↔
      ∀ v ∈ keysOf g, ReachG g s v) := by
  obtain ⟨cg, hcg⟩ := build_condensed_isSome g hWF
  exact ⟨⟨cg, hcg, count_eq_spec g hWF s hcg⟩, count_zero_iff g hWF s⟩

/-- Concrete instance of claim C6 on the graph with edges A→B, B→A, B→C and
start label A. -/
theorem claim_C6_count_min_witness :
    (∃ cg, build_condensed_graph (buildGraph [("A", "B"), ("B", "A"), ("B", "C")])
        (get_strongly_connected_components
          (buildGraph [("A", "B"), ("B", "A"), ("B", "C")])) = some cg ∧
      count_min_additional_edges
          (buildGraph [("A", "B"), ("B", "A"), ("B", "C")]) "A" =
        some (List.length ((List.range
            (get_strongly_connected_components
              (buildGraph [("A", "B"), ("B", "A"), ("B", "C")])).length).filter
          (fun i => decide (in_degree cg i = 0) &&
            decide ("A" ∉ ((get_strongly_connected_components
              (buildGraph [("A", "B"), ("B", "A"), ("B", "C")])).get? i).getD
              []))))) ∧
    (count_min_additional_edges
        (buildGraph [("A", "B"), ("B", "A"), ("B", "C")]) "A" = some 0 ↔
      ∀ v ∈ keysOf (buildGraph [("A", "B"), ("B", "A"), ("B", "C")]),
        ReachG (buildGraph [("A", "B"), ("B", "A"), ("B", "C")]) "A" v) :=
  claim_C6_count_min (buildGraph [("A", "B"), ("B", "A"), ("B", "C")])
    (wf_buildGraph _) "A"

/-! ### Kosaraju variant (spec section on the SCC module)

No Kosaraju implementation exists under src/; the spec describes it as two
DFS passes: pass 1 runs a post-order DFS over outgoing edges from every
unvisited vertex, appending each vertex to a finish-order stack after its
descendants; pass 2 pops that stack and collects one component per unvisited
vertex by DFS over the transposed adjacency (modelled as a separate
reverse-adjacency read, per the spec, not in-place edge mutation). -/

/-- First index of `x` in a list, `none` when absent. -/
def idxOf? : List String → String → Option Nat
  | [], _ => none
  | a :: l, x => if a = x then some 0 else (idxOf? l x).map (· + 1)

/-- Modelled from the spec: the transposed adjacency — predecessor labels of
`l`, read off the stored incoming edges. -/
def predsT (g : DirectedGraph) (l : String) : List String :=
  (incomingEdges g l).map Edge.start_vertex

/-- Modelled from the spec: pass-1 neighbour loop. -/
def koLoop
    (rec : String → List String × List String → List String × List String) :
    List String → List String × List String → List String × List String
  | [], st => st
  | w :: ws, st => koLoop rec ws (rec w st)

/-- Modelled from the spec: pass-1 post-order DFS.  State is (visited,
finish list); the vertex is appended to the finish list after all its
outgoing neighbours are processed.  Fuel bounds the recursion depth. -/
def koVisit (g : DirectedGraph) :
    Nat → String → List String × List String → List String × List String
  | 0, _, st => st
  | fuel + 1, v, st =>
    if v ∈ st.1 then st
    else
      let st2 := koLoop (koVisit g fuel) (succs g v) (st.1.insert v, st.2)
      (st2.1, st2.2 ++ [v])

/-- Modelled from the spec: pass 1 over every vertex; returns the finish
list (earliest finisher first). -/
def koFinish (g : DirectedGraph) : List String :=
  ((keysOf g).foldl
    (fun st v => koVisit g ((keysOf g).length + 1) v st) ([], [])).2

/-- Modelled from the spec: pass 2 — pop the finish stack (traverse the
finish list last-in first); each unvisited vertex seeds a DFS over the
transposed adjacency whose newly visited vertices form one component. -/
def koCollect (g : DirectedGraph) (fin : List String) : List (List String) :=
  (fin.reverse.foldl
    (fun (st : List String × List (List String)) r =>
      if r ∈ st.1 then st
      else
        let vis2 := dfsA (predsT g) ((keysOf g).length + 1) r st.1
        (vis2, st.2 ++ [vis2.filter (fun x => decide (x ∉ st.1))]))
    ([], [])).2

/-- Modelled from the spec: the Kosaraju SCC decomposition. -/
def kosarajuComponents (g : DirectedGraph) : List (List String) :=
  koCollect g (koFinish g)

theorem idxOf?_get {l : List String} {x : String} {i : Nat}
    (h : idxOf? l x = some i) : l.get? i = some x := by
  induction l generalizing i with
  | nil => cases h
  | cons a l ih =>
    simp only [idxOf?] at h
    by_cases ha : a = x
    · rw [if_pos ha] at h
      cases h
      simpa using ha
    · rw [if_neg ha] at h
      cases hl : idxOf? l x with
      | none =>
        rw [hl] at h
        cases h
      | some j =>
        rw [hl] at h
        cases h
        simpa using ih hl

theorem idxOf?_lt {l : List String} {x : String} {i : Nat}
    (h : idxOf? l x = some i) : i < l.length := by
  have := idxOf?_get h
  by_contra hc
  rw [List.get?_eq_none.mpr (by omega)] at this
  cases this

theorem idxOf?_isSome {l : List String} {x : String} (h : x ∈ l) :
    (idxOf? l x).isSome := by
  induction l with
  | nil => cases h
  | cons a l ih =>
    simp only [idxOf?]
    by_cases ha : a = x
    · rw [if_pos ha]
      rfl
    · rw [if_neg ha]
      rcases List.mem_cons.mp h with h | h
      · exact absurd h.symm ha
      · cases hl : idxOf? l x with
        | none =>
          have := ih h
          rw [hl] at this
          cases this
        | some j => rfl

theorem idxOf?_append_left {l l2 : List String} {x : String} {i : Nat}
    (h : idxOf? l x = some i) : idxOf? (l ++ l2) x = some i := by
  induction l generalizing i with
  | nil => cases h
  | cons a l ih =>
    rw [List.cons_append]
    simp only [idxOf?] at h ⊢
    by_cases ha : a = x
    · rw [if_pos ha] at h ⊢
      exact h
    · rw [if_neg ha] at h ⊢
      cases hl : idxOf? l x with
      | none =>
        rw [hl] at h
        cases h
      | some j =>
        rw [hl] at h
        rw [ih hl]
        exact h

theorem idxOf?_append_self {l : List String} {x : String} (h : x ∉ l) :
    idxOf? (l ++ [x]) x = some l.length := by
  induction l with
  | nil => simp [idxOf?]
  | cons a l ih =>
    rw [List.cons_append]
    simp only [idxOf?]
    rw [if_neg (fun ha => h (by rw [← ha]; exact List.mem_cons_self a l))]
    rw [ih (fun hm => h (List.mem_cons_of_mem a hm))]
    rfl

theorem idxOf?_inj {l : List String} {x y : String} {i : Nat}
    (hx : idxOf? l x = some i) (hy : idxOf? l y = some i) : x = y := by
  have h1 := idxOf?_get hx
  have h2 := idxOf?_get hy
  rw [h1] at h2
  exact Option.some.inj h2

theorem mem_predsT_iff {g : DirectedGraph} (h : WF g) {u : String}
    (hu : u ∈ keysOf g) (v : String) : v ∈ predsT g u ↔ stepG g v u := by
  unfold predsT
  rw [h.incoming_eq hu]
  constructor
  · intro hv
    obtain ⟨e, he, hev⟩ := List.mem_map.mp hv
    rcases List.mem_filter.mp he with ⟨hee, hend⟩
    exact ⟨e, hee, hev, by simpa using hend⟩
  · intro ⟨e, hee, hstart, hend⟩
    exact List.mem_map.mpr ⟨e, List.mem_filter.mpr ⟨hee, by simp [hend]⟩, hstart⟩

theorem predsT_absent {g : DirectedGraph} {u : String}
    (hu : u ∉ keysOf g) : predsT g u = [] := by
  unfold predsT
  have : dictLookup g.vertices u = none := by
    cases hd : dictLookup g.vertices u with
    | none => rfl
    | some v => exact absurd (mem_keys_iff_lookup.mpr (by simp [hd])) hu
  simp [incomingEdges, this]

theorem predsT_closed {g : DirectedGraph} (h : WF g) :
    ∀ u, u ∈ keysOf g → ∀ w ∈ predsT g u, w ∈ keysOf g := by
  intro u hu w hw
  exact (stepG_mem_keys h ((mem_predsT_iff h hu w).mp hw)).1

/-- A vertex of the finish list is "final" when some mutually reachable
partner occupies the maximal finish position among everything it reaches. -/
def KFinal (g : DirectedGraph) (fin : List String) (x : String) : Prop :=
  ∃ m, MutReach g x m ∧
    ∀ z, ReachG g x z →
      ∃ i j, idxOf? fin z = some i ∧ idxOf? fin m = some j ∧ i ≤ j

/-- Pass-1 state invariant.  `A` is the chain of currently open vertices
(outermost first); `st.1` is the visited set, `st.2` the finish list. -/
structure K1Inv (g : DirectedGraph) (A : List String)
    (st : List String × List String) : Prop where
  visEq : ∀ x, x ∈ st.1 ↔ (x ∈ st.2 ∨ x ∈ A)
  finA : ∀ x ∈ st.2, x ∉ A
  finNodup : st.2.Nodup
  finKeys : ∀ x ∈ st.2, x ∈ keysOf g
  closure : ∀ x ∈ st.2, ∀ y, stepG g x y → y ∈ st.1
  op : ∀ x ∈ st.2, (∃ a ∈ A, ReachG g x a) ∨ KFinal g st.2 x

theorem KFinal_append {g : DirectedGraph} {fin l : List String} {x : String}
    (h : KFinal g fin x) : KFinal g (fin ++ l) x := by
  obtain ⟨m, hm, hall⟩ := h
  refine ⟨m, hm, fun z hz => ?_⟩
  obtain ⟨i, j, hi, hj, hij⟩ := hall z hz
  exact ⟨i, j, idxOf?_append_left hi, idxOf?_append_left hj, hij⟩

theorem missingCard_lt_all (K vis : List String) :
    missingCard K vis < K.length + 1 := by
  unfold missingCard
  have h1 : (K.toFinset \ vis.toFinset).card ≤ K.toFinset.card :=
    Finset.card_le_card (Finset.sdiff_subset)
  have h2 : K.toFinset.card ≤ K.length := List.toFinset_card_le K
  exact Nat.lt_succ_of_le (le_trans h1 h2)

/-- Post-condition of one pass-1 visit call. -/
def KPost (g : DirectedGraph) (A : List String) (v : String)
    (st st' : List String × List String) : Prop :=
  K1Inv g A st' ∧ (∀ x ∈ st.1, x ∈ st'.1) ∧
  (∃ d, st'.2 = st.2 ++ d ∧ ∀ x ∈ d, ReachG g v x) ∧
  v ∈ st'.1

theorem koLoop_spec (g : DirectedGraph) (A2 : List String) (fb : Nat)
    (rec : String → List String × List String → List String × List String)
    (hrec : ∀ w st, w ∈ keysOf g → (∀ a ∈ A2, ReachG g a w) →
      K1Inv g A2 st → missingCard (keysOf g) st.1 < fb →
      KPost g A2 w st (rec w st)) :
    ∀ ws st, (∀ w ∈ ws, w ∈ keysOf g) →
      (∀ w ∈ ws, ∀ a ∈ A2, ReachG g a w) →
      K1Inv g A2 st → missingCard (keysOf g) st.1 < fb →
      K1Inv g A2 (koLoop rec ws st) ∧
      (∀ x ∈ st.1, x ∈ (koLoop rec ws st).1) ∧
      (∃ d, (koLoop rec ws st).2 = st.2 ++ d ∧
        ∀ x ∈ d, ∃ w ∈ ws, ReachG g w x) ∧
      (∀ w ∈ ws, w ∈ (koLoop rec ws st).1) ∧
      missingCard (keysOf g) (koLoop rec ws st).1
        ≤ missingCard (keysOf g) st.1 := by
  intro ws
  induction ws with
  | nil =>
    intro st _ _ hI hm
    exact ⟨hI, fun x hx => hx, ⟨[], by simp [koLoop], by simp⟩,
      fun w hw => absurd hw (List.not_mem_nil w), le_refl _⟩
  | cons w ws ih =>
    intro st hKeys hA hI hm
    obtain ⟨hI1, hmono1, ⟨d1, hd1, hd1r⟩, hw1⟩ :=
      hrec w st (hKeys w (List.mem_cons_self _ _))
        (hA w (List.mem_cons_self _ _)) hI hm
    have hm1 : missingCard (keysOf g) (rec w st).1 < fb :=
      Nat.lt_of_le_of_lt (missingCard_mono hmono1) hm
    obtain ⟨hI2, hmono2, ⟨d2, hd2, hd2r⟩, hw2, hmc2⟩ :=
      ih (rec w st) (fun u hu => hKeys u (List.mem_cons_of_mem _ hu))
        (fun u hu => hA u (List.mem_cons_of_mem _ hu)) hI1 hm1
    have hloop : koLoop rec (w :: ws) st = koLoop rec ws (rec w st) := rfl
    rw [hloop]
    refine ⟨hI2, fun x hx => hmono2 x (hmono1 x hx), ⟨d1 ++ d2, ?_, ?_⟩,
      ?_, ?_⟩
    · rw [hd2, hd1, List.append_assoc]
    · intro x hx
      rcases List.mem_append.mp hx with hx | hx
      · exact ⟨w, List.mem_cons_self _ _, hd1r x hx⟩
      · obtain ⟨u, hu, hur⟩ := hd2r x hx
        exact ⟨u, List.mem_cons_of_mem _ hu, hur⟩
    · intro u hu
      rcases List.mem_cons.mp hu with rfl | hu
      · exact hmono2 u hw1
      · exact hw2 u hu
    · exact le_trans hmc2 (missingCard_mono hmono1)

theorem koVisit_spec (g : DirectedGraph) (hWF : WF g) :
    ∀ (fuel : Nat) (v : String) (A : List String)
      (st : List String × List String),
      v ∈ keysOf g → (∀ a ∈ A, ReachG g a v) →
      K1Inv g A st → missingCard (keysOf g) st.1 < fuel →
      KPost g A v st (koVisit g fuel v st) := by
  intro fuel
  induction fuel with
  | zero =>
    intro v A st _ _ _ hm
    exact absurd hm (Nat.not_lt_zero _)
  | succ fuel ih =>
    intro v A st hvK hA hI hm
    by_cases hv : v ∈ st.1
    · have hres : koVisit g (fuel + 1) v st = st := by
        simp only [koVisit, if_pos hv]
      rw [hres]
      exact ⟨hI, fun x hx => hx, ⟨[], by simp, by simp⟩, hv⟩
    · have hvA : v ∉ A := fun hva => hv ((hI.visEq v).mpr (Or.inr hva))
      have hvfin : v ∉ st.2 := fun hvf => hv ((hI.visEq v).mpr (Or.inl hvf))
      have hIop : K1Inv g (A ++ [v]) (st.1.insert v, st.2) := by
        constructor
        · intro x
          show x ∈ st.1.insert v ↔ x ∈ st.2 ∨ x ∈ A ++ [v]
          rw [List.mem_insert_iff]
          constructor
          · rintro (rfl | hx)
            · exact Or.inr (List.mem_append.mpr
                (Or.inr (List.mem_singleton.mpr rfl)))
            · rcases (hI.visEq x).mp hx with h | h
              · exact Or.inl h
              · exact Or.inr (List.mem_append.mpr (Or.inl h))
          · rintro (h | h)
            · exact Or.inr ((hI.visEq x).mpr (Or.inl h))
            · rcases List.mem_append.mp h with h | h
              · exact Or.inr ((hI.visEq x).mpr (Or.inr h))
              · exact Or.inl (List.mem_singleton.mp h)
        · intro x hx ha
          rcases List.mem_append.mp ha with h | h
          · exact hI.finA x hx h
          · exact hvfin ((List.mem_singleton.mp h) ▸ hx)
        · exact hI.finNodup
        · exact hI.finKeys
        · intro x hx y hy
          exact List.mem_insert_of_mem (hI.closure x hx y hy)
        · intro x hx
          rcases hI.op x hx with ⟨a, ha, hra⟩ | hfin
          · exact Or.inl ⟨a, List.mem_append.mpr (Or.inl ha), hra⟩
          · exact Or.inr hfin
      have hsubK : ∀ w ∈ succs g v, w ∈ keysOf g :=
        fun w hw => succs_mem_keys hWF hw
      have hreachA2 : ∀ w ∈ succs g v, ∀ a ∈ A ++ [v], ReachG g a w := by
        intro w hw a ha
        have hstep : stepG g v w := step_of_mem_succs hWF hw
        rcases List.mem_append.mp ha with h | h
        · exact (hA a h).tail hstep
        · rw [List.mem_singleton.mp h]
          exact Relation.ReflTransGen.single hstep
      have hm2 : missingCard (keysOf g) (st.1.insert v) < fuel := by
        have := missingCard_insert_lt hvK hv
        omega
      obtain ⟨hI3, hmono3, ⟨d, hd, hdr⟩, hsucc3, hmc3⟩ :=
        koLoop_spec g (A ++ [v]) fuel (koVisit g fuel)
          (fun w stx hw hAx hIx hmx => ih w (A ++ [v]) stx hw hAx hIx hmx)
          (succs g v) (st.1.insert v, st.2) hsubK hreachA2 hIop hm2
      set st3 := koLoop (koVisit g fuel) (succs g v) (st.1.insert v, st.2)
        with hst3
      have hres : koVisit g (fuel + 1) v st = (st3.1, st3.2 ++ [v]) := by
        rw [hst3]
        simp only [koVisit, if_neg hv]
      have hvfin3 : v ∉ st3.2 := fun hm3 =>
        (hI3.finA v hm3)
          (List.mem_append.mpr (Or.inr (List.mem_singleton.mpr rfl)))
      have hvvis3 : v ∈ st3.1 := hmono3 v (List.mem_insert_self v st.1)
      have hdv : ∀ x ∈ d, ReachG g v x := by
        intro x hx
        obtain ⟨w, hw, hwr⟩ := hdr x hx
        exact Relation.ReflTransGen.head (step_of_mem_succs hWF hw) hwr
      have hfin3eq : st3.2 = st.2 ++ d := hd
      have hclosv : ∀ y, stepG g v y → y ∈ st3.1 := by
        intro y hy
        exact hsucc3 y ((mem_succs_iff hWF hvK y).mpr hy)
      have hana : ∀ z, z ∈ st3.1 → ReachG g v z →
          ¬(∃ a ∈ A, ReachG g v a) → z ∈ st3.2 ∨ z = v := by
        intro z hzvis hvz hnoA
        rcases (hI3.visEq z).mp hzvis with hz2 | hz2
        · exact Or.inl hz2
        · rcases List.mem_append.mp hz2 with hz3 | hz3
          · exact absurd ⟨_, hz3, hvz⟩ hnoA
          · exact Or.inr (List.mem_singleton.mp hz3)
      have hCL : ∀ x, ReachG g v x → ¬(∃ a ∈ A, ReachG g v a) →
          x ∈ st3.2 ∨ x = v := by
        intro x hx hnoA
        induction hx with
        | refl => exact Or.inr rfl
        | tail hvy hyz ihy =>
          rcases ihy with hy | hy
          · exact hana _ (hI3.closure _ hy _ hyz) (hvy.tail hyz) hnoA
          · cases hy
            exact hana _ (hclosv _ hyz) (hvy.tail hyz) hnoA
      have hIDX : ∀ z, (z ∈ st3.2 ∨ z = v) →
          ∃ i j, idxOf? (st3.2 ++ [v]) z = some i ∧
            idxOf? (st3.2 ++ [v]) v = some j ∧ i ≤ j := by
        intro z hz
        have hjv : idxOf? (st3.2 ++ [v]) v = some st3.2.length :=
          idxOf?_append_self hvfin3
        rcases hz with hz | rfl
        · obtain ⟨i, hi⟩ := Option.isSome_iff_exists.mp (idxOf?_isSome hz)
          exact ⟨i, _, idxOf?_append_left hi, hjv, Nat.le_of_lt (idxOf?_lt hi)⟩
        · exact ⟨_, _, hjv, hjv, le_refl _⟩
      have hIfin : K1Inv g A (st3.1, st3.2 ++ [v]) := by
        constructor
        · intro x
          show x ∈ st3.1 ↔ x ∈ st3.2 ++ [v] ∨ x ∈ A
          have h3 := hI3.visEq x
          constructor
          · intro hx
            rcases h3.mp hx with h | h
            · exact Or.inl (List.mem_append.mpr (Or.inl h))
            · rcases List.mem_append.mp h with h | h
              · exact Or.inr h
              · exact Or.inl (List.mem_append.mpr (Or.inr h))
          · intro hx
            rcases hx with h | h
            · rcases List.mem_append.mp h with h | h
              · exact h3.mpr (Or.inl h)
              · exact h3.mpr (Or.inr (List.mem_append.mpr (Or.inr h)))
            · exact h3.mpr (Or.inr (List.mem_append.mpr (Or.inl h)))
        · intro x hx ha
          rcases List.mem_append.mp hx with h | h
          · exact hI3.finA x h (List.mem_append.mpr (Or.inl ha))
          · exact hvA ((List.mem_singleton.mp h) ▸ ha)
        · refine List.nodup_append.mpr
            ⟨hI3.finNodup, List.nodup_singleton v, ?_⟩
          intro a ha hav
          exact hvfin3 ((List.mem_singleton.mp hav) ▸ ha)
        · intro x hx
          rcases List.mem_append.mp hx with h | h
          · exact hI3.finKeys x h
          · rw [List.mem_singleton.mp h]
            exact hvK
        · intro x hx y hy
          rcases List.mem_append.mp hx with h | h
          · exact hI3.closure x h y hy
          · rw [List.mem_singleton.mp h] at hy
            exact hclosv y hy
        · intro x hx
          by_cases hxa : ∃ a ∈ A, ReachG g x a
          · exact Or.inl hxa
          right
          rcases List.mem_append.mp hx with hx3 | hxv
          · rcases hI3.op x hx3 with ⟨a, haA2, hra⟩ | hfin
            · rcases List.mem_append.mp haA2 with ha | hav
              · exact absurd ⟨a, ha, hra⟩ hxa
              · have hra2 : ReachG g x v := (List.mem_singleton.mp hav) ▸ hra
                have hxd : x ∈ d := by
                  rcases List.mem_append.mp (hfin3eq ▸ hx3) with hx2 | hx2
                  · exfalso
                    rcases hI.op x hx2 with ⟨a0, ha0, hra0⟩ |
                      ⟨m, hmm2, hallz⟩
                    · exact hxa ⟨a0, ha0, hra0⟩
                    · obtain ⟨i, j, hiz, hjm, _⟩ := hallz v hra2
                      exact hvfin (List.get?_mem (idxOf?_get hiz))
                  · exact hx2
                have hvx : ReachG g v x := hdv x hxd
                have hnoAv : ¬(∃ b ∈ A, ReachG g v b) := fun ⟨b, hb, hrvb⟩ =>
                  hxa ⟨b, hb, hra2.trans hrvb⟩
                exact ⟨v, ⟨hra2, hvx⟩, fun z hz =>
                  hIDX z (hCL z (hvx.trans hz) hnoAv)⟩
            · exact KFinal_append hfin
          · have hxv2 := List.mem_singleton.mp hxv
            subst hxv2
            exact ⟨x, ⟨Relation.ReflTransGen.refl, Relation.ReflTransGen.refl⟩,
              fun z hz => hIDX z (hCL z hz hxa)⟩
      rw [hres]
      refine ⟨hIfin, ?_, ⟨d ++ [v], ?_, ?_⟩, hvvis3⟩
      · intro x hx
        exact hmono3 x (List.mem_insert_of_mem hx)
      · show st3.2 ++ [v] = st.2 ++ (d ++ [v])
        rw [hfin3eq, List.append_assoc]
      · intro x hx
        rcases List.mem_append.mp hx with hx | hx
        · exact hdv x hx
        · rw [List.mem_singleton.mp hx]
          exact Relation.ReflTransGen.refl

theorem koFinish_facts (g : DirectedGraph) (hWF : WF g) :
    (∀ x, x ∈ koFinish g ↔ x ∈ keysOf g) ∧ (koFinish g).Nodup ∧
    (∀ x ∈ keysOf g, KFinal g (koFinish g) x) := by
  have hinit : K1Inv g [] ([], []) := by
    constructor
    · intro x
      simp
    · intro x hx
      cases hx
    · exact List.nodup_nil
    · intro x hx
      cases hx
    · intro x hx
      cases hx
    · intro x hx
      cases hx
  have hfold : ∀ (ks : List String), (∀ k ∈ ks, k ∈ keysOf g) →
      ∀ st, K1Inv g [] st →
      K1Inv g []
        (ks.foldl (fun st v => koVisit g ((keysOf g).length + 1) v st) st) ∧
      (∀ x ∈ st.1, x ∈
        (ks.foldl (fun st v => koVisit g ((keysOf g).length + 1) v st) st).1) ∧
      (∀ k ∈ ks, k ∈
        (ks.foldl (fun st v => koVisit g ((keysOf g).length + 1) v st) st).1)
      := by
    intro ks
    induction ks with
    | nil =>
      intro _ st hI
      exact ⟨hI, fun x hx => hx, fun k hk => absurd hk (List.not_mem_nil k)⟩
    | cons k ks ih =>
      intro hkeys st hI
      obtain ⟨hI1, hmono1, _, hk1⟩ :=
        koVisit_spec g hWF ((keysOf g).length + 1) k [] st
          (hkeys k (List.mem_cons_self _ _))
          (fun a ha => absurd ha (List.not_mem_nil a)) hI
          (missingCard_lt_all _ _)
      obtain ⟨hI2, hmono2, hk2⟩ :=
        ih (fun u hu => hkeys u (List.mem_cons_of_mem _ hu))
          (koVisit g ((keysOf g).length + 1) k st) hI1
      refine ⟨hI2, ?_, ?_⟩
      · intro x hx
        exact hmono2 x (hmono1 x hx)
      · intro u hu
        rcases List.mem_cons.mp hu with rfl | hu
        · exact hmono2 u hk1
        · exact hk2 u hu
  obtain ⟨hIF, _, hallv⟩ := hfold (keysOf g) (fun k hk => hk) ([], []) hinit
  have hvisEq := hIF.visEq
  have hcov : ∀ x, x ∈ koFinish g ↔ x ∈ keysOf g := by
    intro x
    constructor
    · exact fun hx => hIF.finKeys x hx
    · intro hx
      rcases (hvisEq x).mp (hallv x hx) with h | h
      · exact h
      · cases h
  refine ⟨hcov, hIF.finNodup, ?_⟩
  intro x hx
  rcases hIF.op x ((hcov x).mpr hx) with ⟨a, ha, _⟩ | hfin
  · exact absurd ha (List.not_mem_nil a)
  · exact hfin

/-- A transposed walk avoiding the visited set reverses to graph
reachability towards the root. -/
theorem avoidT_to_reach (g : DirectedGraph) (hWF : WF g) {vis : List String}
    {r x : String} (hr : r ∈ keysOf g)
    (h : AvoidReach (predsT g) vis r x) :
    x ∈ keysOf g ∧ ReachG g x r := by
  induction h with
  | refl => exact ⟨hr, Relation.ReflTransGen.refl⟩
  | tail hry hstep ihy =>
    obtain ⟨hyk, hyr⟩ := ihy
    have hstepG := (mem_predsT_iff hWF hyk _).mp hstep.1
    exact ⟨(stepG_mem_keys hWF hstepG).1,
      Relation.ReflTransGen.head hstepG hyr⟩

/-- Members of the root's SCC are reached by a transposed walk that avoids
any SCC-closed visited set not containing the root. -/
theorem scc_avoidT (g : DirectedGraph) (hWF : WF g) {vis : List String}
    {r : String} (hrvis : r ∉ vis)
    (hclosed : ∀ x ∈ vis, ∀ y, ReachG g x y → ReachG g y x → y ∈ vis)
    {y : String} (hyr : ReachG g y r) (hry : ReachG g r y) :
    AvoidReach (predsT g) vis r y := by
  induction hyr using Relation.ReflTransGen.head_induction_on with
  | refl => exact Relation.ReflTransGen.refl
  | head hstep htail ihy =>
    rename_i a c
    have hrc : ReachG g r c := hry.tail hstep
    have hac : AvoidReach (predsT g) vis r c := ihy hrc
    refine hac.tail ⟨?_, ?_⟩
    · exact (mem_predsT_iff hWF (stepG_mem_keys hWF hstep).2 _).mpr hstep
    · intro havis
      exact hrvis
        (hclosed _ havis r (Relation.ReflTransGen.head hstep htail) hry)

theorem idxOf?_append_right {l1 l2 : List String} {x : String} {k : Nat}
    (hx : x ∉ l1) (h : idxOf? l2 x = some k) :
    idxOf? (l1 ++ l2) x = some (l1.length + k) := by
  induction l1 with
  | nil => simpa using h
  | cons a l ih =>
    rw [List.cons_append]
    simp only [idxOf?]
    rw [if_neg (fun ha => hx (by rw [← ha]; exact List.mem_cons_self a l))]
    rw [ih (fun hm => hx (List.mem_cons_of_mem a hm))]
    show some (l.length + k + 1) = some ((a :: l).length + k)
    rw [List.length_cons]
    congr 1
    omega

/-- In the reversed finish list, an element with a strictly later finish
position than the current root lies in the already-processed prefix. -/
theorem pos_gt_mem_processed {fin P rest : List String} {r m : String}
    {i j : Nat} (hnd : fin.Nodup) (hsplit : fin.reverse = P ++ r :: rest)
    (hir : idxOf? fin r = some i) (hjm : idxOf? fin m = some j)
    (hij : i < j) : m ∈ P := by
  have hfin : fin = rest.reverse ++ r :: P.reverse := by
    have h2 := congrArg List.reverse hsplit
    rw [List.reverse_reverse] at h2
    rw [h2]
    simp [List.reverse_append]
  have hrrev : r ∉ rest.reverse := by
    intro hc
    rw [hfin] at hnd
    rcases List.nodup_append.mp hnd with ⟨_, _, hdisj⟩
    exact hdisj hc (List.mem_cons_self _ _)
  have hi : i = rest.length := by
    have : idxOf? fin r = some (rest.reverse.length + 0) := by
      rw [hfin]
      refine idxOf?_append_right hrrev ?_
      simp [idxOf?]
    rw [hir] at this
    have h3 := Option.some.inj this
    simpa using h3
  have hget : fin.get? j = some m := idxOf?_get hjm
  rw [hfin] at hget
  have hlen : rest.reverse.length ≤ j := by
    simp only [List.length_reverse]
    omega
  rw [List.get?_append_right hlen] at hget
  have hj2 : j - rest.reverse.length ≥ 1 := by
    simp only [List.length_reverse]
    omega
  cases hjr : j - rest.reverse.length with
  | zero => omega
  | succ n =>
    rw [hjr] at hget
    have : P.reverse.get? n = some m := by simpa using hget
    have hmem : m ∈ P.reverse := List.get?_mem this
    exact List.mem_reverse.mp hmem

/-- Pass-2 state invariant: `P` is the processed prefix of the reversed
finish list, `st.1` the visited set, `st.2` the emitted components. -/
structure P2Inv (g : DirectedGraph) (P : List String)
    (st : List String × List (List String)) : Prop where
  visKeys : ∀ x ∈ st.1, x ∈ keysOf g
  sccClosed : ∀ x ∈ st.1, ∀ y, ReachG g x y → ReachG g y x → y ∈ st.1
  visUnion : ∀ x, x ∈ st.1 ↔ ∃ c ∈ st.2, x ∈ c
  compSCC : ∀ c ∈ st.2, ∃ r, ∀ y, y ∈ c ↔ MutReach g r y
  compDisj : st.2.Pairwise (fun c d => ∀ x ∈ c, x ∉ d)
  compNE : ∀ c ∈ st.2, c ≠ []
  procVis : ∀ x ∈ P, x ∈ st.1

theorem koCollect_fold (g : DirectedGraph) (hWF : WF g) (fin : List String)
    (hfinNodup : fin.Nodup) (hfinKeys : ∀ x ∈ fin, x ∈ keysOf g)
    (hfinCov : ∀ x ∈ keysOf g, x ∈ fin)
    (hML : ∀ x ∈ fin, KFinal g fin x) :
    ∀ (rest P : List String) (st : List String × List (List String)),
      fin.reverse = P ++ rest → P2Inv g P st →
      P2Inv g (P ++ rest)
        (rest.foldl (fun st r =>
          if r ∈ st.1 then st
          else
            (dfsA (predsT g) ((keysOf g).length + 1) r st.1,
             st.2 ++ [(dfsA (predsT g) ((keysOf g).length + 1) r st.1).filter
               (fun x => decide (x ∉ st.1))])) st) := by
  intro rest
  induction rest with
  | nil =>
    intro P st hsplit hI
    rw [List.append_nil]
    exact hI
  | cons r rest ih =>
    intro P st hsplit hI
    rw [List.foldl_cons]
    have hsplit2 : fin.reverse = (P ++ [r]) ++ rest := by
      rw [List.append_assoc]
      exact hsplit
    have hgoaleq : P ++ r :: rest = (P ++ [r]) ++ rest := by
      rw [List.append_assoc]
      rfl
    rw [hgoaleq]
    by_cases hr : r ∈ st.1
    · simp only [if_pos hr]
      refine ih (P ++ [r]) st hsplit2 ?_
      refine ⟨hI.visKeys, hI.sccClosed, hI.visUnion, hI.compSCC,
        hI.compDisj, hI.compNE, ?_⟩
      intro x hx
      rcases List.mem_append.mp hx with hx | hx
      · exact hI.procVis x hx
      · rw [List.mem_singleton.mp hx]
        exact hr
    · simp only [if_neg hr]
      have hrfin : r ∈ fin := by
        refine List.mem_reverse.mp ?_
        rw [hsplit]
        exact List.mem_append.mpr (Or.inr (List.mem_cons_self _ _))
      have hrK : r ∈ keysOf g := hfinKeys r hrfin
      have hchar : ∀ x, x ∈ dfsA (predsT g) ((keysOf g).length + 1) r st.1 ↔
          x ∈ st.1 ∨ AvoidReach (predsT g) st.1 r x :=
        fun x => dfsA_mem_iff_avoid (predsT g) (keysOf g)
          (predsT_closed hWF) hrK hI.visKeys hr (missingCard_lt_all _ _) x
      have hnew : ∀ x,
          x ∈ (dfsA (predsT g) ((keysOf g).length + 1) r st.1).filter
            (fun x => decide (x ∉ st.1)) ↔ MutReach g r x := by
        intro x
        rw [List.mem_filter, decide_eq_true_eq]
        constructor
        · intro ⟨hxv, hxn⟩
          rcases (hchar x).mp hxv with hx1 | hx1
          · exact absurd hx1 hxn
          · obtain ⟨hxK, hxr⟩ := avoidT_to_reach g hWF hrK hx1
            obtain ⟨m, hmut, hmax⟩ := hML x (hfinCov x hxK)
            obtain ⟨i, j, hir2, hjm, hij⟩ := hmax r hxr
            have hmn : m ∉ st.1 :=
              fun hmvis => hxn (hI.sccClosed m hmvis x hmut.2 hmut.1)
            have hji : j ≤ i := by
              by_contra hc
              exact hmn (hI.procVis m
                (pos_gt_mem_processed hfinNodup hsplit hir2 hjm (by omega)))
            have hjieq : j = i := le_antisymm hji hij
            rw [hjieq] at hjm
            have hrm : r = m := idxOf?_inj hir2 hjm
            exact ⟨hrm ▸ hmut.2, hxr⟩
        · intro hmut
          have havoid := scc_avoidT g hWF hr hI.sccClosed hmut.2 hmut.1
          have hxn : x ∉ st.1 :=
            fun hxvis => hr (hI.sccClosed x hxvis r hmut.2 hmut.1)
          exact ⟨(hchar x).mpr (Or.inr havoid), hxn⟩
      refine ih (P ++ [r]) _ hsplit2 ?_
      constructor
      · intro x hx
        rcases (hchar x).mp hx with hx1 | hx1
        · exact hI.visKeys x hx1
        · exact (avoidT_to_reach g hWF hrK hx1).1
      · intro x hx y hxy hyx
        by_cases hx1 : x ∈ st.1
        · exact dfsA_subset _ _ _ _ y (hI.sccClosed x hx1 y hxy hyx)
        · have hxn : x ∈ (dfsA (predsT g) ((keysOf g).length + 1)
              r st.1).filter (fun x => decide (x ∉ st.1)) :=
            List.mem_filter.mpr ⟨hx, by simpa using hx1⟩
          have hrx := (hnew x).mp hxn
          have hry2 : MutReach g r y := ⟨hrx.1.trans hxy, hyx.trans hrx.2⟩
          exact (List.mem_filter.mp ((hnew y).mpr hry2)).1
      · intro x
        constructor
        · intro hx
          by_cases hx1 : x ∈ st.1
          · obtain ⟨c, hc, hxc⟩ := (hI.visUnion x).mp hx1
            exact ⟨c, List.mem_append.mpr (Or.inl hc), hxc⟩
          · refine ⟨_, List.mem_append.mpr (Or.inr (List.mem_singleton.mpr
              rfl)), ?_⟩
            exact List.mem_filter.mpr ⟨hx, by simpa using hx1⟩
        · intro ⟨c, hc, hxc⟩
          rcases List.mem_append.mp hc with hc | hc
          · exact dfsA_subset _ _ _ _ x ((hI.visUnion x).mpr ⟨c, hc, hxc⟩)
          · rw [List.mem_singleton.mp hc] at hxc
            exact (List.mem_filter.mp hxc).1
      · intro c hc
        rcases List.mem_append.mp hc with hc | hc
        · exact hI.compSCC c hc
        · rw [List.mem_singleton.mp hc]
          exact ⟨r, hnew⟩
      · refine List.pairwise_append.mpr ⟨hI.compDisj,
          List.pairwise_singleton _ _, ?_⟩
        intro c hc d hd x hxc
        rw [List.mem_singleton.mp hd]
        intro hxd
        exact (List.mem_filter.mp hxd |>.2 |> of_decide_eq_true)
          ((hI.visUnion x).mpr ⟨c, hc, hxc⟩)
      · intro c hc
        rcases List.mem_append.mp hc with hc | hc
        · exact hI.compNE c hc
        · rw [List.mem_singleton.mp hc]
          exact List.ne_nil_of_mem ((hnew r).mpr
            ⟨Relation.ReflTransGen.refl, Relation.ReflTransGen.refl⟩)
      · intro x hx
        rcases List.mem_append.mp hx with hx | hx
        · exact dfsA_subset _ _ _ _ x (hI.procVis x hx)
        · rw [List.mem_singleton.mp hx]
          exact (List.mem_filter.mp ((hnew r).mpr
            ⟨Relation.ReflTransGen.refl, Relation.ReflTransGen.refl⟩)).1

theorem kosaraju_scc (g : DirectedGraph) (hWF : WF g) :
    (∀ x, x ∈ keysOf g ↔ ∃ c ∈ kosarajuComponents g, x ∈ c) ∧
    (∀ c ∈ kosarajuComponents g, ∀ u ∈ c, ∀ v ∈ c, ReachG g u v) ∧
    (∀ c ∈ kosarajuComponents g, ∀ u ∈ c, ∀ v,
      ReachG g u v → ReachG g v u → v ∈ c) ∧
    (kosarajuComponents g).Pairwise (fun c d => ∀ x ∈ c, x ∉ d) ∧
    (∀ c ∈ kosarajuComponents g, c ≠ []) := by
  obtain ⟨hcov, hnd, hML⟩ := koFinish_facts g hWF
  have hI0 : P2Inv g [] ([], []) := by
    constructor
    · intro x hx
      cases hx
    · intro x hx
      cases hx
    · intro x
      simp
    · intro c hc
      cases hc
    · exact List.Pairwise.nil
    · intro c hc
      cases hc
    · intro x hx
      cases hx
  have hfold := koCollect_fold g hWF (koFinish g) hnd
    (fun x hx => (hcov x).mp hx) (fun x hx => (hcov x).mpr hx)
    (fun x hx => hML x ((hcov x).mp hx))
    (koFinish g).reverse [] ([], []) rfl hI0
  have hcomps : kosarajuComponents g =
      ((koFinish g).reverse.foldl (fun st r =>
        if r ∈ st.1 then st
        else
          (dfsA (predsT g) ((keysOf g).length + 1) r st.1,
           st.2 ++ [(dfsA (predsT g) ((keysOf g).length + 1) r st.1).filter
             (fun x => decide (x ∉ st.1))])) ([], [])).2 := rfl
  rw [hcomps]
  refine ⟨?_, ?_, ?_, hfold.compDisj, hfold.compNE⟩
  · intro x
    constructor
    · intro hx
      refine (hfold.visUnion x).mp ?_
      refine hfold.procVis x ?_
      simp only [List.nil_append]
      exact List.mem_reverse.mpr ((hcov x).mpr hx)
    · intro ⟨c, hc, hxc⟩
      exact hfold.visKeys x ((hfold.visUnion x).mpr ⟨c, hc, hxc⟩)
  · intro c hc u hu v hv
    obtain ⟨r, hiff⟩ := hfold.compSCC c hc
    exact ((hiff u).mp hu).2.trans ((hiff v).mp hv).1
  · intro c hc u hu v hv1 hv2
    obtain ⟨r, hiff⟩ := hfold.compSCC c hc
    have hru := (hiff u).mp hu
    exact (hiff v).mpr ⟨hru.1.trans hv1, hv2.trans hru.2⟩

/-- Two SCC partitions of the same graph agree as multisets of label sets. -/
theorem scc_partition_unique {g : DirectedGraph}
    {P Q : List (List String)}
    (hPcov : ∀ x, x ∈ keysOf g ↔ ∃ c ∈ P, x ∈ c)
    (hPmut : ∀ c ∈ P, ∀ u ∈ c, ∀ v ∈ c, ReachG g u v)
    (hPmax : ∀ c ∈ P, ∀ u ∈ c, ∀ v, ReachG g u v → ReachG g v u → v ∈ c)
    (hPdisj : P.Pairwise (fun c d => ∀ x ∈ c, x ∉ d))
    (hPne : ∀ c ∈ P, c ≠ [])
    (hQcov : ∀ x, x ∈ keysOf g ↔ ∃ c ∈ Q, x ∈ c)
    (hQmut : ∀ c ∈ Q, ∀ u ∈ c, ∀ v ∈ c, ReachG g u v)
    (hQmax : ∀ c ∈ Q, ∀ u ∈ c, ∀ v, ReachG g u v → ReachG g v u → v ∈ c)
    (hQdisj : Q.Pairwise (fun c d => ∀ x ∈ c, x ∉ d))
    (hQne : ∀ c ∈ Q, c ≠ []) :
    (P.map List.toFinset).Perm (Q.map List.toFinset) := by
  have hmapnd : ∀ (R : List (List String)),
      R.Pairwise (fun c d => ∀ x ∈ c, x ∉ d) → (∀ c ∈ R, c ≠ []) →
      (R.map List.toFinset).Nodup := by
    intro R hdisj hne
    have h2 : R.Pairwise (fun c d => List.toFinset c ≠ List.toFinset d) := by
      refine List.Pairwise.imp_of_mem ?_ hdisj
      intro c d hc hd hcd heq
      obtain ⟨x, hx⟩ := List.exists_mem_of_ne_nil c (hne c hc)
      exact hcd x hx (List.mem_toFinset.mp (heq ▸ List.mem_toFinset.mpr hx))
    exact List.Pairwise.map _ (fun a b h => h) h2
  have hdir : ∀ (R S : List (List String)),
      (∀ x, x ∈ keysOf g ↔ ∃ c ∈ R, x ∈ c) →
      (∀ c ∈ R, ∀ u ∈ c, ∀ v ∈ c, ReachG g u v) →
      (∀ c ∈ R, c ≠ []) →
      (∀ x, x ∈ keysOf g ↔ ∃ c ∈ S, x ∈ c) →
      (∀ c ∈ S, ∀ u ∈ c, ∀ v ∈ c, ReachG g u v) →
      (∀ c ∈ S, ∀ u ∈ c, ∀ v, ReachG g u v → ReachG g v u → v ∈ c) →
      (∀ c ∈ R, ∀ u ∈ c, ∀ v, ReachG g u v → ReachG g v u → v ∈ c) →
      ∀ F, F ∈ R.map List.toFinset → F ∈ S.map List.toFinset := by
    intro R S hRcov hRmut hRne hScov hSmut hSmax hRmax F hF
    obtain ⟨c, hc, rfl⟩ := List.mem_map.mp hF
    obtain ⟨x, hx⟩ := List.exists_mem_of_ne_nil c (hRne c hc)
    have hxk : x ∈ keysOf g := (hRcov x).mpr ⟨c, hc, hx⟩
    obtain ⟨d, hd, hxd⟩ := (hScov x).mp hxk
    refine List.mem_map.mpr ⟨d, hd, ?_⟩
    ext y
    rw [List.mem_toFinset, List.mem_toFinset]
    constructor
    · intro hyd
      exact hRmax c hc x hx y (hSmut d hd x hxd y hyd)
        (hSmut d hd y hyd x hxd)
    · intro hyc
      exact hSmax d hd x hxd y (hRmut c hc x hx y hyc)
        (hRmut c hc y hyc x hx)
  refine (List.perm_ext_iff_of_nodup (hmapnd P hPdisj hPne)
    (hmapnd Q hQdisj hQne)).mpr ?_
  intro F
  exact ⟨hdir P Q hPcov hPmut hPne hQcov hQmut hQmax hPmax F,
    hdir Q P hQcov hQmut hQne hPcov hPmut hPmax hQmax F⟩

/-- Claim C3: for every well-formed graph, the Tarjan decomposition
(src/graph.py) and the Kosaraju decomposition (modelled from the spec, as no
Kosaraju code exists under src/) return the same partition — the same
multiset of label sets, order irrelevant. -/
theorem claim_C3_tarjan_kosaraju (g : DirectedGraph) (hWF : WF g) :
    ((get_strongly_connected_components g).map List.toFinset).Perm
      ((kosarajuComponents g).map List.toFinset) := by
  obtain ⟨h1, _, h3, h4, h5, h6⟩ := tarjan_scc g hWF
  obtain ⟨k1, k2, k3, k4, k5⟩ := kosaraju_scc g hWF
  exact scc_partition_unique h1 h4 h5 h3 h6 k1 k2 k3 k4 k5

/-- Concrete instance of claim C3 on the graph with edges A→B, B→A, B→C. -/
theorem claim_C3_tarjan_kosaraju_witness :
    ((get_strongly_connected_components
        (buildGraph [("A", "B"), ("B", "A"), ("B", "C")])).map
      List.toFinset).Perm
      ((kosarajuComponents
        (buildGraph [("A", "B"), ("B", "A"), ("B", "C")])).map
      List.toFinset) :=
  claim_C3_tarjan_kosaraju (buildGraph [("A", "B"), ("B", "A"), ("B", "C")])
    (wf_buildGraph _)

/-! ### Query purity (claim C10)

None of the five query methods assigns to `self.vertices`, `self.edges`, or
any `Vertex` object; all their mutation is on method-local lists, sets and
dicts.  Their embeddings are therefore functions of the graph value; the
state-threaded wrappers below return the graph a caller holds after the
call, making the frame property explicit. -/

inductive Query
  | getPath (s e : String)
  | getReachable (s : String)
  | getSCC
  | buildCondensed (sccs : List (List String))
  | countMin (s : String)

inductive QueryResult
  | path (r : Except String (List PyObj))
  | reached (r : List String)
  | comps (r : List (List String))
  | condensed (r : Option (List (List Nat)))
  | count (r : Option Nat)

/-- Run one query method on the graph, returning its result together with
the graph state after the call. -/
def runQuery (g : DirectedGraph) : Query → QueryResult × DirectedGraph
  | .getPath s e => (.path (get_path g s e), g)
  | .getReachable s => (.reached (get_all_reachable_vertices g s), g)
  | .getSCC => (.comps (get_strongly_connected_components g), g)
  | .buildCondensed sccs => (.condensed (build_condensed_graph g sccs), g)
  | .countMin s => (.count (count_min_additional_edges g s), g)

/-- Claim C10: every query operation — get_path, get_all_reachable_vertices,
get_strongly_connected_components, build_condensed_graph, and
count_min_additional_edges — leaves the graph state unchanged: the
label-to-vertex mapping and the edge collection (hence every vertex's label
and incident-edge id sets) are identical after the call. -/
theorem claim_C10_queries_pure (g : DirectedGraph) (q : Query) :
    (runQuery g q).2.vertices = g.vertices ∧
    (runQuery g q).2.edges = g.edges := by
  cases q <;> exact ⟨rfl, rfl⟩

end GraphTheory